import Mathlib

/-!
# Verification of the traffic-jam solver kernel

A shallow embedding, in Lean 4, of the search kernel of the
`traffic-jam-solver` repository (the sliding-vehicle "Rush Hour" puzzle
solver): the shared state kernel (`buildOccupancyMatrix`, `generateMoves`,
`applyMove`, `stateKey`, `isGoalState`, `buildStateHistory`,
`reconstructPath`, `describeMove`), the three solver entry points present
in the sources (`solveWithBfs` in `src/algorithms/bfs.js`, `solveWithDfs`
in `src/algorithms/dfs.js`, `solveWithAStar` in `src/algorithms/astar.js`),
and the textual puzzle parser (`parsePuzzle` and its helpers in
`src/models/boardRenderer.js`).

Conventions of the embedding:
* JavaScript numbers holding grid coordinates are modelled as `Int`
  (they are produced by `parseInt` and by integer arithmetic only).
* The `while` loops of the solvers are modelled as fuel-indexed recursion;
  a solver returns `none` exactly when the fuel is exhausted before the
  loop terminates by itself.
* The occupancy matrix is modelled as its lookup function
  (`occupancyAt ctx s r c` is `matrix[r][c]`, built with the same
  last-writer-wins semantics as the JavaScript `forEach` loop).
* Wall-clock time (`timeMs`) is not modelled; the field is kept in the
  result record with value `0`.  The progress callback only observes the
  search, so it is dropped.  The cancellation token is modelled as a
  function `Nat → Bool` giving the value of `signal.aborted` at the top of
  each expansion iteration.
* Places where the JavaScript would crash on structurally ill-formed data
  (an index out of range) are totalised with `Option`/defaults; every
  theorem about them carries the well-formedness hypothesis that rules
  the crash out.
-/

namespace TrafficJam

/-- A grid cell or anchor, `{row, col}` in the source. -/
structure Position where
  row : Int
  col : Int
deriving DecidableEq, Repr

/-- Vehicle orientation, `'horizontal' | 'vertical' | 'single'`. -/
inductive Orientation where
  | horizontal
  | vertical
  | single
deriving DecidableEq, Repr

/-- Move direction, `'left' | 'right' | 'up' | 'down'`. -/
inductive Direction where
  | left
  | right
  | up
  | down
deriving DecidableEq, Repr

/-- A move `{vehicleIndex, direction, steps}`. -/
structure Move where
  vehicleIndex : Nat
  direction : Direction
  steps : Nat
deriving DecidableEq, Repr

/-- A vehicle of the solving context, as produced by `createContext`. -/
structure Vehicle where
  orientation : Orientation
  length : Nat
  isGoal : Bool
  label : String
  initialPosition : Position
deriving DecidableEq, Repr

/-- The solving context produced by `createContext`. -/
structure Context where
  rows : Int
  columns : Int
  exit : Position
  vehicles : List Vehicle
  goalIndex : Nat
deriving DecidableEq, Repr

/-- `DIRECTION_OFFSETS`: row/column delta of each direction. -/
def directionOffset : Direction → Position
  | .left => ⟨0, -1⟩
  | .right => ⟨0, 1⟩
  | .up => ⟨-1, 0⟩
  | .down => ⟨1, 0⟩

/-- `DIRECTION_DESCRIPTIONS`: Spanish phrase for each direction. -/
def directionDescription : Direction → String
  | .left => "hacia la izquierda"
  | .right => "hacia la derecha"
  | .up => "hacia arriba"
  | .down => "hacia abajo"

/-- `clonePositions`: value-copy of a position vector. -/
def clonePositions (positions : List Position) : List Position :=
  positions.map fun position => ⟨position.row, position.col⟩

theorem clonePositions_eq_self (positions : List Position) :
    clonePositions positions = positions := by
  unfold clonePositions
  induction positions with
  | nil => rfl
  | cons p rest ih => simp [ih]

/-- `applyMove`: translate the moved vehicle's anchor by
`direction × steps`, copy every other anchor. -/
def applyMove (positions : List Position) (move : Move) : List Position :=
  let delta := directionOffset move.direction
  positions.mapIdx fun index position =>
    if index ≠ move.vehicleIndex then ⟨position.row, position.col⟩
    else ⟨position.row + delta.row * move.steps,
          position.col + delta.col * move.steps⟩

/-- `stateKey`: canonical string serialisation `r,c|r,c|…` of a state. -/
def stateKey (positions : List Position) : String :=
  String.intercalate "|"
    (positions.map fun position =>
      toString position.row ++ "," ++ toString position.col)

/-- The deltas with which a vehicle covers its cells in
`buildOccupancyMatrix`: `deltaRow = vertical ? 1 : 0`,
`deltaCol = horizontal ? 1 : 0`. -/
def coverDelta (o : Orientation) : Int × Int :=
  (if o = .vertical then 1 else 0, if o = .horizontal then 1 else 0)

/-- The cell written by vehicle `v`, anchored at `p`, at `offset` in the
occupancy loop of `buildOccupancyMatrix`. -/
def vehicleCell (v : Vehicle) (p : Position) (offset : Nat) : Position :=
  ⟨p.row + (coverDelta v.orientation).1 * offset,
   p.col + (coverDelta v.orientation).2 * offset⟩

/-- Whether vehicle `v`, anchored at `p`, writes cell `(r, c)` in the
occupancy matrix (one write per `offset < v.length`). -/
def vehicleCovers (v : Vehicle) (p : Position) (r c : Int) : Bool :=
  (List.range v.length).any fun offset =>
    r = (vehicleCell v p offset).row ∧ c = (vehicleCell v p offset).col

/-- One vehicle's contribution to the occupancy matrix entry at `(r, c)`:
overwrite the accumulator with the vehicle's index when it covers the
cell. -/
def occUpdate (positions : List Position) (r c : Int) (acc : Int)
    (iv : Nat × Vehicle) : Int :=
  match positions.get? iv.1 with
  | none => acc
  | some p => if vehicleCovers iv.2 p r c then Int.ofNat iv.1 else acc

/-- `buildOccupancyMatrix`, modelled as the lookup function of the matrix:
the entry at `(r, c)` after all vehicles have written their cells in index
order (`-1` when no vehicle covers the cell, otherwise the index of the
last vehicle that wrote it). -/
def occupancyAt (ctx : Context) (positions : List Position) (r c : Int) : Int :=
  ctx.vehicles.enum.foldl (occUpdate positions r c) (-1)

/-- The `while` loops of `generateMoves`, one per direction: emit the step
values `start, start + 1, …` for as long as `ok` holds (`fuel` bounds the
iteration count; every use supplies fuel past which `ok` is false, so the
loop is never cut short). -/
def stepsFrom (ok : Nat → Bool) (start : Nat) : Nat → List Nat
  | 0 => []
  | fuel + 1 => if ok start then start :: stepsFrom ok (start + 1) fuel else []

/-- One direction's emissions of `generateMoves`: step values `1, 2, …`
for as long as `ok` holds. -/
def stepsWhile (ok : Nat → Bool) (fuel : Nat) : List Nat :=
  stepsFrom ok 1 fuel

/-- Condition of the `left` loop of `generateMoves` for vehicle anchored
at `p`: target column in range and empty. -/
def leftOk (ctx : Context) (positions : List Position) (p : Position)
    (step : Nat) : Bool :=
  0 ≤ p.col - step && occupancyAt ctx positions p.row (p.col - step) == -1

/-- Condition of the `right` loop of `generateMoves` (`tailCol` is
`p.col + length - 1`). -/
def rightOk (ctx : Context) (positions : List Position) (p : Position)
    (tailCol : Int) (step : Nat) : Bool :=
  tailCol + step < ctx.columns &&
    occupancyAt ctx positions p.row (tailCol + step) == -1

/-- Condition of the `up` loop of `generateMoves`. -/
def upOk (ctx : Context) (positions : List Position) (p : Position)
    (step : Nat) : Bool :=
  0 ≤ p.row - step && occupancyAt ctx positions (p.row - step) p.col == -1

/-- Condition of the `down` loop of `generateMoves` (`tailRow` is
`p.row + length - 1`). -/
def downOk (ctx : Context) (positions : List Position) (p : Position)
    (tailRow : Int) (step : Nat) : Bool :=
  tailRow + step < ctx.rows &&
    occupancyAt ctx positions (tailRow + step) p.col == -1

/-- The moves `generateMoves` emits for one vehicle (apart from the shared
occupancy matrix): the horizontal block (`left` then `right`) when the
orientation is horizontal or single, then the vertical block (`up` then
`down`) when it is vertical or single. -/
def movesForVehicle (ctx : Context) (positions : List Position)
    (index : Nat) (v : Vehicle) (p : Position) : List Move :=
  (if v.orientation = .horizontal ∨ v.orientation = .single then
    ((stepsWhile (leftOk ctx positions p) (p.col.toNat + 1)).map
      fun step => Move.mk index .left step) ++
    ((stepsWhile (rightOk ctx positions p (p.col + v.length - 1))
        ((ctx.columns - (p.col + v.length - 1)).toNat + 1)).map
      fun step => Move.mk index .right step)
  else []) ++
  (if v.orientation = .vertical ∨ v.orientation = .single then
    ((stepsWhile (upOk ctx positions p) (p.row.toNat + 1)).map
      fun step => Move.mk index .up step) ++
    ((stepsWhile (downOk ctx positions p (p.row + v.length - 1))
        ((ctx.rows - (p.row + v.length - 1)).toNat + 1)).map
      fun step => Move.mk index .down step)
  else [])

/-- `generateMoves`: all legal moves from a state.  A vehicle whose index
has no entry in the position vector contributes nothing (the JavaScript
would crash there; every use is guarded by well-formedness). -/
def generateMoves (ctx : Context) (positions : List Position) : List Move :=
  ctx.vehicles.enum.flatMap fun iv =>
    match positions.get? iv.1 with
    | none => []
    | some p => movesForVehicle ctx positions iv.1 iv.2 p

/-- `isGoalState`: the goal vehicle's occupied span contains the exit. -/
def isGoalState (ctx : Context) (positions : List Position) : Bool :=
  match ctx.vehicles.get? ctx.goalIndex, positions.get? ctx.goalIndex with
  | some goalVehicle, some goalPosition =>
    match goalVehicle.orientation with
    | .horizontal =>
      goalPosition.row == ctx.exit.row &&
        (ctx.exit.col ≥ goalPosition.col &&
         ctx.exit.col ≤ goalPosition.col + goalVehicle.length - 1)
    | .vertical =>
      goalPosition.col == ctx.exit.col &&
        (ctx.exit.row ≥ goalPosition.row &&
         ctx.exit.row ≤ goalPosition.row + goalVehicle.length - 1)
    | .single =>
      goalPosition.row == ctx.exit.row && goalPosition.col == ctx.exit.col
  | _, _ => false

/-- Tail of `buildStateHistory`: states after each successive move. -/
def buildStateHistoryAux (current : List Position) :
    List Move → List (List Position)
  | [] => []
  | move :: moves =>
    let next := applyMove current move
    next :: buildStateHistoryAux next moves

/-- `buildStateHistory`: the initial state followed by the state after
each move. -/
def buildStateHistory (initialPositions : List Position)
    (moves : List Move) : List (List Position) :=
  clonePositions initialPositions ::
    buildStateHistoryAux (clonePositions initialPositions) moves

/-- `describeMove`: Spanish action string for a move. -/
def describeMove (vehicle : Vehicle) (move : Move) : String :=
  let directionText := directionDescription move.direction
  if move.steps ≤ 1 then
    "mover " ++ vehicle.label ++ " " ++ directionText
  else
    let stepLabel := if move.steps = 1 then "espacio" else "espacios"
    "mover " ++ vehicle.label ++ " " ++ directionText ++ " " ++
      toString move.steps ++ " " ++ stepLabel

/-- Replaying a list of moves from a state (the reference fold used to
state replay properties). -/
def replayMoves (start : List Position) (moves : List Move) : List Position :=
  moves.foldl applyMove start

/-- `context.vehicles.map(v => v.initialPosition)`: the start state of
every solver. -/
def initialPositions (ctx : Context) : List Position :=
  ctx.vehicles.map fun vehicle => vehicle.initialPosition

/-- Solver result status. -/
inductive Status where
  | solved
  | unsolved
  | aborted
deriving DecidableEq, Repr

/-- Solver metrics (`timeMs` is kept but not modelled; it is always 0). -/
structure Metrics where
  explored : Nat
  frontier : Nat
  depth : Nat
  timeMs : Nat
deriving DecidableEq, Repr

/-- The uniform result object of the solvers. -/
structure SolveResult where
  status : Status
  moves : List Move
  stateHistory : List (List Position)
  actions : List String
  metrics : Metrics
  vehicleLabels : List String
deriving DecidableEq, Repr

/-- `context.vehicles[move.vehicleIndex]` lookup used when rendering
actions; the default is never reached on solver-produced moves. -/
def vehicleAt (ctx : Context) (index : Nat) : Vehicle :=
  (ctx.vehicles.get? index).getD ⟨.single, 1, false, "", ⟨0, 0⟩⟩

theorem applyMove_length (positions : List Position) (move : Move) :
    (applyMove positions move).length = positions.length := by
  simp [applyMove]

theorem applyMove_get? (positions : List Position) (move : Move) (i : Nat) :
    (applyMove positions move).get? i =
      (positions.get? i).map fun position =>
        if i ≠ move.vehicleIndex then position
        else ⟨position.row + (directionOffset move.direction).row * move.steps,
              position.col + (directionOffset move.direction).col * move.steps⟩ := by
  rcases h : positions.get? i with _ | p
  · have : positions.length ≤ i := by
      simpa using List.get?_eq_none.mp h
    simp [applyMove, List.get?_eq_none.mpr, this]
  · unfold applyMove
    rw [List.mapIdx_eq_enum_map, List.get?_map, List.get?_enum, h]
    by_cases hiv : i = move.vehicleIndex <;> simp [hiv]

/--
C9: `applyMove` returns a new state vector in which the entry at
`move.vehicleIndex` is the input anchor translated by the move's direction
offset times its steps, and every other entry equals the input entry.
(The input vector is a value in this embedding; the absence of mutation is
inherent: the function's result is a fresh list and the argument is
untouched.)
-/
theorem applyMove_spec (positions : List Position) (move : Move) :
    (applyMove positions move).length = positions.length ∧
    (∀ i, i < positions.length → i ≠ move.vehicleIndex →
      (applyMove positions move).get? i = positions.get? i) ∧
    (∀ p, positions.get? move.vehicleIndex = some p →
      (applyMove positions move).get? move.vehicleIndex =
        some ⟨p.row + (directionOffset move.direction).row * move.steps,
              p.col + (directionOffset move.direction).col * move.steps⟩) := by
  refine ⟨applyMove_length positions move, ?_, ?_⟩
  · intro i _ hne
    rw [applyMove_get?]
    rcases h : positions.get? i with _ | p
    · rfl
    · simp [hne]
  · intro p hp
    rw [applyMove_get?, hp]
    simp

/-- Witness for `applyMove_spec` at a concrete two-vehicle state and a
two-cell `down` move. -/
theorem applyMove_spec_witness :
    ((applyMove [⟨0, 0⟩, ⟨1, 2⟩] ⟨1, .down, 2⟩).length = 2 ∧
     (∀ i, i < 2 → i ≠ 1 →
       (applyMove [⟨0, 0⟩, ⟨1, 2⟩] ⟨1, .down, 2⟩).get? i =
         [(⟨0, 0⟩ : Position), ⟨1, 2⟩].get? i) ∧
     (∀ p, [(⟨0, 0⟩ : Position), ⟨1, 2⟩].get? 1 = some p →
       (applyMove [⟨0, 0⟩, ⟨1, 2⟩] ⟨1, .down, 2⟩).get? 1 =
         some ⟨p.row + (directionOffset .down).row * 2,
               p.col + (directionOffset .down).col * 2⟩)) := by
  simpa using applyMove_spec [⟨0, 0⟩, ⟨1, 2⟩] ⟨1, .down, 2⟩

theorem mem_stepsFrom {ok : Nat → Bool} :
    ∀ {fuel start k : Nat}, k ∈ stepsFrom ok start fuel ↔
      start ≤ k ∧ k < start + fuel ∧ ∀ j, start ≤ j → j ≤ k → ok j = true := by
  intro fuel
  induction fuel with
  | zero =>
    intro start k
    constructor
    · intro h; cases h
    · rintro ⟨h1, h2, _⟩; omega
  | succ fuel ih =>
    intro start k
    rw [stepsFrom]
    by_cases h : ok start = true
    · rw [if_pos h]
      simp only [List.mem_cons, ih]
      constructor
      · rintro (rfl | ⟨h1, h2, h3⟩)
        · refine ⟨le_rfl, by omega, ?_⟩
          intro j hj1 hj2
          have hj : j = k := by omega
          rw [hj]; exact h
        · refine ⟨by omega, by omega, ?_⟩
          intro j hj1 hj2
          rcases Nat.eq_or_lt_of_le hj1 with rfl | hlt
          · exact h
          · exact h3 j hlt hj2
      · rintro ⟨h1, h2, h3⟩
        rcases Nat.eq_or_lt_of_le h1 with rfl | hlt
        · exact Or.inl rfl
        · exact Or.inr ⟨hlt, by omega, fun j hj1 hj2 => h3 j (by omega) hj2⟩
    · rw [if_neg h]
      simp only [List.not_mem_nil, false_iff]
      rintro ⟨h1, _, h3⟩
      exact h (h3 start le_rfl h1)

/-- The occupancy fold returns `-1` iff it starts at `-1` and no vehicle
of the list covers the cell. -/
theorem occ_foldl_eq_neg_one {positions : List Position} {r c : Int} :
    ∀ {l : List (Nat × Vehicle)} {acc : Int},
      l.foldl (occUpdate positions r c) acc = -1 ↔
        (acc = -1 ∧ ∀ iv ∈ l, ∀ p, positions.get? iv.1 = some p →
          vehicleCovers iv.2 p r c = false) := by
  intro l
  induction l with
  | nil => intro acc; simp
  | cons iv rest ih =>
    intro acc
    simp only [List.foldl_cons, ih, List.mem_cons]
    constructor
    · rintro ⟨h1, h2⟩
      have hacc : acc = -1 ∧ ∀ p, positions.get? iv.1 = some p →
          vehicleCovers iv.2 p r c = false := by
        rcases hg : positions.get? iv.1 with _ | p
        · simp only [occUpdate, hg] at h1
          exact ⟨h1, fun p hp => by simp [hg] at hp⟩
        · simp only [occUpdate, hg] at h1
          by_cases hc : vehicleCovers iv.2 p r c = true
          · rw [if_pos hc] at h1
            have h1c : (iv.1 : Int) = -1 := h1
            omega
          · rw [if_neg hc] at h1
            refine ⟨h1, fun q hq => ?_⟩
            cases hq
            simpa using hc
      refine ⟨hacc.1, ?_⟩
      rintro jw (rfl | hjw)
      · exact hacc.2
      · exact h2 jw hjw
    · rintro ⟨h1, h2⟩
      refine ⟨?_, fun jw hjw => h2 jw (Or.inr hjw)⟩
      rcases hg : positions.get? iv.1 with _ | p
      · simpa only [occUpdate, hg] using h1
      · simp only [occUpdate, hg, h2 iv (Or.inl rfl) p hg]
        simpa using h1

/-- The occupancy matrix entry is `-1` exactly when no vehicle covers the
cell. -/
theorem occupancyAt_eq_neg_one_iff {ctx : Context} {positions : List Position}
    {r c : Int} :
    occupancyAt ctx positions r c = -1 ↔
      ∀ i v p, ctx.vehicles.get? i = some v → positions.get? i = some p →
        vehicleCovers v p r c = false := by
  unfold occupancyAt
  rw [occ_foldl_eq_neg_one]
  constructor
  · rintro ⟨_, h⟩ i v p hv hp
    exact h (i, v) (List.mem_enum_iff_get?.mpr (by simpa using hv)) p hp
  · intro h
    refine ⟨rfl, ?_⟩
    rintro ⟨i, v⟩ hiv p hp
    have hv : ctx.vehicles.get? i = some v := by
      simpa using List.mem_enum_iff_get?.mp hiv
    exact h i v p hv hp

/-- Whether the orientation of a vehicle admits a direction: horizontal
and single vehicles move left/right, vertical and single vehicles move
up/down. -/
def dirAllowed (v : Vehicle) : Direction → Prop
  | .left => v.orientation = .horizontal ∨ v.orientation = .single
  | .right => v.orientation = .horizontal ∨ v.orientation = .single
  | .up => v.orientation = .vertical ∨ v.orientation = .single
  | .down => v.orientation = .vertical ∨ v.orientation = .single

/-- The per-step loop condition of `generateMoves` for each direction. -/
def moveOk (ctx : Context) (positions : List Position) (v : Vehicle)
    (p : Position) : Direction → Nat → Bool
  | .left => leftOk ctx positions p
  | .right => rightOk ctx positions p (p.col + v.length - 1)
  | .up => upOk ctx positions p
  | .down => downOk ctx positions p (p.row + v.length - 1)

theorem leftOk_lt_fuel {ctx : Context} {positions : List Position}
    {p : Position} {k : Nat} (h : leftOk ctx positions p k = true) :
    k < 1 + (p.col.toNat + 1) := by
  unfold leftOk at h
  rw [Bool.and_eq_true, decide_eq_true_iff] at h
  omega

theorem rightOk_lt_fuel {ctx : Context} {positions : List Position}
    {p : Position} {tailCol : Int} {k : Nat}
    (h : rightOk ctx positions p tailCol k = true) :
    k < 1 + ((ctx.columns - tailCol).toNat + 1) := by
  unfold rightOk at h
  rw [Bool.and_eq_true, decide_eq_true_iff] at h
  omega

theorem upOk_lt_fuel {ctx : Context} {positions : List Position}
    {p : Position} {k : Nat} (h : upOk ctx positions p k = true) :
    k < 1 + (p.row.toNat + 1) := by
  unfold upOk at h
  rw [Bool.and_eq_true, decide_eq_true_iff] at h
  omega

theorem downOk_lt_fuel {ctx : Context} {positions : List Position}
    {p : Position} {tailRow : Int} {k : Nat}
    (h : downOk ctx positions p tailRow k = true) :
    k < 1 + ((ctx.rows - tailRow).toNat + 1) := by
  unfold downOk at h
  rw [Bool.and_eq_true, decide_eq_true_iff] at h
  omega

theorem mem_map_mkMove {idx : Nat} {d : Direction} {l : List Nat} {m : Move} :
    m ∈ l.map (fun st => Move.mk idx d st) ↔
      m.vehicleIndex = idx ∧ m.direction = d ∧ m.steps ∈ l := by
  obtain ⟨i, dd, k⟩ := m
  simp only [List.mem_map, Move.mk.injEq]
  constructor
  · rintro ⟨st, hst, rfl, rfl, rfl⟩
    exact ⟨rfl, rfl, hst⟩
  · rintro ⟨rfl, rfl, hk⟩
    exact ⟨k, hk, rfl, rfl, rfl⟩

theorem mem_movesForVehicle {ctx : Context} {positions : List Position}
    {index : Nat} {v : Vehicle} {p : Position} {m : Move} :
    m ∈ movesForVehicle ctx positions index v p ↔
      m.vehicleIndex = index ∧ dirAllowed v m.direction ∧ 1 ≤ m.steps ∧
        ∀ j, 1 ≤ j → j ≤ m.steps →
          moveOk ctx positions v p m.direction j = true := by
  constructor
  · intro h
    rcases List.mem_append.mp h with h | h <;>
      obtain ⟨ho, h⟩ := List.mem_ite_nil_right.mp h <;>
      rcases List.mem_append.mp h with h | h <;>
      obtain ⟨hidx, hdir, hsteps⟩ := mem_map_mkMove.mp h <;>
      obtain ⟨h1, _, h3⟩ := mem_stepsFrom.mp hsteps <;>
      refine ⟨hidx, ?_, h1, ?_⟩ <;>
      rw [hdir] <;>
      first
      | exact ho
      | (intro j hj1 hj2; exact h3 j hj1 hj2)
  · rintro ⟨hidx, ho, h1, h3⟩
    rcases hd : m.direction with _ | _ | _ | _ <;>
      rw [hd] at ho h3 <;>
      apply List.mem_append.mpr
    · refine Or.inl (List.mem_ite_nil_right.mpr ⟨ho, List.mem_append.mpr
        (Or.inl (mem_map_mkMove.mpr ⟨hidx, hd, mem_stepsFrom.mpr
          ⟨h1, ?_, h3⟩⟩))⟩)
      exact Nat.lt_of_lt_of_le
        (leftOk_lt_fuel (h3 m.steps h1 (le_refl _))) (by omega)
    · refine Or.inl (List.mem_ite_nil_right.mpr ⟨ho, List.mem_append.mpr
        (Or.inr (mem_map_mkMove.mpr ⟨hidx, hd, mem_stepsFrom.mpr
          ⟨h1, ?_, h3⟩⟩))⟩)
      exact Nat.lt_of_lt_of_le
        (rightOk_lt_fuel (h3 m.steps h1 (le_refl _))) (by omega)
    · refine Or.inr (List.mem_ite_nil_right.mpr ⟨ho, List.mem_append.mpr
        (Or.inl (mem_map_mkMove.mpr ⟨hidx, hd, mem_stepsFrom.mpr
          ⟨h1, ?_, h3⟩⟩))⟩)
      exact Nat.lt_of_lt_of_le
        (upOk_lt_fuel (h3 m.steps h1 (le_refl _))) (by omega)
    · refine Or.inr (List.mem_ite_nil_right.mpr ⟨ho, List.mem_append.mpr
        (Or.inr (mem_map_mkMove.mpr ⟨hidx, hd, mem_stepsFrom.mpr
          ⟨h1, ?_, h3⟩⟩))⟩)
      exact Nat.lt_of_lt_of_le
        (downOk_lt_fuel (h3 m.steps h1 (le_refl _))) (by omega)

/-- Characterisation of `generateMoves`: a move is generated exactly when
its vehicle exists, its direction is allowed by the orientation, and every
intermediate step of the slide is in range and lands on an empty cell. -/
theorem mem_generateMoves {ctx : Context} {positions : List Position}
    {m : Move} :
    m ∈ generateMoves ctx positions ↔
      ∃ v p, ctx.vehicles.get? m.vehicleIndex = some v ∧
        positions.get? m.vehicleIndex = some p ∧
        dirAllowed v m.direction ∧ 1 ≤ m.steps ∧
        ∀ j, 1 ≤ j → j ≤ m.steps →
          moveOk ctx positions v p m.direction j = true := by
  unfold generateMoves
  rw [List.mem_flatMap]
  constructor
  · rintro ⟨iv, hiv, hm⟩
    have hv : ctx.vehicles.get? iv.1 = some iv.2 := by
      simpa using List.mem_enum_iff_get?.mp hiv
    rcases hg : positions.get? iv.1 with _ | p
    · rw [hg] at hm; cases hm
    · rw [hg] at hm
      obtain ⟨hidx, hrest⟩ := mem_movesForVehicle.mp hm
      exact ⟨iv.2, p, by rw [hidx]; exact hv, by rw [hidx]; exact hg, hrest⟩
  · rintro ⟨v, p, hv, hp, hrest⟩
    refine ⟨(m.vehicleIndex, v), List.mem_enum_iff_get?.mpr (by simpa using hv), ?_⟩
    rw [hp]
    exact mem_movesForVehicle.mpr ⟨rfl, hrest⟩

/-- Whether a cell lies inside the grid. -/
def cellInBounds (ctx : Context) (q : Position) : Bool :=
  0 ≤ q.row && q.row < ctx.rows && 0 ≤ q.col && q.col < ctx.columns

/-- Well-formedness of a state (the invariant of the specification): one
anchor per vehicle, every occupied cell inside the grid, and no two
distinct vehicles sharing a cell. -/
def wfState (ctx : Context) (positions : List Position) : Bool :=
  (positions.length == ctx.vehicles.length) &&
  (ctx.vehicles.enum.all fun iv =>
    match positions.get? iv.1 with
    | none => false
    | some p =>
      (List.range iv.2.length).all fun o =>
        cellInBounds ctx (vehicleCell iv.2 p o)) &&
  (ctx.vehicles.enum.all fun iv =>
    ctx.vehicles.enum.all fun jw =>
      (iv.1 == jw.1) ||
      match positions.get? iv.1, positions.get? jw.1 with
      | some p, some q =>
        (List.range iv.2.length).all fun o =>
          (List.range jw.2.length).all fun o2 =>
            decide (vehicleCell iv.2 p o ≠ vehicleCell jw.2 q o2)
      | _, _ => false)

/-- Whether every `single`-orientation vehicle has length 1 (true of every
parser-produced board: a `single` vehicle is a single grid cell). -/
def singlesUnit (ctx : Context) : Bool :=
  ctx.vehicles.all fun v => v.orientation ≠ .single || v.length == 1

theorem wfState_iff {ctx : Context} {positions : List Position} :
    wfState ctx positions = true ↔
      positions.length = ctx.vehicles.length ∧
      (∀ i v p, ctx.vehicles.get? i = some v → positions.get? i = some p →
        ∀ o, o < v.length → cellInBounds ctx (vehicleCell v p o) = true) ∧
      (∀ i j v w p q, i ≠ j →
        ctx.vehicles.get? i = some v → ctx.vehicles.get? j = some w →
        positions.get? i = some p → positions.get? j = some q →
        ∀ o o2, o < v.length → o2 < w.length →
          vehicleCell v p o ≠ vehicleCell w q o2) := by
  unfold wfState
  simp only [Bool.and_eq_true, List.all_eq_true, beq_iff_eq]
  constructor
  · rintro ⟨⟨hlen, hbounds⟩, hdisj⟩
    refine ⟨hlen, ?_, ?_⟩
    · intro i v p hv hp o ho
      have := hbounds (i, v) (List.mem_enum_iff_get?.mpr (by simpa using hv))
      rw [hp] at this
      simp only [List.all_eq_true, List.mem_range] at this
      exact this o ho
    · intro i j v w p q hij hv hw hp hq o o2 ho ho2
      have := hdisj (i, v) (List.mem_enum_iff_get?.mpr (by simpa using hv))
        (j, w) (List.mem_enum_iff_get?.mpr (by simpa using hw))
      rw [Bool.or_eq_true, beq_iff_eq] at this
      rcases this with h | h
      · exact absurd h hij
      · rw [hp, hq] at h
        simp only [List.all_eq_true, List.mem_range, decide_eq_true_iff] at h
        exact h o ho o2 ho2
  · rintro ⟨hlen, hbounds, hdisj⟩
    refine ⟨⟨hlen, ?_⟩, ?_⟩
    · rintro ⟨i, v⟩ hiv
      have hv : ctx.vehicles.get? i = some v := by
        simpa using List.mem_enum_iff_get?.mp hiv
      have hi : i < positions.length := by
        rw [hlen]
        exact (List.get?_eq_some.mp hv).1
      rcases hp : positions.get? i with _ | p
      · rw [List.get?_eq_none] at hp; omega
      · simp only [List.all_eq_true, List.mem_range]
        exact fun o ho => hbounds i v p hv hp o ho
    · rintro ⟨i, v⟩ hiv ⟨j, w⟩ hjw
      have hv : ctx.vehicles.get? i = some v := by
        simpa using List.mem_enum_iff_get?.mp hiv
      have hw : ctx.vehicles.get? j = some w := by
        simpa using List.mem_enum_iff_get?.mp hjw
      rw [Bool.or_eq_true, beq_iff_eq]
      by_cases hij : i = j
      · exact Or.inl hij
      · refine Or.inr ?_
        have hi : i < positions.length := by
          rw [hlen]; exact (List.get?_eq_some.mp hv).1
        have hj : j < positions.length := by
          rw [hlen]; exact (List.get?_eq_some.mp hw).1
        rcases hp : positions.get? i with _ | p
        · rw [List.get?_eq_none] at hp; omega
        · rcases hq : positions.get? j with _ | q
          · rw [List.get?_eq_none] at hq; omega
          · simp only [List.all_eq_true, List.mem_range, decide_eq_true_iff]
            exact fun o ho o2 ho2 => hdisj i j v w p q hij hv hw hp hq o o2 ho ho2

/-- The anchor of the moved vehicle after `applyMove`. -/
def movedPos (p : Position) (d : Direction) (k : Nat) : Position :=
  ⟨p.row + (directionOffset d).row * k, p.col + (directionOffset d).col * k⟩

theorem applyMove_get?_ne {positions : List Position} {m : Move} {i : Nat}
    (h : i ≠ m.vehicleIndex) :
    (applyMove positions m).get? i = positions.get? i := by
  rw [applyMove_get?]
  rcases positions.get? i with _ | p
  · rfl
  · simp [h]

theorem applyMove_get?_self {positions : List Position} {m : Move}
    {p : Position} (h : positions.get? m.vehicleIndex = some p) :
    (applyMove positions m).get? m.vehicleIndex =
      some (movedPos p m.direction m.steps) := by
  rw [applyMove_get?, h]
  simp [movedPos]

theorem vehicleCell_horizontal {v : Vehicle} {p : Position} {o : Nat}
    (h : v.orientation = .horizontal) :
    vehicleCell v p o = ⟨p.row, p.col + o⟩ := by
  simp [vehicleCell, coverDelta, h]

theorem vehicleCell_vertical {v : Vehicle} {p : Position} {o : Nat}
    (h : v.orientation = .vertical) :
    vehicleCell v p o = ⟨p.row + o, p.col⟩ := by
  simp [vehicleCell, coverDelta, h]

theorem vehicleCell_single {v : Vehicle} {p : Position} {o : Nat}
    (h : v.orientation = .single) :
    vehicleCell v p o = ⟨p.row, p.col⟩ := by
  simp [vehicleCell, coverDelta, h]

theorem movedPos_left (p : Position) (k : Nat) :
    movedPos p .left k = ⟨p.row, p.col - k⟩ := by
  simp [movedPos, directionOffset]
  omega

theorem movedPos_right (p : Position) (k : Nat) :
    movedPos p .right k = ⟨p.row, p.col + k⟩ := by
  simp [movedPos, directionOffset]

theorem movedPos_up (p : Position) (k : Nat) :
    movedPos p .up k = ⟨p.row - k, p.col⟩ := by
  simp [movedPos, directionOffset]
  omega

theorem movedPos_down (p : Position) (k : Nat) :
    movedPos p .down k = ⟨p.row + k, p.col⟩ := by
  simp [movedPos, directionOffset]

/-- The cell whose emptiness the `j`-th iteration of the `generateMoves`
loop for direction `d` checks. -/
def checkedCell (v : Vehicle) (p : Position) (d : Direction) (j : Nat) :
    Position :=
  match d with
  | .left => ⟨p.row, p.col - j⟩
  | .right => ⟨p.row, p.col + v.length - 1 + j⟩
  | .up => ⟨p.row - j, p.col⟩
  | .down => ⟨p.row + v.length - 1 + j, p.col⟩

theorem moveOk_checkedCell_free {ctx : Context} {positions : List Position}
    {v : Vehicle} {p : Position} {d : Direction} {j : Nat}
    (h : moveOk ctx positions v p d j = true) :
    occupancyAt ctx positions (checkedCell v p d j).row
      (checkedCell v p d j).col = -1 := by
  rcases d with _ | _ | _ | _ <;>
    · simp only [moveOk, leftOk, rightOk, upOk, downOk, Bool.and_eq_true,
        beq_iff_eq] at h
      exact h.2

theorem moveOk_checkedCell_inBounds {ctx : Context}
    {positions : List Position} {v : Vehicle} {p : Position} {d : Direction}
    {j : Nat} (hj : 1 ≤ j) (h : moveOk ctx positions v p d j = true)
    (h0 : cellInBounds ctx (vehicleCell v p 0) = true) :
    cellInBounds ctx (checkedCell v p d j) = true := by
  have h0' : 0 ≤ p.row ∧ p.row < ctx.rows ∧ 0 ≤ p.col ∧ p.col < ctx.columns := by
    simp only [cellInBounds, vehicleCell, Nat.cast_zero, mul_zero, add_zero,
      Bool.and_eq_true, decide_eq_true_iff] at h0
    exact ⟨h0.1.1.1, h0.1.1.2, h0.1.2, h0.2⟩
  rcases d with _ | _ | _ | _ <;>
    · simp only [moveOk, leftOk, rightOk, upOk, downOk, Bool.and_eq_true,
        decide_eq_true_iff] at h
      simp only [checkedCell, cellInBounds, Bool.and_eq_true,
        decide_eq_true_iff]
      refine ⟨⟨⟨?_, ?_⟩, ?_⟩, ?_⟩ <;> omega

theorem vehicleCovers_eq_false_iff {v : Vehicle} {p : Position} {r c : Int} :
    vehicleCovers v p r c = false ↔
      ∀ o, o < v.length →
        ¬(r = (vehicleCell v p o).row ∧ c = (vehicleCell v p o).col) := by
  rw [Bool.eq_false_iff]
  unfold vehicleCovers
  simp only [ne_eq, List.any_eq_true, List.mem_range, decide_eq_true_iff,
    not_exists, not_and]
  try tauto

/-- Where the cells of the moved vehicle land: each new cell is either a
cell the vehicle occupied before the move, or one of the cells the
generating loop checked to be empty.  (Requires `single` vehicles of
length 1; a `single` vehicle of greater length falsifies this, which is
why the invariant claim needs that hypothesis.) -/
theorem moveCellCases {ctx : Context} {positions : List Position}
    {v : Vehicle} {p : Position} {d : Direction} {k : Nat}
    (hsing : v.orientation = .single → v.length = 1)
    (hallow : dirAllowed v d) (h1 : 1 ≤ k)
    (hok : ∀ j, 1 ≤ j → j ≤ k → moveOk ctx positions v p d j = true) :
    ∀ o, o < v.length →
      (∃ o2, o2 < v.length ∧
        vehicleCell v (movedPos p d k) o = vehicleCell v p o2) ∨
      (∃ j, 1 ≤ j ∧ j ≤ k ∧
        vehicleCell v (movedPos p d k) o = checkedCell v p d j) := by
  intro o ho
  rcases d with _ | _ | _ | _ <;> rcases hallow with hOr | hOr
  · -- left, horizontal
    by_cases hko : k ≤ o
    · refine Or.inl ⟨o - k, by omega, ?_⟩
      rw [vehicleCell_horizontal hOr, vehicleCell_horizontal hOr,
        movedPos_left]
      simp [Position.mk.injEq] <;> omega
    · refine Or.inr ⟨k - o, by omega, by omega, ?_⟩
      rw [vehicleCell_horizontal hOr, movedPos_left]
      simp [checkedCell, Position.mk.injEq] <;> omega
  · -- left, single
    refine Or.inr ⟨k, h1, le_refl k, ?_⟩
    rw [vehicleCell_single hOr, movedPos_left]
    simp [checkedCell, Position.mk.injEq] <;> omega
  · -- right, horizontal
    by_cases hko : k + o < v.length
    · refine Or.inl ⟨k + o, hko, ?_⟩
      rw [vehicleCell_horizontal hOr, vehicleCell_horizontal hOr,
        movedPos_right]
      simp [Position.mk.injEq] <;> omega
    · refine Or.inr ⟨k + o + 1 - v.length, by omega, by omega, ?_⟩
      rw [vehicleCell_horizontal hOr, movedPos_right]
      simp [checkedCell, Position.mk.injEq] <;> omega
  · -- right, single
    have hlen := hsing hOr
    refine Or.inr ⟨k, h1, le_refl k, ?_⟩
    rw [vehicleCell_single hOr, movedPos_right]
    simp [checkedCell, Position.mk.injEq] <;> omega
  · -- up, vertical
    by_cases hko : k ≤ o
    · refine Or.inl ⟨o - k, by omega, ?_⟩
      rw [vehicleCell_vertical hOr, vehicleCell_vertical hOr, movedPos_up]
      simp [Position.mk.injEq] <;> omega
    · refine Or.inr ⟨k - o, by omega, by omega, ?_⟩
      rw [vehicleCell_vertical hOr, movedPos_up]
      simp [checkedCell, Position.mk.injEq] <;> omega
  · -- up, single
    refine Or.inr ⟨k, h1, le_refl k, ?_⟩
    rw [vehicleCell_single hOr, movedPos_up]
    simp [checkedCell, Position.mk.injEq] <;> omega
  · -- down, vertical
    by_cases hko : k + o < v.length
    · refine Or.inl ⟨k + o, hko, ?_⟩
      rw [vehicleCell_vertical hOr, vehicleCell_vertical hOr, movedPos_down]
      simp [Position.mk.injEq] <;> omega
    · refine Or.inr ⟨k + o + 1 - v.length, by omega, by omega, ?_⟩
      rw [vehicleCell_vertical hOr, movedPos_down]
      simp [checkedCell, Position.mk.injEq] <;> omega
  · -- down, single
    have hlen := hsing hOr
    refine Or.inr ⟨k, h1, le_refl k, ?_⟩
    rw [vehicleCell_single hOr, movedPos_down]
    simp [checkedCell, Position.mk.injEq] <;> omega

theorem singlesUnit_spec {ctx : Context} (h : singlesUnit ctx = true)
    {i : Nat} {v : Vehicle} (hv : ctx.vehicles.get? i = some v) :
    v.orientation = .single → v.length = 1 := by
  intro hs
  have hmem : v ∈ ctx.vehicles := List.get?_mem hv
  unfold singlesUnit at h
  rw [List.all_eq_true] at h
  have := h v hmem
  rw [Bool.or_eq_true, beq_iff_eq] at this
  rcases this with h' | h'
  · simp [hs] at h'
  · exact h'

/-- Core preservation lemma: applying one generated move to a well-formed
state yields a well-formed state (given that `single` vehicles have
length 1). -/
theorem wfState_applyMove {ctx : Context} {positions : List Position}
    {m : Move} (hsu : singlesUnit ctx = true)
    (hwf : wfState ctx positions = true)
    (hm : m ∈ generateMoves ctx positions) :
    wfState ctx (applyMove positions m) = true := by
  obtain ⟨v, p, hv, hp, hallow, h1, hok⟩ := mem_generateMoves.mp hm
  obtain ⟨hlen, hbounds, hdisj⟩ := wfState_iff.mp hwf
  have hcases := @moveCellCases ctx positions v p m.direction m.steps
    (singlesUnit_spec hsu hv) hallow h1 hok
  -- the moved vehicle's new cells avoid every other vehicle
  have hcore : ∀ j w q, j ≠ m.vehicleIndex →
      ctx.vehicles.get? j = some w → positions.get? j = some q →
      ∀ o o2, o < v.length → o2 < w.length →
        vehicleCell v (movedPos p m.direction m.steps) o ≠
          vehicleCell w q o2 := by
    intro j w q hj hw hq o o2 ho ho2 heq
    rcases hcases o ho with ⟨o3, ho3, hcell⟩ | ⟨st, hst1, hst2, hcell⟩
    · exact hdisj m.vehicleIndex j v w p q (fun h => hj h.symm) hv hw hp hq
        o3 o2 ho3 ho2 (hcell ▸ heq)
    · have hfree := moveOk_checkedCell_free (hok st hst1 hst2)
      have hnc := occupancyAt_eq_neg_one_iff.mp hfree j w q hw hq
      rw [vehicleCovers_eq_false_iff] at hnc
      exact hnc o2 ho2 ⟨by rw [← hcell, heq], by rw [← hcell, heq]⟩
  apply wfState_iff.mpr
  refine ⟨by rw [applyMove_length]; exact hlen, ?_, ?_⟩
  · intro i w q hw hq o ho
    by_cases hi : i = m.vehicleIndex
    · subst hi
      rw [applyMove_get?_self hp] at hq
      have hwv : w = v := by rw [hv] at hw; exact (Option.some.inj hw).symm
      subst hwv
      cases Option.some.inj hq
      rcases hcases o ho with ⟨o2, ho2, hcell⟩ | ⟨st, hst1, hst2, hcell⟩
      · rw [hcell]
        exact hbounds m.vehicleIndex w p hv hp o2 ho2
      · rw [hcell]
        have h0 : cellInBounds ctx (vehicleCell w p 0) = true :=
          hbounds m.vehicleIndex w p hv hp 0 (by omega)
        exact moveOk_checkedCell_inBounds hst1 (hok st hst1 hst2) h0
    · rw [applyMove_get?_ne hi] at hq
      exact hbounds i w q hw hq o ho
  · intro i j w w2 q q2 hij hw hw2 hq hq2 o o2 ho ho2
    by_cases hi : i = m.vehicleIndex
    · subst hi
      rw [applyMove_get?_self hp] at hq
      have hwv : w = v := by rw [hv] at hw; exact (Option.some.inj hw).symm
      subst hwv
      cases Option.some.inj hq
      have hj : j ≠ m.vehicleIndex := fun h => hij h.symm
      rw [applyMove_get?_ne hj] at hq2
      exact hcore j w2 q2 hj hw2 hq2 o o2 ho ho2
    · rw [applyMove_get?_ne hi] at hq
      by_cases hj : j = m.vehicleIndex
      · subst hj
        rw [applyMove_get?_self hp] at hq2
        have hwv : w2 = v := by rw [hv] at hw2; exact (Option.some.inj hw2).symm
        subst hwv
        cases Option.some.inj hq2
        exact fun heq =>
          hcore i w q hi hw hq o2 o ho2 ho heq.symm
      · rw [applyMove_get?_ne hj] at hq2
        exact hdisj i j w w2 q q2 hij hw hw2 hq hq2 o o2 ho ho2

/-- A move sequence in which every move is generated from the state it is
applied to. -/
def validMoveSeq (ctx : Context) (positions : List Position) :
    List Move → Bool
  | [] => true
  | m :: ms =>
    (generateMoves ctx positions).contains m &&
      validMoveSeq ctx (applyMove positions m) ms

/--
C4 (amended): starting from a well-formed state of a board whose `single`
vehicles all have length 1, every sequence of generated moves keeps the
state well-formed — every occupied cell stays inside the grid, no two
vehicles ever share a cell — and the state vector keeps one anchor per
vehicle (the vehicles' orientations and lengths live in the immutable
context and are untouched by moves).  Without the `single`-length-1
condition the claim is false (see `wfState_applyMove_counterexample`).
-/
theorem wfState_replay (ctx : Context) (positions : List Position)
    (ms : List Move) (hsu : singlesUnit ctx = true)
    (hwf : wfState ctx positions = true)
    (hseq : validMoveSeq ctx positions ms = true) :
    wfState ctx (replayMoves positions ms) = true ∧
      (replayMoves positions ms).length = positions.length := by
  induction ms generalizing positions with
  | nil => exact ⟨hwf, rfl⟩
  | cons m ms ih =>
    unfold validMoveSeq at hseq
    rw [Bool.and_eq_true] at hseq
    have hm1 : m ∈ generateMoves ctx positions := by
      have h := hseq.1
      rw [List.contains, List.elem_eq_mem, decide_eq_true_iff] at h
      exact h
    replace hseq : m ∈ generateMoves ctx positions ∧
        validMoveSeq ctx (applyMove positions m) ms = true := ⟨hm1, hseq.2⟩
    have hwf' := wfState_applyMove hsu hwf hseq.1
    have := ih (applyMove positions m) hwf' hseq.2
    refine ⟨this.1, ?_⟩
    have hre : replayMoves positions (m :: ms) =
        replayMoves (applyMove positions m) ms := rfl
    rw [hre, this.2, applyMove_length]

/-- Witness for `wfState_replay`: a 2×3 board with a horizontal goal car
and a single blocker, replaying two generated moves. -/
theorem wfState_replay_witness :
    (singlesUnit ⟨2, 3, ⟨0, 2⟩,
        [⟨.horizontal, 2, true, "carro objetivo", ⟨0, 0⟩⟩,
         ⟨.single, 1, false, "carro 1", ⟨0, 2⟩⟩], 0⟩ = true) ∧
    (wfState ⟨2, 3, ⟨0, 2⟩,
        [⟨.horizontal, 2, true, "carro objetivo", ⟨0, 0⟩⟩,
         ⟨.single, 1, false, "carro 1", ⟨0, 2⟩⟩], 0⟩
      [⟨0, 0⟩, ⟨0, 2⟩] = true) ∧
    (validMoveSeq ⟨2, 3, ⟨0, 2⟩,
        [⟨.horizontal, 2, true, "carro objetivo", ⟨0, 0⟩⟩,
         ⟨.single, 1, false, "carro 1", ⟨0, 2⟩⟩], 0⟩
      [⟨0, 0⟩, ⟨0, 2⟩] [⟨1, .down, 1⟩, ⟨0, .right, 1⟩] = true) ∧
    (wfState ⟨2, 3, ⟨0, 2⟩,
        [⟨.horizontal, 2, true, "carro objetivo", ⟨0, 0⟩⟩,
         ⟨.single, 1, false, "carro 1", ⟨0, 2⟩⟩], 0⟩
      (replayMoves [⟨0, 0⟩, ⟨0, 2⟩] [⟨1, .down, 1⟩, ⟨0, .right, 1⟩]) = true) := by
  refine ⟨by decide, by decide, by decide, ?_⟩
  exact (wfState_replay _ _ _ (by decide) (by decide) (by decide)).1

/--
Counterexample to C4 as stated: with well-formedness taken as only
"cells inside the grid and no two vehicles overlapping", the invariant is
not preserved.  On a 1×5 board, a `single`-orientation vehicle of length 3
at (0,0) (occupying only cell (0,0)) next to a blocker at (0,1) generates
the move `right 1` — the emptiness scan starts at `tailCol + 1 = 3`,
skipping the blocker — and applying it lands the vehicle on the blocker.
-/
theorem wfState_applyMove_counterexample :
    (wfState ⟨1, 5, ⟨0, 4⟩,
        [⟨.single, 3, true, "carro objetivo", ⟨0, 0⟩⟩,
         ⟨.single, 1, false, "carro 1", ⟨0, 1⟩⟩], 0⟩
      [⟨0, 0⟩, ⟨0, 1⟩] = true) ∧
    (validMoveSeq ⟨1, 5, ⟨0, 4⟩,
        [⟨.single, 3, true, "carro objetivo", ⟨0, 0⟩⟩,
         ⟨.single, 1, false, "carro 1", ⟨0, 1⟩⟩], 0⟩
      [⟨0, 0⟩, ⟨0, 1⟩] [⟨0, .right, 1⟩] = true) ∧
    (wfState ⟨1, 5, ⟨0, 4⟩,
        [⟨.single, 3, true, "carro objetivo", ⟨0, 0⟩⟩,
         ⟨.single, 1, false, "carro 1", ⟨0, 1⟩⟩], 0⟩
      (replayMoves [⟨0, 0⟩, ⟨0, 1⟩] [⟨0, .right, 1⟩]) = false) := by
  refine ⟨by decide, by decide, by decide⟩

/-! ## The DFS solver (`src/algorithms/dfs.js`) -/

/-- A node of the DFS stack: `{positions, path, depth}`. -/
structure DfsNode where
  positions : List Position
  path : List Move
  depth : Nat
deriving DecidableEq, Repr

/-- The mutable state of the DFS loop. -/
structure DfsState where
  toVisit : List DfsNode
  visited : List String
  nodesExplored : Nat
  maxFrontier : Nat
deriving DecidableEq, Repr

/-- Rank of a direction name under `localeCompare`
(`down < left < right < up` lexicographically). -/
def dirRank : Direction → Nat
  | .down => 0
  | .left => 1
  | .right => 2
  | .up => 3

/-- The DFS move comparator: vehicle index ascending, then direction name
(`localeCompare`) ascending. -/
def dfsMoveLE (a b : Move) : Bool :=
  a.vehicleIndex < b.vehicleIndex ||
    (a.vehicleIndex == b.vehicleIndex && dirRank a.direction ≤ dirRank b.direction)

/-- The stable sort DFS applies to the generated moves. -/
def sortMoves (moves : List Move) : List Move :=
  moves.mergeSort dfsMoveLE

/-- The resolved depth bound:
`Number.isInteger(maxDepth) ? Math.max(0, maxDepth) : Infinity`
(`none` models both an absent and a non-integer `maxDepth`, and stands for
the unlimited bound). -/
def depthLimit (maxDepth? : Option Int) : Option Nat :=
  maxDepth?.map fun n => (max 0 n).toNat

/-- `currentNode.depth >= maxDepth` with `none` as infinity. -/
def depthExceeded (depth : Nat) : Option Nat → Bool
  | none => false
  | some bound => depth ≥ bound

/-- One iteration of the successor-push loop of a DFS expansion: apply
the move, skip it when the resulting state's key is already visited,
otherwise mark the key visited and push the child node on the stack. -/
def dfsPushStep (ctx : Context) (node : DfsNode) (st : DfsState)
    (move : Move) : DfsState :=
  let nextPositions := applyMove node.positions move
  let key := stateKey nextPositions
  if st.visited.contains key then st
  else
    { st with
      visited := key :: st.visited,
      toVisit := st.toVisit ++
        [⟨nextPositions, node.path ++ [move], node.depth + 1⟩] }

/-- The successor-push loop of one DFS expansion, over the sorted moves. -/
def dfsPushSuccessors (ctx : Context) (node : DfsNode) (s : DfsState) :
    DfsState :=
  (sortMoves (generateMoves ctx node.positions)).foldl (dfsPushStep ctx node) s

/-- Popping the top node: `toVisit.pop()` followed by the expansion
counter and frontier-peak updates. -/
def dfsPopState (s : DfsState) : DfsState :=
  { s with
    toVisit := s.toVisit.dropLast,
    nodesExplored := s.nodesExplored + 1,
    maxFrontier := max s.maxFrontier s.toVisit.dropLast.length }

/-- How the DFS loop ends. -/
inductive DfsOutcome where
  | aborted (s : DfsState)
  | found (s : DfsState) (node : DfsNode)
  | exhausted (s : DfsState)
deriving Repr

/-- The DFS `while` loop (fuel-indexed; `none` = fuel ran out).  The
cancellation token is polled at the top of every iteration (`sig n` is its
value when `n` nodes have been expanded). -/
def dfsLoop (ctx : Context) (sig : Nat → Bool) (maxDepth : Option Nat) :
    Nat → DfsState → Option DfsOutcome
  | 0, _ => none
  | fuel + 1, s =>
    match s.toVisit.getLast? with
    | none => some (.exhausted s)
    | some node =>
      if sig s.nodesExplored then some (.aborted s)
      else
        if isGoalState ctx node.positions then
          some (.found (dfsPopState s) node)
        else if depthExceeded node.depth maxDepth then
          dfsLoop ctx sig maxDepth fuel (dfsPopState s)
        else
          dfsLoop ctx sig maxDepth fuel
            (dfsPushSuccessors ctx node (dfsPopState s))

/-- The labels returned with every result. -/
def vehicleLabels (ctx : Context) : List String :=
  ctx.vehicles.map fun vehicle => vehicle.label

/-- The result object the DFS epilogue builds from the loop outcome. -/
def dfsResult (ctx : Context) (initial : List Position) :
    DfsOutcome → SolveResult
  | .aborted s =>
    { status := .aborted, moves := [],
      stateHistory := [clonePositions initial], actions := [],
      metrics := ⟨s.nodesExplored, s.toVisit.length, 0, 0⟩,
      vehicleLabels := vehicleLabels ctx }
  | .exhausted s =>
    { status := .unsolved, moves := [],
      stateHistory := [clonePositions initial], actions := [],
      metrics := ⟨s.nodesExplored, s.toVisit.length, 0, 0⟩,
      vehicleLabels := vehicleLabels ctx }
  | .found s node =>
    { status := .solved, moves := node.path,
      stateHistory := buildStateHistory initial node.path,
      actions := node.path.map fun move =>
        describeMove (vehicleAt ctx move.vehicleIndex) move,
      metrics := ⟨s.nodesExplored, s.toVisit.length, node.path.length, 0⟩,
      vehicleLabels := vehicleLabels ctx }

/-- `solveWithDfs`. -/
def solveWithDfs (ctx : Context) (sig : Nat → Bool) (maxDepth? : Option Int)
    (fuel : Nat) : Option SolveResult :=
  let initial := initialPositions ctx
  (dfsLoop ctx sig (depthLimit maxDepth?) fuel
      ⟨[⟨clonePositions initial, [], 0⟩], [stateKey initial], 0, 1⟩).map
    (dfsResult ctx initial)

/-- Modelled from the spec: the backtracking solver (component C7,
`src/algorithms/backtracking.js`) is not among the source files; §4.6 of
the specification states it "is identical in effect to C6 \[the DFS
solver\] without `maxDepth`; it exists as a separately named entry point
for API symmetry".  It is therefore modelled as the DFS solver run with no
depth bound. -/
def solveWithBacktracking (ctx : Context) (sig : Nat → Bool) (fuel : Nat) :
    Option SolveResult :=
  solveWithDfs ctx sig none fuel

/-! ## Shared replay lemmas -/

theorem replayMoves_append (start : List Position) (ms : List Move)
    (m : Move) :
    replayMoves start (ms ++ [m]) = applyMove (replayMoves start ms) m := by
  unfold replayMoves
  rw [List.foldl_append]
  rfl

theorem buildStateHistory_eq (init : List Position) (ms : List Move) :
    buildStateHistory init ms = init :: buildStateHistoryAux init ms := by
  unfold buildStateHistory
  rw [clonePositions_eq_self]

theorem buildStateHistoryAux_length (ms : List Move) :
    ∀ cur, (buildStateHistoryAux cur ms).length = ms.length := by
  induction ms with
  | nil => intro cur; rfl
  | cons m ms ih =>
    intro cur
    unfold buildStateHistoryAux
    simp only [List.length_cons, ih]

theorem buildStateHistory_length (init : List Position) (ms : List Move) :
    (buildStateHistory init ms).length = ms.length + 1 := by
  rw [buildStateHistory_eq]
  simp [buildStateHistoryAux_length]

theorem buildStateHistoryAux_get? (ms : List Move) :
    ∀ cur j, j < ms.length →
      (buildStateHistoryAux cur ms).get? j =
        some (replayMoves cur (ms.take (j + 1))) := by
  induction ms with
  | nil => intro cur j hj; cases hj
  | cons m ms ih =>
    intro cur j hj
    unfold buildStateHistoryAux
    rcases j with _ | j
    · simp [replayMoves]
    · simp only [List.get?_cons_succ]
      rw [ih (applyMove cur m) j (by simpa using hj)]
      rfl

/-- Replay characterisation of `buildStateHistory`: entry `j` is the
result of replaying the first `j` moves from the initial state. -/
theorem buildStateHistory_get? (init : List Position) (ms : List Move)
    (j : Nat) (hj : j ≤ ms.length) :
    (buildStateHistory init ms).get? j =
      some (replayMoves init (ms.take j)) := by
  rw [buildStateHistory_eq]
  rcases j with _ | j
  · simp [replayMoves]
  · simp only [List.get?_cons_succ]
    exact buildStateHistoryAux_get? ms init j (by omega)

theorem buildStateHistory_last (init : List Position) (ms : List Move) :
    (buildStateHistory init ms).get? ms.length =
      some (replayMoves init ms) := by
  rw [buildStateHistory_get? init ms ms.length (le_refl _), List.take_length]

theorem getLast?_mem {α : Type} {l : List α} {a : α}
    (h : l.getLast? = some a) : a ∈ l := by
  rcases l with _ | ⟨x, xs⟩
  · cases h
  · rw [List.getLast?_eq_getLast _ (by simp)] at h
    cases h
    exact List.getLast_mem _

/-! ## DFS invariants and result specification -/

/-- The path-consistency invariant of DFS nodes: a node's state is the
replay of its path from the initial state, and its depth is its path
length. -/
def dfsNodeOk (init : List Position) (node : DfsNode) : Prop :=
  node.positions = replayMoves init node.path ∧
    node.depth = node.path.length

theorem dfsPushStep_inv {ctx : Context} {init : List Position}
    {node : DfsNode} (hnode : dfsNodeOk init node) {st : DfsState}
    (hs : ∀ n ∈ st.toVisit, dfsNodeOk init n) (move : Move) :
    ∀ n ∈ (dfsPushStep ctx node st move).toVisit, dfsNodeOk init n := by
  by_cases hk : stateKey (applyMove node.positions move) ∈ st.visited
  · have heq : dfsPushStep ctx node st move = st := by
      simp [dfsPushStep, hk]
    rw [heq]; exact hs
  · have heq : (dfsPushStep ctx node st move).toVisit =
        st.toVisit ++ [⟨applyMove node.positions move,
          node.path ++ [move], node.depth + 1⟩] := by
      simp [dfsPushStep, hk]
    rw [heq]
    intro n hn
    rcases List.mem_append.mp hn with hn | hn
    · exact hs n hn
    · rcases List.mem_singleton.mp hn with rfl
      refine ⟨?_, ?_⟩
      · rw [replayMoves_append, ← hnode.1]
      · simp [hnode.2]

theorem dfsPushSuccessors_inv {ctx : Context} {init : List Position}
    {node : DfsNode} (hnode : dfsNodeOk init node) :
    ∀ (moves : List Move) (st : DfsState),
      (∀ n ∈ st.toVisit, dfsNodeOk init n) →
      ∀ n ∈ (moves.foldl (dfsPushStep ctx node) st).toVisit,
        dfsNodeOk init n := by
  intro moves
  induction moves with
  | nil => intro st hs; exact hs
  | cons m ms ih =>
    intro st hs
    rw [List.foldl_cons]
    exact ih (dfsPushStep ctx node st m) (dfsPushStep_inv hnode hs m)

theorem dropLast_inv {α : Type} {P : α → Prop} {l : List α}
    (h : ∀ x ∈ l, P x) : ∀ x ∈ l.dropLast, P x :=
  fun x hx => h x (List.dropLast_subset l hx)

/-- Any `found` outcome of the DFS loop carries a goal node whose path
replays to its state. -/
theorem dfsLoop_found_inv {ctx : Context} {sig : Nat → Bool}
    {md : Option Nat} {init : List Position} :
    ∀ (fuel : Nat) (s : DfsState) (s' : DfsState) (node : DfsNode),
      (∀ n ∈ s.toVisit, dfsNodeOk init n) →
      dfsLoop ctx sig md fuel s = some (.found s' node) →
      dfsNodeOk init node ∧ isGoalState ctx node.positions = true := by
  intro fuel
  induction fuel with
  | zero => intro s s' node _ h; cases h
  | succ fuel ih =>
    intro s s' node hs h
    rw [dfsLoop] at h
    rcases hpop : s.toVisit.getLast? with _ | top
    · rw [hpop] at h; cases h
    · rw [hpop] at h
      dsimp only at h
      by_cases hsig : sig s.nodesExplored = true
      · rw [if_pos hsig] at h; cases h
      · rw [if_neg hsig] at h
        have htop : dfsNodeOk init top := hs top (getLast?_mem hpop)
        by_cases hgoal : isGoalState ctx top.positions = true
        · rw [if_pos hgoal] at h
          cases h
          exact ⟨htop, hgoal⟩
        · rw [if_neg hgoal] at h
          by_cases hd : depthExceeded top.depth md = true
          · rw [if_pos hd] at h
            exact ih _ s' node (dropLast_inv hs) h
          · rw [if_neg hd] at h
            refine ih _ s' node ?_ h
            exact dfsPushSuccessors_inv htop _ _ (dropLast_inv hs)

theorem initial_node_ok (ctx : Context) :
    dfsNodeOk (initialPositions ctx)
      ⟨clonePositions (initialPositions ctx), [], 0⟩ := by
  refine ⟨?_, rfl⟩
  rw [clonePositions_eq_self]
  rfl

/-- Specification of a `solved` DFS result: the moves are the path of a
goal node consistent with the initial state, the state history is the
replay of the moves and the depth metric is the move count. -/
theorem solveWithDfs_solved_spec {ctx : Context} {sig : Nat → Bool}
    {maxDepth? : Option Int} {fuel : Nat} {r : SolveResult}
    (h : solveWithDfs ctx sig maxDepth? fuel = some r)
    (hst : r.status = .solved) :
    isGoalState ctx (replayMoves (initialPositions ctx) r.moves) = true ∧
    r.stateHistory = buildStateHistory (initialPositions ctx) r.moves ∧
    r.metrics.depth = r.moves.length ∧
    (isGoalState ctx (initialPositions ctx) = false → 1 ≤ r.moves.length) := by
  unfold solveWithDfs at h
  dsimp only at h
  rcases hloop : dfsLoop ctx sig (depthLimit maxDepth?) fuel
      ⟨[⟨clonePositions (initialPositions ctx), [], 0⟩],
       [stateKey (initialPositions ctx)], 0, 1⟩ with _ | outcome
  · rw [hloop] at h; cases h
  · rw [hloop] at h
    cases h
    rcases outcome with s | ⟨s, node⟩ | s
    · exact absurd hst (by simp [dfsResult])
    · have hinv : ∀ n ∈ ([⟨clonePositions (initialPositions ctx), [], 0⟩] :
          List DfsNode), dfsNodeOk (initialPositions ctx) n := by
        intro n hn
        rcases List.mem_singleton.mp hn with rfl
        exact initial_node_ok ctx
      obtain ⟨⟨hpos, hdep⟩, hgoal⟩ := dfsLoop_found_inv fuel _ s node hinv hloop
      have hmv : (dfsResult ctx (initialPositions ctx)
          (.found s node)).moves = node.path := rfl
      have hhist : (dfsResult ctx (initialPositions ctx)
          (.found s node)).stateHistory =
          buildStateHistory (initialPositions ctx) node.path := rfl
      have hdepth : (dfsResult ctx (initialPositions ctx)
          (.found s node)).metrics.depth = node.path.length := rfl
      rw [hmv, hhist, hdepth]
      refine ⟨?_, rfl, rfl, ?_⟩
      · rw [← hpos]
        exact hgoal
      · intro hinit
        rcases hpath : node.path with _ | ⟨m, ms⟩
        · rw [hpath] at hpos
          have : node.positions = initialPositions ctx := by
            rw [hpos]; rfl
          rw [this] at hgoal
          rw [hgoal] at hinit
          cases hinit
        · simp
    · exact absurd hst (by simp [dfsResult])

/-- Specification of an `aborted` DFS result: empty move list, a history
holding only the initial state, and depth metric 0. -/
theorem solveWithDfs_aborted_spec {ctx : Context} {sig : Nat → Bool}
    {maxDepth? : Option Int} {fuel : Nat} {r : SolveResult}
    (h : solveWithDfs ctx sig maxDepth? fuel = some r)
    (hst : r.status = .aborted) :
    r.moves = [] ∧ r.stateHistory = [initialPositions ctx] ∧
      r.metrics.depth = 0 := by
  unfold solveWithDfs at h
  dsimp only at h
  rcases hloop : dfsLoop ctx sig (depthLimit maxDepth?) fuel
      ⟨[⟨clonePositions (initialPositions ctx), [], 0⟩],
       [stateKey (initialPositions ctx)], 0, 1⟩ with _ | outcome
  · rw [hloop] at h; cases h
  · rw [hloop] at h
    cases h
    rcases outcome with s | ⟨s, node⟩ | s
    · exact ⟨rfl, by simp [dfsResult, clonePositions_eq_self], rfl⟩
    · exact absurd hst (by simp [dfsResult])
    · exact absurd hst (by simp [dfsResult])

/-- A token asserted before the first expansion makes DFS return the
aborted result at once. -/
theorem solveWithDfs_sig0 {ctx : Context} {sig : Nat → Bool}
    {maxDepth? : Option Int} {fuel : Nat} (h0 : sig 0 = true)
    (hf : 1 ≤ fuel) :
    ∃ r, solveWithDfs ctx sig maxDepth? fuel = some r ∧
      r.status = .aborted ∧ r.moves = [] ∧
      r.stateHistory = [initialPositions ctx] ∧ r.metrics.depth = 0 := by
  rcases fuel with _ | fuel
  · omega
  · have hrun : solveWithDfs ctx sig maxDepth? (fuel + 1) =
        some (dfsResult ctx (initialPositions ctx)
          (.aborted ⟨[⟨clonePositions (initialPositions ctx), [], 0⟩],
            [stateKey (initialPositions ctx)], 0, 1⟩)) := by
      unfold solveWithDfs
      dsimp only
      rw [dfsLoop]
      have hl : ([⟨clonePositions (initialPositions ctx), [], 0⟩] :
          List DfsNode).getLast? =
          some ⟨clonePositions (initialPositions ctx), [], 0⟩ := rfl
      rw [hl]
      dsimp only
      rw [h0]
      simp
    exact ⟨_, hrun, rfl, rfl,
      by simp [dfsResult, clonePositions_eq_self], rfl⟩

/--
C10: the DFS depth bound.  A `maxDepth` option that is not an integer —
modelled by `none`, which also covers an omitted option — resolves to the
unlimited bound (`depthExceeded` never fires); a negative integer resolves
to the bound 0; and a node popped with the bound reached is still
goal-tested first — a goal exactly at the bound is returned as `found` —
while its successors are never generated: the loop continues on the
merely-popped state, with the stack shortened by the node and the visited
set unchanged.
-/
theorem dfs_depth_bound_spec :
    (∀ n : Int, n < 0 → depthLimit (some n) = some 0) ∧
    depthLimit none = none ∧
    (∀ d : Nat, depthExceeded d none = false) ∧
    (∀ (ctx : Context) (sig : Nat → Bool) (md : Option Nat) (fuel : Nat)
        (s : DfsState) (node : DfsNode),
      s.toVisit.getLast? = some node → sig s.nodesExplored = false →
      (isGoalState ctx node.positions = true →
        dfsLoop ctx sig md (fuel + 1) s =
          some (.found (dfsPopState s) node)) ∧
      (isGoalState ctx node.positions = false →
        depthExceeded node.depth md = true →
        dfsLoop ctx sig md (fuel + 1) s =
          dfsLoop ctx sig md fuel (dfsPopState s) ∧
        (dfsPopState s).toVisit = s.toVisit.dropLast ∧
        (dfsPopState s).visited = s.visited)) := by
  refine ⟨?_, rfl, fun d => rfl, ?_⟩
  · intro n hn
    unfold depthLimit
    simp only [Option.map_some']
    congr 1
    omega
  · intro ctx sig md fuel s node hpop hsig
    constructor
    · intro hgoal
      rw [dfsLoop, hpop]
      dsimp only
      rw [if_neg (by simp [hsig]), if_pos hgoal]
    · intro hgoal hd
      refine ⟨?_, rfl, rfl⟩
      rw [dfsLoop, hpop]
      dsimp only
      rw [if_neg (by simp [hsig]), if_neg (by simp [hgoal]), if_pos hd]

/-- Witness for `dfs_depth_bound_spec`: its quantified step clauses applied
to a concrete one-node stack (a non-goal node at depth 2 with bound 2, and
a goal node at depth 2 with bound 2), with every premise decided. -/
theorem dfs_depth_bound_spec_witness :
    (depthLimit (some (-3)) = some 0) ∧
    (dfsLoop ⟨1, 3, ⟨0, 2⟩, [⟨.horizontal, 1, true, "carro objetivo", ⟨0, 0⟩⟩], 0⟩
        (fun _ => false) (some 2) 1
        ⟨[⟨[⟨0, 2⟩], [⟨0, .right, 1⟩, ⟨0, .right, 1⟩], 2⟩], [], 0, 1⟩ =
      some (.found
        (dfsPopState ⟨[⟨[⟨0, 2⟩], [⟨0, .right, 1⟩, ⟨0, .right, 1⟩], 2⟩], [], 0, 1⟩)
        ⟨[⟨0, 2⟩], [⟨0, .right, 1⟩, ⟨0, .right, 1⟩], 2⟩)) ∧
    (dfsLoop ⟨1, 3, ⟨0, 2⟩, [⟨.horizontal, 1, true, "carro objetivo", ⟨0, 0⟩⟩], 0⟩
        (fun _ => false) (some 2) 1
        ⟨[⟨[⟨0, 1⟩], [⟨0, .right, 1⟩], 2⟩], [], 0, 1⟩ =
      dfsLoop ⟨1, 3, ⟨0, 2⟩, [⟨.horizontal, 1, true, "carro objetivo", ⟨0, 0⟩⟩], 0⟩
        (fun _ => false) (some 2) 0
        (dfsPopState ⟨[⟨[⟨0, 1⟩], [⟨0, .right, 1⟩], 2⟩], [], 0, 1⟩)) := by
  refine ⟨dfs_depth_bound_spec.1 (-3) (by decide), ?_, ?_⟩
  · exact (dfs_depth_bound_spec.2.2.2 _ _ (some 2) 0
      ⟨[⟨[⟨0, 2⟩], [⟨0, .right, 1⟩, ⟨0, .right, 1⟩], 2⟩], [], 0, 1⟩
      ⟨[⟨0, 2⟩], [⟨0, .right, 1⟩, ⟨0, .right, 1⟩], 2⟩
      (by decide) (by decide)).1 (by decide)
  · exact ((dfs_depth_bound_spec.2.2.2 _ _ (some 2) 0
      ⟨[⟨[⟨0, 1⟩], [⟨0, .right, 1⟩], 2⟩], [], 0, 1⟩
      ⟨[⟨0, 1⟩], [⟨0, .right, 1⟩], 2⟩
      (by decide) (by decide)).2 (by decide) (by decide)).1

/-! ## The BFS solver (`src/algorithms/bfs.js`) -/

/-- A node of the BFS queue:
`{positions, parentIndex, move, depth}` (`parentIndex = -1` and
`move = null` for the root). -/
structure BfsNode where
  positions : List Position
  parentIndex : Int
  move : Option Move
  depth : Nat
deriving DecidableEq, Repr

/-- The mutable state of the BFS loop (the queue is an append-only array
read through `frontIndex`). -/
structure BfsState where
  queue : List BfsNode
  frontIndex : Nat
  visited : List String
  nodesExplored : Nat
  maxDepthSeen : Nat
deriving DecidableEq, Repr

/-- One iteration of the successor loop of a BFS expansion: apply the
move, skip visited keys, otherwise mark visited and enqueue the child with
a parent reference to the popped node. -/
def bfsPushStep (parentIdx : Nat) (parent : BfsNode) (st : BfsState)
    (move : Move) : BfsState :=
  let nextPositions := applyMove parent.positions move
  let key := stateKey nextPositions
  if st.visited.contains key then st
  else
    { st with
      visited := key :: st.visited,
      queue := st.queue ++
        [⟨nextPositions, Int.ofNat parentIdx, some move, parent.depth + 1⟩] }

/-- The successor loop of one BFS expansion. -/
def bfsEnqueueSuccessors (ctx : Context) (parentIdx : Nat)
    (parent : BfsNode) (s : BfsState) : BfsState :=
  (generateMoves ctx parent.positions).foldl (bfsPushStep parentIdx parent) s

/-- The pop bookkeeping of one BFS iteration. -/
def bfsPopState (s : BfsState) (node : BfsNode) : BfsState :=
  { s with
    frontIndex := s.frontIndex + 1,
    nodesExplored := s.nodesExplored + 1,
    maxDepthSeen := max s.maxDepthSeen node.depth }

/-- How the BFS loop ends. -/
inductive BfsOutcome where
  | aborted (s : BfsState)
  | found (s : BfsState) (solutionIndex : Nat)
  | exhausted (s : BfsState)
deriving Repr

/-- The BFS `while` loop (fuel-indexed; `none` = fuel ran out).  `sig n`
is the cancellation token's value at the top of iteration `n`
(`n = frontIndex`, the number of completed expansions). -/
def bfsLoop (ctx : Context) (sig : Nat → Bool) :
    Nat → BfsState → Option BfsOutcome
  | 0, _ => none
  | fuel + 1, s =>
    if h : s.frontIndex < s.queue.length then
      if sig s.frontIndex then some (.aborted s)
      else
        let node := s.queue.get ⟨s.frontIndex, h⟩
        if isGoalState ctx node.positions then
          some (.found (bfsPopState s node) s.frontIndex)
        else
          bfsLoop ctx sig fuel
            (bfsEnqueueSuccessors ctx s.frontIndex node (bfsPopState s node))
    else some (.exhausted s)

/-- The accumulator loop of `reconstructPath`: walk parent references,
collecting each node's move, until the root's `-1`; the collected list is
reversed on return.  (The fuel only guards against a malformed parent
graph: every solver-produced queue satisfies `parentIndex < index`, so the
walk always ends within `nodes.length + 1` steps.) -/
def reconstructPathAux (nodes : List BfsNode) :
    Nat → Int → List Move → List Move
  | 0, _, path => path.reverse
  | fuel + 1, current, path =>
    if current = -1 then path.reverse
    else
      match nodes.get? current.toNat with
      | none => path.reverse
      | some node =>
        reconstructPathAux nodes fuel node.parentIndex
          (match node.move with
           | some m => path ++ [m]
           | none => path)

/-- `reconstructPath`: the move list from the root to `solutionIndex`. -/
def reconstructPath (nodes : List BfsNode) (solutionIndex : Int) :
    List Move :=
  reconstructPathAux nodes (nodes.length + 1) solutionIndex []

/-- The result object the BFS epilogue builds from the loop outcome. -/
def bfsResult (ctx : Context) (initial : List Position) :
    BfsOutcome → SolveResult
  | .aborted s =>
    { status := .aborted, moves := [],
      stateHistory := [clonePositions initial], actions := [],
      metrics := ⟨s.nodesExplored, s.queue.length - s.frontIndex, 0, 0⟩,
      vehicleLabels := vehicleLabels ctx }
  | .exhausted s =>
    { status := .unsolved, moves := [],
      stateHistory := [clonePositions initial], actions := [],
      metrics := ⟨s.nodesExplored, s.queue.length - s.frontIndex, 0, 0⟩,
      vehicleLabels := vehicleLabels ctx }
  | .found s i =>
    let moves := reconstructPath s.queue (Int.ofNat i)
    { status := .solved, moves := moves,
      stateHistory := buildStateHistory initial moves,
      actions := moves.map fun move =>
        describeMove (vehicleAt ctx move.vehicleIndex) move,
      metrics := ⟨s.nodesExplored, s.queue.length - s.frontIndex,
        moves.length, 0⟩,
      vehicleLabels := vehicleLabels ctx }

/-- `solveWithBfs`. -/
def solveWithBfs (ctx : Context) (sig : Nat → Bool) (fuel : Nat) :
    Option SolveResult :=
  let initial := initialPositions ctx
  (bfsLoop ctx sig fuel
      ⟨[⟨clonePositions initial, -1, none, 0⟩], 0,
       [stateKey initial], 0, 0⟩).map
    (bfsResult ctx initial)

/-! ## BFS invariants and result specification -/

/-- The parent-graph invariant of the BFS queue: every node is either the
root (parent `-1`, no move, the initial state, depth 0) or a child of an
earlier node via its recorded move. -/
def bfsQueueOk (init : List Position) (nodes : List BfsNode) : Prop :=
  ∀ i node, nodes.get? i = some node →
    (node.parentIndex = -1 ∧ node.move = none ∧
      node.positions = init ∧ node.depth = 0) ∨
    (∃ p m parentNode, node.parentIndex = Int.ofNat p ∧ p < i ∧
      node.move = some m ∧ nodes.get? p = some parentNode ∧
      node.positions = applyMove parentNode.positions m ∧
      node.depth = parentNode.depth + 1)

/-- Correctness of `reconstructPathAux` on a well-formed parent graph:
walking up from index `i` produces a move list that replays to node `i`'s
state, with as many moves as the node's depth. -/
theorem reconstructPathAux_spec {init : List Position}
    {nodes : List BfsNode} (hq : bfsQueueOk init nodes) :
    ∀ i, ∀ node, nodes.get? i = some node → ∀ fuel, i < fuel →
      ∀ path, ∃ ms,
        reconstructPathAux nodes fuel (Int.ofNat i) path =
          ms ++ path.reverse ∧
        replayMoves init ms = node.positions ∧ ms.length = node.depth := by
  intro i
  induction i using Nat.strong_induction_on with
  | _ i ih =>
    intro node hnode fuel hfuel path
    rcases fuel with _ | fuel
    · omega
    · rw [reconstructPathAux]
      have hne : ¬(Int.ofNat i = -1) := by
        intro hcon
        have h0 : (0 : Int) ≤ Int.ofNat i := Int.ofNat_nonneg i
        omega
      rw [if_neg hne]
      have htoNat : (Int.ofNat i).toNat = i := rfl
      rw [htoNat, hnode]
      dsimp only
      rcases hq i node hnode with ⟨hpar, hmv, hpos, hdep⟩ |
          ⟨p, m, parentNode, hpar, hpi, hmv, hpnode, hpos, hdep⟩
      · rw [hpar, hmv]
        dsimp only
        refine ⟨[], ?_, hpos.symm, hdep.symm⟩
        rcases fuel with _ | fuel
        · rfl
        · rw [reconstructPathAux, if_pos rfl]
          rfl
      · rw [hpar, hmv]
        dsimp only
        obtain ⟨ms, hrec, hreplay, hlen⟩ :=
          ih p hpi parentNode hpnode fuel (by omega) (path ++ [m])
        refine ⟨ms ++ [m], ?_, ?_, ?_⟩
        · rw [hrec, List.reverse_append]
          simp
        · rw [replayMoves_append, hreplay, hpos]
        · simp [hlen, hdep]

/-- Correctness of `reconstructPath`. -/
theorem reconstructPath_spec {init : List Position} {nodes : List BfsNode}
    (hq : bfsQueueOk init nodes) {i : Nat} {node : BfsNode}
    (hnode : nodes.get? i = some node) :
    replayMoves init (reconstructPath nodes (Int.ofNat i)) =
      node.positions ∧
    (reconstructPath nodes (Int.ofNat i)).length = node.depth := by
  have hi : i < nodes.length := (List.get?_eq_some.mp hnode).1
  obtain ⟨ms, hrec, hreplay, hlen⟩ :=
    reconstructPathAux_spec hq i node hnode (nodes.length + 1) (by omega) []
  unfold reconstructPath
  rw [hrec]
  simp only [List.reverse_nil, List.append_nil]
  exact ⟨hreplay, hlen⟩

theorem bfsPushStep_inv {init : List Position} {parentIdx : Nat}
    {parent : BfsNode} {st : BfsState}
    (hq : bfsQueueOk init st.queue)
    (hpar : st.queue.get? parentIdx = some parent) (move : Move) :
    bfsQueueOk init (bfsPushStep parentIdx parent st move).queue ∧
      (bfsPushStep parentIdx parent st move).queue.get? parentIdx =
        some parent := by
  by_cases hk : stateKey (applyMove parent.positions move) ∈ st.visited
  · have heq : bfsPushStep parentIdx parent st move = st := by
      simp [bfsPushStep, hk]
    rw [heq]
    exact ⟨hq, hpar⟩
  · have heq : (bfsPushStep parentIdx parent st move).queue =
        st.queue ++ [⟨applyMove parent.positions move, Int.ofNat parentIdx,
          some move, parent.depth + 1⟩] := by
      simp [bfsPushStep, hk]
    rw [heq]
    have hlt : parentIdx < st.queue.length := (List.get?_eq_some.mp hpar).1
    constructor
    · intro i node hnode
      by_cases hi : i < st.queue.length
      · rw [List.get?_append hi] at hnode
        rcases hq i node hnode with h | ⟨p, m, parentNode, h1, h2, h3, h4, h5, h6⟩
        · exact Or.inl h
        · refine Or.inr ⟨p, m, parentNode, h1, h2, h3, ?_, h5, h6⟩
          rw [List.get?_append (by omega)]
          exact h4
      · have hlen : i = st.queue.length := by
          have := (List.get?_eq_some.mp hnode).1
          simp only [List.length_append, List.length_singleton] at this
          omega
        subst hlen
        rw [List.get?_concat_length] at hnode
        cases Option.some.inj hnode
        refine Or.inr ⟨parentIdx, move, parent, rfl, hlt, rfl, ?_, rfl, rfl⟩
        rw [List.get?_append hlt]
        exact hpar
    · rw [List.get?_append hlt]
      exact hpar

theorem bfsEnqueue_fold_inv {init : List Position} {parentIdx : Nat}
    {parent : BfsNode} :
    ∀ (moves : List Move) (st : BfsState),
      bfsQueueOk init st.queue →
      st.queue.get? parentIdx = some parent →
      bfsQueueOk init
        ((moves.foldl (bfsPushStep parentIdx parent) st).queue) := by
  intro moves
  induction moves with
  | nil => intro st hq _; exact hq
  | cons m ms ih =>
    intro st hq hpar
    rw [List.foldl_cons]
    obtain ⟨hq', hpar'⟩ := bfsPushStep_inv hq hpar m
    exact ih _ hq' hpar'

/-- Any `found` outcome of the BFS loop carries a well-formed queue and a
goal node at the solution index. -/
theorem bfsLoop_found_inv {ctx : Context} {sig : Nat → Bool}
    {init : List Position} :
    ∀ (fuel : Nat) (s : BfsState) (s' : BfsState) (i : Nat),
      bfsQueueOk init s.queue →
      bfsLoop ctx sig fuel s = some (.found s' i) →
      bfsQueueOk init s'.queue ∧
        ∃ node, s'.queue.get? i = some node ∧
          isGoalState ctx node.positions = true := by
  intro fuel
  induction fuel with
  | zero => intro s s' i _ h; cases h
  | succ fuel ih =>
    intro s s' i hq h
    rw [bfsLoop] at h
    by_cases hfront : s.frontIndex < s.queue.length
    · rw [dif_pos hfront] at h
      by_cases hsig : sig s.frontIndex = true
      · rw [if_pos hsig] at h; cases h
      · rw [if_neg hsig] at h
        dsimp only at h
        set node := s.queue.get ⟨s.frontIndex, hfront⟩ with hnodedef
        by_cases hgoal : isGoalState ctx node.positions = true
        · rw [if_pos hgoal] at h
          cases h
          refine ⟨hq, node, ?_, hgoal⟩
          rw [← List.get?_eq_get hfront]
          rfl
        · rw [if_neg hgoal] at h
          refine ih _ s' i ?_ h
          unfold bfsEnqueueSuccessors
          refine bfsEnqueue_fold_inv _ _ hq ?_
          rw [← List.get?_eq_get hfront]
          rfl
    · rw [dif_neg hfront] at h
      cases h

theorem bfs_initial_queueOk (ctx : Context) :
    bfsQueueOk (initialPositions ctx)
      [⟨clonePositions (initialPositions ctx), -1, none, 0⟩] := by
  intro i node hnode
  rcases i with _ | i
  · cases Option.some.inj hnode
    exact Or.inl ⟨rfl, rfl, clonePositions_eq_self _, rfl⟩
  · cases hnode

/-- Specification of a `solved` BFS result: the reconstructed moves replay
from the initial state to a goal state, the state history is their replay,
and the depth metric is the move count. -/
theorem solveWithBfs_solved_spec {ctx : Context} {sig : Nat → Bool}
    {fuel : Nat} {r : SolveResult}
    (h : solveWithBfs ctx sig fuel = some r) (hst : r.status = .solved) :
    isGoalState ctx (replayMoves (initialPositions ctx) r.moves) = true ∧
    r.stateHistory = buildStateHistory (initialPositions ctx) r.moves ∧
    r.metrics.depth = r.moves.length ∧
    (isGoalState ctx (initialPositions ctx) = false → 1 ≤ r.moves.length) := by
  unfold solveWithBfs at h
  dsimp only at h
  rcases hloop : bfsLoop ctx sig fuel
      ⟨[⟨clonePositions (initialPositions ctx), -1, none, 0⟩], 0,
       [stateKey (initialPositions ctx)], 0, 0⟩ with _ | outcome
  · rw [hloop] at h; cases h
  · rw [hloop] at h
    cases h
    rcases outcome with s | ⟨s, i⟩ | s
    · exact absurd hst (by simp [bfsResult])
    · obtain ⟨hq, node, hnode, hgoal⟩ :=
        bfsLoop_found_inv fuel _ s i (bfs_initial_queueOk ctx) hloop
      obtain ⟨hreplay, hlen⟩ := reconstructPath_spec hq hnode
      have hmv : (bfsResult ctx (initialPositions ctx)
          (.found s i)).moves = reconstructPath s.queue (Int.ofNat i) := rfl
      rw [hmv]
      refine ⟨by rw [hreplay]; exact hgoal, rfl, rfl, ?_⟩
      intro hinit
      by_cases hzero : (reconstructPath s.queue (Int.ofNat i)).length = 0
      · exfalso
        rw [List.length_eq_zero] at hzero
        rw [hzero] at hreplay
        have : node.positions = initialPositions ctx := by
          rw [← hreplay]; rfl
        rw [this, hinit] at hgoal
        cases hgoal
      · omega
    · exact absurd hst (by simp [bfsResult])

/-- Specification of an `aborted` BFS result. -/
theorem solveWithBfs_aborted_spec {ctx : Context} {sig : Nat → Bool}
    {fuel : Nat} {r : SolveResult}
    (h : solveWithBfs ctx sig fuel = some r) (hst : r.status = .aborted) :
    r.moves = [] ∧ r.stateHistory = [initialPositions ctx] ∧
      r.metrics.depth = 0 := by
  unfold solveWithBfs at h
  dsimp only at h
  rcases hloop : bfsLoop ctx sig fuel
      ⟨[⟨clonePositions (initialPositions ctx), -1, none, 0⟩], 0,
       [stateKey (initialPositions ctx)], 0, 0⟩ with _ | outcome
  · rw [hloop] at h; cases h
  · rw [hloop] at h
    cases h
    rcases outcome with s | ⟨s, i⟩ | s
    · exact ⟨rfl, by simp [bfsResult, clonePositions_eq_self], rfl⟩
    · exact absurd hst (by simp [bfsResult])
    · exact absurd hst (by simp [bfsResult])

/-- A token asserted before the first expansion makes BFS return the
aborted result at once. -/
theorem solveWithBfs_sig0 {ctx : Context} {sig : Nat → Bool} {fuel : Nat}
    (h0 : sig 0 = true) (hf : 1 ≤ fuel) :
    ∃ r, solveWithBfs ctx sig fuel = some r ∧
      r.status = .aborted ∧ r.moves = [] ∧
      r.stateHistory = [initialPositions ctx] ∧ r.metrics.depth = 0 := by
  rcases fuel with _ | fuel
  · omega
  · have hrun : solveWithBfs ctx sig (fuel + 1) =
        some (bfsResult ctx (initialPositions ctx)
          (.aborted ⟨[⟨clonePositions (initialPositions ctx), -1, none, 0⟩],
            0, [stateKey (initialPositions ctx)], 0, 0⟩)) := by
      unfold solveWithBfs
      dsimp only
      rw [bfsLoop]
      rw [dif_pos (by simp)]
      rw [if_pos h0]
      rfl
    exact ⟨_, hrun, rfl, rfl,
      by simp [bfsResult, clonePositions_eq_self], rfl⟩

/-! ## The A* solver (`src/algorithms/astar.js`) -/

/-- A node of the A* open set: `{positions, path, g, h, f}`. -/
structure ANode where
  positions : List Position
  path : List Move
  g : Int
  h : Int
  f : Int
deriving DecidableEq, Repr

/-- `countTrue n p` is the number of `i < n` with `p i` — the value a
counting `for` loop accumulates. -/
def countTrue (n : Nat) (p : Nat → Bool) : Nat :=
  ((List.range n).filter p).length

/-- The A* heuristic.  The blocking loops run over the integer columns
(rows) strictly between the goal vehicle and the exit; their range guards
(`col < columns` resp. `col >= 0`) are monotone along the iteration, so
the loop break is the same as filtering. -/
def heuristic (ctx : Context) (positions : List Position) : Int :=
  match ctx.vehicles.get? ctx.goalIndex, positions.get? ctx.goalIndex with
  | some goalVehicle, some goalPosition =>
    match goalVehicle.orientation with
    | .horizontal =>
      let row := goalPosition.row
      let frontCol := goalPosition.col
      let rearCol := goalPosition.col + goalVehicle.length - 1
      if row ≠ ctx.exit.row then
        |ctx.exit.row - row| + |ctx.exit.col - frontCol|
      else if frontCol ≤ ctx.exit.col ∧ ctx.exit.col ≤ rearCol then 0
      else if ctx.exit.col > rearCol then
        let blocking := countTrue ((ctx.exit.col - rearCol).toNat) fun i =>
          let col := rearCol + 1 + i
          decide (col < ctx.columns) &&
            !(occupancyAt ctx positions row col == -1)
        ctx.exit.col - rearCol + blocking * 2
      else
        let blocking := countTrue ((frontCol - ctx.exit.col).toNat) fun i =>
          let col := frontCol - 1 - i
          decide (0 ≤ col) && !(occupancyAt ctx positions row col == -1)
        frontCol - ctx.exit.col + blocking * 2
    | .vertical =>
      let col := goalPosition.col
      let topRow := goalPosition.row
      let bottomRow := goalPosition.row + goalVehicle.length - 1
      if col ≠ ctx.exit.col then
        |ctx.exit.col - col| + |ctx.exit.row - topRow|
      else if topRow ≤ ctx.exit.row ∧ ctx.exit.row ≤ bottomRow then 0
      else if ctx.exit.row > bottomRow then
        let blocking := countTrue ((ctx.exit.row - bottomRow).toNat) fun i =>
          let row := bottomRow + 1 + i
          decide (row < ctx.rows) &&
            !(occupancyAt ctx positions row col == -1)
        ctx.exit.row - bottomRow + blocking * 2
      else
        let blocking := countTrue ((topRow - ctx.exit.row).toNat) fun i =>
          let row := topRow - 1 - i
          decide (0 ≤ row) && !(occupancyAt ctx positions row col == -1)
        topRow - ctx.exit.row + blocking * 2
    | .single =>
      |ctx.exit.row - goalPosition.row| + |ctx.exit.col - goalPosition.col|
  | _, _ => 0

/-- The heap comparator: `f` ascending, ties broken by `h` ascending
(`compare(a, b) < 0`). -/
def aNodeLT (a b : ANode) : Bool :=
  if a.f ≠ b.f then decide (a.f < b.f) else decide (a.h < b.h)

/-- Comparator applied through heap indices (both indices are always in
range in the heap's own calls). -/
def aNodeLTD (heap : List ANode) (a b : Nat) : Bool :=
  match heap.get? a, heap.get? b with
  | some x, some y => aNodeLT x y
  | _, _ => false

/-- Swap two heap slots. -/
def swapList {α : Type} (l : List α) (i j : Nat) : List α :=
  match l.get? i, l.get? j with
  | some a, some b => (l.set i b).set j a
  | _, _ => l

theorem swapList_length {α : Type} (l : List α) (i j : Nat) :
    (swapList l i j).length = l.length := by
  unfold swapList
  rcases l.get? i <;> rcases l.get? j <;> simp

theorem swapList_subset {α : Type} {l : List α} {i j : Nat} {x : α}
    (h : x ∈ swapList l i j) : x ∈ l := by
  unfold swapList at h
  rcases hi : l.get? i with _ | a <;> rw [hi] at h
  · exact h
  · rcases hj : l.get? j with _ | b <;> rw [hj] at h
    · exact h
    · rcases List.mem_or_eq_of_mem_set h with h' | rfl
      · rcases List.mem_or_eq_of_mem_set h' with h'' | rfl
        · exact h''
        · exact List.get?_mem hj
      · exact List.get?_mem hi

/-- `bubbleUp` of the binary-heap `PriorityQueue`. -/
def bubbleUp (heap : List ANode) (i : Nat) : List ANode :=
  if h0 : i = 0 then heap
  else
    let parentIndex := (i - 1) / 2
    if aNodeLTD heap i parentIndex then
      bubbleUp (swapList heap i parentIndex) parentIndex
    else heap
termination_by i
decreasing_by
  omega

/-- The index `bubbleDown` would swap with (itself when the heap property
already holds at `i`). -/
def downTarget (heap : List ANode) (i : Nat) : Nat :=
  let leftIndex := 2 * i + 1
  let rightIndex := 2 * i + 2
  let smallest1 :=
    if leftIndex < heap.length ∧ aNodeLTD heap leftIndex i = true then
      leftIndex
    else i
  if rightIndex < heap.length ∧ aNodeLTD heap rightIndex smallest1 = true then
    rightIndex
  else smallest1

theorem downTarget_ge (heap : List ANode) (i : Nat) :
    i ≤ downTarget heap i ∧
      (downTarget heap i ≠ i → downTarget heap i < heap.length) := by
  unfold downTarget
  dsimp only
  split_ifs with h1 h2 h3 <;>
    first
    | exact ⟨by omega, fun _ => by omega⟩
    | exact ⟨le_refl i, fun hcon => absurd rfl hcon⟩

/-- `bubbleDown` of the binary-heap `PriorityQueue`. -/
def bubbleDown (heap : List ANode) (i : Nat) : List ANode :=
  if h : downTarget heap i = i then heap
  else bubbleDown (swapList heap i (downTarget heap i)) (downTarget heap i)
termination_by heap.length - i
decreasing_by
  simp only [swapList_length]
  obtain ⟨h1, h2⟩ := downTarget_ge heap i
  have h3 := h2 h
  omega

theorem bubbleUp_subset {x : ANode} :
    ∀ {i : Nat} {heap : List ANode}, x ∈ bubbleUp heap i → x ∈ heap := by
  intro i
  induction i using Nat.strong_induction_on with
  | _ i ih =>
    intro heap hmem
    rw [bubbleUp] at hmem
    by_cases h0 : i = 0
    · rw [dif_pos h0] at hmem; exact hmem
    · rw [dif_neg h0] at hmem
      dsimp only at hmem
      by_cases hlt : aNodeLTD heap i ((i - 1) / 2) = true
      · rw [if_pos hlt] at hmem
        exact swapList_subset (ih ((i - 1) / 2) (by omega) hmem)
      · rw [if_neg hlt] at hmem
        exact hmem

theorem bubbleDown_subset_aux {x : ANode} :
    ∀ (n : Nat) (heap : List ANode) (i : Nat), heap.length - i = n →
      x ∈ bubbleDown heap i → x ∈ heap := by
  intro n
  induction n using Nat.strong_induction_on with
  | _ n ih =>
    intro heap i hn hmem
    rw [bubbleDown] at hmem
    by_cases h : downTarget heap i = i
    · rw [dif_pos h] at hmem; exact hmem
    · rw [dif_neg h] at hmem
      obtain ⟨h1, h2⟩ := downTarget_ge heap i
      have h3 := h2 h
      have hlen : (swapList heap i (downTarget heap i)).length = heap.length :=
        swapList_length _ _ _
      have hx : x ∈ swapList heap i (downTarget heap i) := by
        refine ih ((swapList heap i (downTarget heap i)).length -
          downTarget heap i) ?_ _ _ rfl hmem
        rw [hlen]
        omega
      exact swapList_subset hx

theorem bubbleDown_subset {x : ANode} (heap : List ANode) (i : Nat)
    (h : x ∈ bubbleDown heap i) : x ∈ heap :=
  bubbleDown_subset_aux (heap.length - i) heap i rfl h

/-- `PriorityQueue.push`: append, then bubble up from the last slot. -/
def pqPush (heap : List ANode) (value : ANode) : List ANode :=
  bubbleUp (heap ++ [value]) heap.length

/-- `PriorityQueue.pop`: return the root; move the last element to the
root and bubble down (empty result when the heap had one element). -/
def pqPop (heap : List ANode) : Option ANode × List ANode :=
  match heap, heap.getLast? with
  | [], _ => (none, [])
  | top :: _, none => (some top, [])
  | top :: rest, some last =>
    if rest.length = 0 then (some top, [])
    else bubbleDown (((top :: rest).dropLast).set 0 last) 0 |> (some top, ·)

theorem pqPush_subset {heap : List ANode} {value x : ANode}
    (h : x ∈ pqPush heap value) : x ∈ heap ∨ x = value := by
  unfold pqPush at h
  have := bubbleUp_subset h
  rcases List.mem_append.mp this with h' | h'
  · exact Or.inl h'
  · exact Or.inr (List.mem_singleton.mp h')

theorem pqPop_spec {heap : List ANode} {top : ANode} {rest : List ANode}
    (h : pqPop heap = (some top, rest)) :
    top ∈ heap ∧ ∀ x ∈ rest, x ∈ heap := by
  unfold pqPop at h
  rcases heap with _ | ⟨hd, tl⟩
  · cases h
  · rcases hlast : (hd :: tl).getLast? with _ | last
    · rw [hlast] at h
      dsimp only at h
      cases h
      exact ⟨List.mem_cons_self _ _, by intro x hx; cases hx⟩
    · rw [hlast] at h
      dsimp only at h
      by_cases htl : tl.length = 0
      · rw [if_pos htl] at h
        cases h
        exact ⟨List.mem_cons_self _ _, by intro x hx; cases hx⟩
      · rw [if_neg htl] at h
        cases h
        refine ⟨List.mem_cons_self _ _, ?_⟩
        intro x hx
        have h1 := bubbleDown_subset _ _ hx
        rcases List.mem_or_eq_of_mem_set h1 with h2 | rfl
        · exact List.dropLast_subset _ h2
        · exact getLast?_mem hlast

/-- `Map.get`: value of the first (only) entry with the key. -/
def mapGet? (m : List (String × Int)) (key : String) : Option Int :=
  (m.find? fun entry => entry.1 == key).map fun entry => entry.2

/-- `Map.set`: replace the entry in place, or append a new one. -/
def mapSet (m : List (String × Int)) (key : String) (value : Int) :
    List (String × Int) :=
  match m with
  | [] => [(key, value)]
  | entry :: rest =>
    if entry.1 == key then (key, value) :: rest
    else entry :: mapSet rest key value

/-- The mutable state of the A* loop (`polls` counts loop iterations for
the cancellation-token samples; it has no JavaScript counterpart). -/
structure AStarState where
  openSet : List ANode
  bestCosts : List (String × Int)
  nodesExplored : Nat
  polls : Nat
deriving DecidableEq, Repr

/-- `tentativeG >= (bestCosts.get(nextKey) ?? Infinity)`: false when the
key is absent (nothing beats infinity). -/
def geIncumbent (bestCosts : List (String × Int)) (key : String)
    (tentativeG : Int) : Bool :=
  match mapGet? bestCosts key with
  | some best => tentativeG ≥ best
  | none => false

/-- The successor node A* builds for a move. -/
def aStarChild (ctx : Context) (parent : ANode) (move : Move) : ANode :=
  let nextPositions := applyMove parent.positions move
  ⟨nextPositions, parent.path ++ [move], parent.g + 1,
    heuristic ctx nextPositions,
    parent.g + 1 + heuristic ctx nextPositions⟩

/-- One iteration of the successor loop of an A* expansion: skip the move
when the tentative cost does not beat the incumbent best cost, otherwise
record the tentative cost and push the child onto the open set. -/
def aStarRelaxStep (ctx : Context) (parent : ANode) (st : AStarState)
    (move : Move) : AStarState :=
  let nextPositions := applyMove parent.positions move
  let nextKey := stateKey nextPositions
  let tentativeG := parent.g + 1
  if geIncumbent st.bestCosts nextKey tentativeG then st
  else
    { st with
      bestCosts := mapSet st.bestCosts nextKey tentativeG,
      openSet := pqPush st.openSet (aStarChild ctx parent move) }

/-- The successor loop of one A* expansion. -/
def aStarExpand (ctx : Context) (parent : ANode) (s : AStarState) :
    AStarState :=
  (generateMoves ctx parent.positions).foldl (aStarRelaxStep ctx parent) s

/-- The stale-node test: a popped node is dropped when a strictly lower
cost is already recorded for its state key
(`knownCost !== undefined && currentNode.g > knownCost`). -/
def aStarDiscard (bestCosts : List (String × Int)) (key : String)
    (g : Int) : Bool :=
  match mapGet? bestCosts key with
  | some known => g > known
  | none => false

/-- How the A* loop ends. -/
inductive AStarOutcome where
  | aborted (s : AStarState)
  | found (s : AStarState) (node : ANode)
  | exhausted (s : AStarState)
deriving Repr

/-- The A* `while` loop (fuel-indexed; `none` = fuel ran out). -/
def aStarLoop (ctx : Context) (sig : Nat → Bool) :
    Nat → AStarState → Option AStarOutcome
  | 0, _ => none
  | fuel + 1, s =>
    if s.openSet.isEmpty then some (.exhausted s)
    else if sig s.polls then some (.aborted s)
    else
      match pqPop s.openSet with
      | (none, _) => some (.exhausted s)
      | (some currentNode, rest) =>
        let s0 : AStarState := { s with openSet := rest, polls := s.polls + 1 }
        if aStarDiscard s0.bestCosts (stateKey currentNode.positions)
            currentNode.g then
          aStarLoop ctx sig fuel s0
        else
          let s1 : AStarState :=
            { s0 with nodesExplored := s0.nodesExplored + 1 }
          if isGoalState ctx currentNode.positions then
            some (.found s1 currentNode)
          else aStarLoop ctx sig fuel (aStarExpand ctx currentNode s1)

/-- The result object the A* epilogue builds from the loop outcome. -/
def aStarResult (ctx : Context) (initial : List Position) :
    AStarOutcome → SolveResult
  | .aborted s =>
    { status := .aborted, moves := [],
      stateHistory := [clonePositions initial], actions := [],
      metrics := ⟨s.nodesExplored, s.openSet.length, 0, 0⟩,
      vehicleLabels := vehicleLabels ctx }
  | .exhausted s =>
    { status := .unsolved, moves := [],
      stateHistory := [clonePositions initial], actions := [],
      metrics := ⟨s.nodesExplored, s.openSet.length, 0, 0⟩,
      vehicleLabels := vehicleLabels ctx }
  | .found s node =>
    { status := .solved, moves := node.path,
      stateHistory := buildStateHistory initial node.path,
      actions := node.path.map fun move =>
        describeMove (vehicleAt ctx move.vehicleIndex) move,
      metrics := ⟨s.nodesExplored, s.openSet.length, node.path.length, 0⟩,
      vehicleLabels := vehicleLabels ctx }

/-- `solveWithAStar`. -/
def solveWithAStar (ctx : Context) (sig : Nat → Bool) (fuel : Nat) :
    Option SolveResult :=
  let initial := initialPositions ctx
  let startNode : ANode :=
    ⟨clonePositions initial, [], 0, heuristic ctx initial,
      0 + heuristic ctx initial⟩
  (aStarLoop ctx sig fuel
      ⟨pqPush [] startNode, [(stateKey initial, 0)], 0, 0⟩).map
    (aStarResult ctx initial)

/-! ## A* invariants and result specification -/

/-- The path-consistency invariant of A* nodes. -/
def aNodeOk (init : List Position) (node : ANode) : Prop :=
  node.positions = replayMoves init node.path

theorem aStarRelaxStep_inv {ctx : Context} {init : List Position}
    {parent : ANode} (hparent : aNodeOk init parent) {st : AStarState}
    (hs : ∀ n ∈ st.openSet, aNodeOk init n) (move : Move) :
    ∀ n ∈ (aStarRelaxStep ctx parent st move).openSet, aNodeOk init n := by
  unfold aStarRelaxStep
  by_cases hge : geIncumbent st.bestCosts
      (stateKey (applyMove parent.positions move)) (parent.g + 1) = true
  · simp only [hge, if_true]
    exact hs
  · simp only [hge, if_false, Bool.false_eq_true]
    intro n hn
    rcases pqPush_subset hn with h | rfl
    · exact hs n h
    · unfold aNodeOk aStarChild
      dsimp only
      rw [replayMoves_append, ← hparent]

theorem aStarExpand_inv {ctx : Context} {init : List Position}
    {parent : ANode} (hparent : aNodeOk init parent) :
    ∀ (moves : List Move) (st : AStarState),
      (∀ n ∈ st.openSet, aNodeOk init n) →
      ∀ n ∈ (moves.foldl (aStarRelaxStep ctx parent) st).openSet,
        aNodeOk init n := by
  intro moves
  induction moves with
  | nil => intro st hs; exact hs
  | cons m ms ih =>
    intro st hs
    rw [List.foldl_cons]
    exact ih _ (aStarRelaxStep_inv hparent hs m)

/-- Any `found` outcome of the A* loop carries a goal node whose path
replays to its state. -/
theorem aStarLoop_found_inv {ctx : Context} {sig : Nat → Bool}
    {init : List Position} :
    ∀ (fuel : Nat) (s : AStarState) (s' : AStarState) (node : ANode),
      (∀ n ∈ s.openSet, aNodeOk init n) →
      aStarLoop ctx sig fuel s = some (.found s' node) →
      aNodeOk init node ∧ isGoalState ctx node.positions = true := by
  intro fuel
  induction fuel with
  | zero => intro s s' node _ h; cases h
  | succ fuel ih =>
    intro s s' node hs h
    rw [aStarLoop] at h
    by_cases hempty : s.openSet.isEmpty = true
    · rw [if_pos hempty] at h; cases h
    · rw [if_neg hempty] at h
      by_cases hsig : sig s.polls = true
      · rw [if_pos hsig] at h; cases h
      · rw [if_neg hsig] at h
        rcases hpop : pqPop s.openSet with ⟨_ | current, rest⟩
        · rw [hpop] at h; cases h
        · rw [hpop] at h
          dsimp only at h
          have hcur : aNodeOk init current :=
            hs current (pqPop_spec hpop).1
          have hrest : ∀ n ∈ rest, aNodeOk init n :=
            fun n hn => hs n ((pqPop_spec hpop).2 n hn)
          by_cases hdis : aStarDiscard s.bestCosts
              (stateKey current.positions) current.g = true
          · rw [if_pos hdis] at h
            exact ih _ s' node hrest h
          · rw [if_neg hdis] at h
            by_cases hgoal : isGoalState ctx current.positions = true
            · rw [if_pos hgoal] at h
              cases h
              exact ⟨hcur, hgoal⟩
            · rw [if_neg hgoal] at h
              refine ih _ s' node ?_ h
              exact aStarExpand_inv hcur _ _ hrest

/-- Specification of a `solved` A* result. -/
theorem solveWithAStar_solved_spec {ctx : Context} {sig : Nat → Bool}
    {fuel : Nat} {r : SolveResult}
    (h : solveWithAStar ctx sig fuel = some r) (hst : r.status = .solved) :
    isGoalState ctx (replayMoves (initialPositions ctx) r.moves) = true ∧
    r.stateHistory = buildStateHistory (initialPositions ctx) r.moves ∧
    r.metrics.depth = r.moves.length ∧
    (isGoalState ctx (initialPositions ctx) = false → 1 ≤ r.moves.length) := by
  unfold solveWithAStar at h
  dsimp only at h
  rcases hloop : aStarLoop ctx sig fuel
      ⟨pqPush [] ⟨clonePositions (initialPositions ctx), [], 0,
        heuristic ctx (initialPositions ctx),
        0 + heuristic ctx (initialPositions ctx)⟩,
       [(stateKey (initialPositions ctx), 0)], 0, 0⟩ with _ | outcome
  · rw [hloop] at h; cases h
  · rw [hloop] at h
    cases h
    rcases outcome with s | ⟨s, node⟩ | s
    · exact absurd hst (by simp [aStarResult])
    · have hinv : ∀ n ∈ (pqPush []
          (⟨clonePositions (initialPositions ctx), [], 0,
            heuristic ctx (initialPositions ctx),
            0 + heuristic ctx (initialPositions ctx)⟩ : ANode)),
          aNodeOk (initialPositions ctx) n := by
        intro n hn
        rcases pqPush_subset hn with h' | rfl
        · cases h'
        · unfold aNodeOk
          dsimp only
          rw [clonePositions_eq_self]
          rfl
      obtain ⟨hok, hgoal⟩ := aStarLoop_found_inv fuel _ s node hinv hloop
      have hmv : (aStarResult ctx (initialPositions ctx)
          (.found s node)).moves = node.path := rfl
      rw [hmv]
      refine ⟨by rw [← hok]; exact hgoal, rfl, rfl, ?_⟩
      intro hinit
      rcases hpath : node.path with _ | ⟨m, ms⟩
      · exfalso
        unfold aNodeOk at hok
        rw [hpath] at hok
        have : node.positions = initialPositions ctx := by rw [hok]; rfl
        rw [this, hinit] at hgoal
        cases hgoal
      · simp
    · exact absurd hst (by simp [aStarResult])

/-- Specification of an `aborted` A* result. -/
theorem solveWithAStar_aborted_spec {ctx : Context} {sig : Nat → Bool}
    {fuel : Nat} {r : SolveResult}
    (h : solveWithAStar ctx sig fuel = some r) (hst : r.status = .aborted) :
    r.moves = [] ∧ r.stateHistory = [initialPositions ctx] ∧
      r.metrics.depth = 0 := by
  unfold solveWithAStar at h
  dsimp only at h
  rcases hloop : aStarLoop ctx sig fuel
      ⟨pqPush [] ⟨clonePositions (initialPositions ctx), [], 0,
        heuristic ctx (initialPositions ctx),
        0 + heuristic ctx (initialPositions ctx)⟩,
       [(stateKey (initialPositions ctx), 0)], 0, 0⟩ with _ | outcome
  · rw [hloop] at h; cases h
  · rw [hloop] at h
    cases h
    rcases outcome with s | ⟨s, node⟩ | s
    · exact ⟨rfl, by simp [aStarResult, clonePositions_eq_self], rfl⟩
    · exact absurd hst (by simp [aStarResult])
    · exact absurd hst (by simp [aStarResult])

/-- A token asserted before the first expansion makes A* return the
aborted result at once. -/
theorem solveWithAStar_sig0 {ctx : Context} {sig : Nat → Bool} {fuel : Nat}
    (h0 : sig 0 = true) (hf : 1 ≤ fuel) :
    ∃ r, solveWithAStar ctx sig fuel = some r ∧
      r.status = .aborted ∧ r.moves = [] ∧
      r.stateHistory = [initialPositions ctx] ∧ r.metrics.depth = 0 := by
  rcases fuel with _ | fuel
  · omega
  · have hrun : solveWithAStar ctx sig (fuel + 1) =
        some (aStarResult ctx (initialPositions ctx)
          (.aborted ⟨pqPush [] ⟨clonePositions (initialPositions ctx), [], 0,
              heuristic ctx (initialPositions ctx),
              0 + heuristic ctx (initialPositions ctx)⟩,
            [(stateKey (initialPositions ctx), 0)], 0, 0⟩)) := by
      unfold solveWithAStar
      dsimp only
      rw [aStarLoop]
      rw [if_neg (by simp [pqPush, bubbleUp])]
      rw [if_pos h0]
      rfl
    exact ⟨_, hrun, rfl, rfl,
      by simp [aStarResult, clonePositions_eq_self], rfl⟩

/-- Written from the specification's words (§4.7), for comparison with
the implementation: process the generated successors in order; a successor
is pushed onto the open set *only if* its tentative `g` (parent `g` + 1)
is strictly less than the incumbent `bestCost` entry for its key, treated
as infinity when absent, *in which case* `bestCost` is updated to the
tentative `g`.  Returns the final map and the pushed children in order. -/
def expandSpec (ctx : Context) (parent : ANode) :
    List Move → List (String × Int) → List (String × Int) × List ANode
  | [], bestCosts => (bestCosts, [])
  | move :: moves, bestCosts =>
    let key := stateKey (applyMove parent.positions move)
    let tentativeG := parent.g + 1
    if (match mapGet? bestCosts key with
        | none => true
        | some best => decide (tentativeG < best)) = true then
      let result :=
        expandSpec ctx parent moves (mapSet bestCosts key tentativeG)
      (result.1, aStarChild ctx parent move :: result.2)
    else expandSpec ctx parent moves bestCosts

theorem geIncumbent_false_iff_specCond (bestCosts : List (String × Int))
    (key : String) (tentativeG : Int) :
    geIncumbent bestCosts key tentativeG = false ↔
      (match mapGet? bestCosts key with
        | none => true
        | some best => decide (tentativeG < best)) = true := by
  unfold geIncumbent
  rcases mapGet? bestCosts key with _ | best
  · simp
  · simp only [decide_eq_false_iff_not, decide_eq_true_eq, not_le]

/-- The expansion loop refines `expandSpec`: the final best-cost map is
the one the specification's discipline computes, and the open set is the
old open set with exactly the specified children pushed, in order. -/
theorem aStarExpand_refines {ctx : Context} {parent : ANode} :
    ∀ (moves : List Move) (st : AStarState),
      (moves.foldl (aStarRelaxStep ctx parent) st).bestCosts =
        (expandSpec ctx parent moves st.bestCosts).1 ∧
      (moves.foldl (aStarRelaxStep ctx parent) st).openSet =
        (expandSpec ctx parent moves st.bestCosts).2.foldl pqPush
          st.openSet ∧
      (moves.foldl (aStarRelaxStep ctx parent) st).nodesExplored =
        st.nodesExplored := by
  intro moves
  induction moves with
  | nil => intro st; exact ⟨rfl, rfl, rfl⟩
  | cons move moves ih =>
    intro st
    rw [List.foldl_cons, expandSpec]
    by_cases hge : geIncumbent st.bestCosts
        (stateKey (applyMove parent.positions move)) (parent.g + 1) = true
    · have hcond : ¬((match mapGet? st.bestCosts
          (stateKey (applyMove parent.positions move)) with
          | none => true
          | some best => decide (parent.g + 1 < best)) = true) := by
        rw [← geIncumbent_false_iff_specCond]
        simp [hge]
      rw [if_neg hcond]
      have hstep : aStarRelaxStep ctx parent st move = st := by
        unfold aStarRelaxStep
        rw [if_pos hge]
      rw [hstep]
      exact ih st
    · have hcond : (match mapGet? st.bestCosts
          (stateKey (applyMove parent.positions move)) with
          | none => true
          | some best => decide (parent.g + 1 < best)) = true := by
        rw [← geIncumbent_false_iff_specCond]
        simpa using hge
      rw [if_pos hcond]
      have hstep : aStarRelaxStep ctx parent st move =
          { st with
            bestCosts := mapSet st.bestCosts
              (stateKey (applyMove parent.positions move)) (parent.g + 1),
            openSet := pqPush st.openSet (aStarChild ctx parent move) } := by
        unfold aStarRelaxStep
        rw [if_neg hge]
      rw [hstep]
      obtain ⟨h1, h2, h3⟩ := ih { st with
        bestCosts := mapSet st.bestCosts
          (stateKey (applyMove parent.positions move)) (parent.g + 1),
        openSet := pqPush st.openSet (aStarChild ctx parent move) }
      exact ⟨h1, by rw [h2]; rfl, h3⟩

/--
C8: the A* best-cost discipline.  (i) A popped node is discarded exactly
when its state key has a recorded best cost strictly below its `g`; the
loop then continues on the remaining open set with the best-cost map and
the expansion counter untouched — the node is never goal-tested or
expanded.  (ii) An expansion pushes a successor onto the open set only if
its tentative `g = parent.g + 1` is strictly less than the incumbent
best-cost entry for its key (infinity when absent), updating the entry to
the tentative `g` — the loop computes exactly the map and pushes of
`expandSpec`, the direct transcription of the specification's rule.
-/
theorem aStar_bestCost_discipline :
    (∀ (bestCosts : List (String × Int)) (key : String) (g : Int),
      aStarDiscard bestCosts key g = true ↔
        ∃ known, mapGet? bestCosts key = some known ∧ g > known) ∧
    (∀ (ctx : Context) (sig : Nat → Bool) (fuel : Nat) (s : AStarState)
        (node : ANode) (rest : List ANode),
      s.openSet.isEmpty = false → sig s.polls = false →
      pqPop s.openSet = (some node, rest) →
      aStarDiscard s.bestCosts (stateKey node.positions) node.g = true →
      aStarLoop ctx sig (fuel + 1) s =
        aStarLoop ctx sig fuel
          ⟨rest, s.bestCosts, s.nodesExplored, s.polls + 1⟩) ∧
    (∀ (ctx : Context) (parent : ANode) (s : AStarState),
      (aStarExpand ctx parent s).bestCosts =
        (expandSpec ctx parent (generateMoves ctx parent.positions)
          s.bestCosts).1 ∧
      (aStarExpand ctx parent s).openSet =
        (expandSpec ctx parent (generateMoves ctx parent.positions)
          s.bestCosts).2.foldl pqPush s.openSet) := by
  refine ⟨?_, ?_, ?_⟩
  · intro bestCosts key g
    unfold aStarDiscard
    rcases h : mapGet? bestCosts key with _ | known
    · simp
    · simp only [decide_eq_true_eq]
      constructor
      · intro hgt
        exact ⟨known, rfl, hgt⟩
      · rintro ⟨known2, hk, hgt⟩
        cases Option.some.inj hk
        exact hgt
  · intro ctx sig fuel s node rest hne hsig hpop hdis
    rw [aStarLoop]
    rw [if_neg (by simp [hne]), if_neg (by simp [hsig]), hpop]
    dsimp only
    rw [if_pos hdis]
  · intro ctx parent s
    obtain ⟨h1, h2, _⟩ :=
      aStarExpand_refines (generateMoves ctx parent.positions) s
    exact ⟨h1, h2⟩

/-- Witness for `aStar_bestCost_discipline`: its discard clause applied to
a concrete state whose popped node carries `g = 5` against a recorded best
cost of 0, with every premise decided. -/
theorem aStar_bestCost_discipline_witness :
    aStarLoop ⟨1, 1, ⟨0, 0⟩, [⟨.single, 1, true, "carro objetivo", ⟨0, 0⟩⟩], 0⟩
        (fun _ => false) 1
        ⟨[⟨[⟨0, 0⟩], [], 5, 0, 5⟩], [(stateKey [⟨0, 0⟩], 0)], 0, 0⟩ =
      aStarLoop ⟨1, 1, ⟨0, 0⟩, [⟨.single, 1, true, "carro objetivo", ⟨0, 0⟩⟩], 0⟩
        (fun _ => false) 0
        ⟨[], [(stateKey [⟨0, 0⟩], 0)], 0, 1⟩ := by
  exact aStar_bestCost_discipline.2.1 _ _ 0
    ⟨[⟨[⟨0, 0⟩], [], 5, 0, 5⟩], [(stateKey [⟨0, 0⟩], 0)], 0, 0⟩
    ⟨[⟨0, 0⟩], [], 5, 0, 5⟩ [] (by decide) (by decide) (by decide)
    (by decide)

/-! ## The puzzle parser (`src/models/boardRenderer.js`)

Text is modelled as `List Char`.  JavaScript's `\s` is modelled by the
ASCII whitespace characters (space, tab, LF, CR, VT, FF) — the only ones
that occur in puzzle files. -/

/-- ASCII whitespace (the `\s` class as it applies to puzzle text). -/
def isWsChar (c : Char) : Bool :=
  c = ' ' ∨ c = '\t' ∨ c = '\n' ∨ c = '\r' ∨ c = '\x0b' ∨ c = '\x0c'

/-- `trimEnd`. -/
def trimEndChars (l : List Char) : List Char :=
  (l.reverse.dropWhile isWsChar).reverse

/-- `trim`. -/
def trimChars (l : List Char) : List Char :=
  ((l.dropWhile isWsChar).reverse.dropWhile isWsChar).reverse

/-- `split(/\r?\n/)`: a line break is `\n`, optionally preceded by `\r`;
a lone `\r` stays in the line. -/
def splitLinesAux : List Char → List Char → List (List Char)
  | [], acc => [acc.reverse]
  | '\r' :: '\n' :: rest, acc => acc.reverse :: splitLinesAux rest []
  | '\n' :: rest, acc => acc.reverse :: splitLinesAux rest []
  | c :: rest, acc => splitLinesAux rest (c :: acc)

def splitLines (text : List Char) : List (List Char) :=
  splitLinesAux text []

/-- `line.trim().split(/\s+/).filter(t => t.length > 0)`: the non-empty
maximal runs of non-whitespace characters, in order. -/
def tokensAux : List Char → List Char → List (List Char)
  | [], acc => if acc.isEmpty then [] else [acc.reverse]
  | c :: rest, acc =>
    if isWsChar c then
      if acc.isEmpty then tokensAux rest []
      else acc.reverse :: tokensAux rest []
    else tokensAux rest (c :: acc)

def tokenize (l : List Char) : List (List Char) :=
  tokensAux l []

/-- `createGrid`. -/
def createGrid (rows : List (List Char)) : List (List (List Char)) :=
  rows.map tokenize

/-- `/^Salida\s*:/i.test(line)`. -/
def isExitLine (line : List Char) : Bool :=
  (line.take 6).map Char.toLower == ['s', 'a', 'l', 'i', 'd', 'a'] &&
    ((line.drop 6).dropWhile isWsChar).head? == some ':'

/-- `split(sep)` over a single separator character. -/
def splitOnCharAux (sep : Char) : List Char → List Char → List (List Char)
  | [], acc => [acc.reverse]
  | c :: rest, acc =>
    if c = sep then acc.reverse :: splitOnCharAux sep rest []
    else splitOnCharAux sep rest (c :: acc)

def splitOnChar (sep : Char) (l : List Char) : List (List Char) :=
  splitOnCharAux sep l []

/-- The digit-run reading of `Number.parseInt(text, 10)` past the sign:
`none` when no digit is found (`NaN`). -/
def parseDigits (l : List Char) : Option Nat :=
  let ds := l.takeWhile fun c => decide ('0' ≤ c ∧ c ≤ '9')
  if ds.isEmpty then none
  else some (ds.foldl (fun acc c => acc * 10 + (c.toNat - '0'.toNat)) 0)

/-- `Number.parseInt(text, 10)`: skip leading whitespace, optional sign,
longest digit prefix; `NaN` (`none`) when there is no digit. -/
def parseIntJS (l : List Char) : Option Int :=
  match l.dropWhile isWsChar with
  | '-' :: rest => (parseDigits rest).map fun n => -(n : Int)
  | '+' :: rest => (parseDigits rest).map fun n => (n : Int)
  | other => (parseDigits other).map fun n => (n : Int)

/-- The parse errors, one per `throw` site of the parser. -/
inductive ParseError where
  | emptyPuzzle
  | missingExit
  | exitFormat
  | exitCoords
  | emptyBoard
deriving DecidableEq, Repr

/-- `parseExit`: text after the first `:` and before any second `:`,
split on `,`, both coordinates parsed as integers. -/
def parseExit (line : List Char) : Except ParseError Position :=
  match (splitOnChar ':' line).get? 1 with
  | none => .error .exitFormat
  | some coordinates =>
    if coordinates.isEmpty then .error .exitFormat
    else
      let parts := (splitOnChar ',' coordinates).map trimChars
      match (parts.get? 0).bind parseIntJS, (parts.get? 1).bind parseIntJS with
      | some row, some col => .ok ⟨row, col⟩
      | _, _ => .error .exitCoords

/-- `HORIZONTAL_TOKENS` / `VERTICAL_TOKENS` / `EMPTY_TOKEN`. -/
def isHorizontalToken (t : List Char) : Bool :=
  t == ['-'] || t == ['>'] || t == ['B']

def isVerticalToken (t : List Char) : Bool :=
  t == ['|'] || t == ['v'] || t == ['B']

def isEmptyToken (t : List Char) : Bool :=
  t == ['.']

/-- A cell of a parsed vehicle (`{row, col, token}`). -/
structure Cell where
  row : Nat
  col : Nat
  token : List Char
deriving DecidableEq, Repr

/-- A vehicle as collected from the grid, before colour assignment. -/
structure RawVehicle where
  orientation : Orientation
  cells : List Cell
  length : Nat
deriving DecidableEq, Repr

/-- A vehicle of the parser's output. -/
structure ParsedVehicle where
  orientation : Orientation
  cells : List Cell
  length : Nat
  isGoal : Bool
  color : String
  name : String
deriving DecidableEq, Repr

/-- The parser's output (`{grid, rows, columns, exit, vehicles}`). -/
structure ParsedBoard where
  grid : List (List (List Char))
  rows : Nat
  columns : Nat
  exit : Position
  vehicles : List ParsedVehicle
deriving DecidableEq, Repr

/-- `grid[row][col]` at `Nat` coordinates. -/
def gridToken? (grid : List (List (List Char))) (row col : Nat) :
    Option (List Char) :=
  (grid.get? row).bind fun r => r.get? col

/-- The token read under an `isInsideGrid` guard (the guard makes the
default unreachable). -/
def tokenAtD (grid : List (List (List Char))) (row col : Nat) :
    List Char :=
  (gridToken? grid row col).getD []

/-- `isInsideGrid` on possibly negative coordinates. -/
def isInsideGrid (grid : List (List (List Char))) (row col : Int) : Bool :=
  0 ≤ row && row < grid.length && 0 ≤ col &&
    (match grid.get? row.toNat with
     | some r => decide (col < r.length)
     | none => false)

/-- `keyFromPosition`. -/
def keyFromPosition (row col : Nat) : String :=
  toString row ++ ":" ++ toString col

/-- `determineOrientation`. -/
def determineOrientation (grid : List (List (List Char))) (row col : Nat) :
    Orientation :=
  let token := tokenAtD grid row col
  if isVerticalToken token ∧ ¬isHorizontalToken token then .vertical
  else if isHorizontalToken token ∧ ¬isVerticalToken token then .horizontal
  else
    let horizontalNeighbor :=
      (isInsideGrid grid row ((col : Int) - 1) &&
        isHorizontalToken (tokenAtD grid row (col - 1))) ||
      (isInsideGrid grid row ((col : Int) + 1) &&
        isHorizontalToken (tokenAtD grid row (col + 1)))
    if horizontalNeighbor then .horizontal
    else
      let verticalNeighbor :=
        (isInsideGrid grid ((row : Int) - 1) col &&
          isVerticalToken (tokenAtD grid (row - 1) col)) ||
        (isInsideGrid grid ((row : Int) + 1) col &&
          isVerticalToken (tokenAtD grid (row + 1) col))
      if verticalNeighbor then .vertical
      else .single

/-- The `startCol` scan of `collectHorizontalVehicle`: step left while the
cell to the left exists and holds a horizontal token. -/
def scanLeft (grid : List (List (List Char))) (row : Nat) : Nat → Nat
  | 0 => 0
  | c + 1 =>
    if isInsideGrid grid row c ∧
        isHorizontalToken (tokenAtD grid row c) = true then
      scanLeft grid row c
    else c + 1

/-- The `endCol` scan of `collectHorizontalVehicle` (fuel-bounded by the
row length, past which the inside-grid guard always fails). -/
def scanRightAux (grid : List (List (List Char))) (row : Nat) :
    Nat → Nat → Nat
  | 0, c => c
  | fuel + 1, c =>
    if isInsideGrid grid row ((c : Int) + 1) ∧
        isHorizontalToken (tokenAtD grid row (c + 1)) = true then
      scanRightAux grid row fuel (c + 1)
    else c

def scanRight (grid : List (List (List Char))) (row col : Nat) : Nat :=
  scanRightAux grid row ((grid.get? row).getD []).length col

/-- The `startRow` scan of `collectVerticalVehicle`. -/
def scanUp (grid : List (List (List Char))) (col : Nat) : Nat → Nat
  | 0 => 0
  | r + 1 =>
    if isInsideGrid grid r col ∧
        isVerticalToken (tokenAtD grid r col) = true then
      scanUp grid col r
    else r + 1

/-- The `endRow` scan of `collectVerticalVehicle`. -/
def scanDownAux (grid : List (List (List Char))) (col : Nat) :
    Nat → Nat → Nat
  | 0, r => r
  | fuel + 1, r =>
    if isInsideGrid grid ((r : Int) + 1) col ∧
        isVerticalToken (tokenAtD grid (r + 1) col) = true then
      scanDownAux grid col fuel (r + 1)
    else r

def scanDown (grid : List (List (List Char))) (row col : Nat) : Nat :=
  scanDownAux grid col grid.length row

/-- `collectHorizontalVehicle`: the visited set extended with the
collected keys, and the cells from `startCol` to `endCol`. -/
def collectHorizontalVehicle (grid : List (List (List Char)))
    (visited : List String) (row col : Nat) : List String × List Cell :=
  let startCol := scanLeft grid row col
  let endCol := scanRight grid row col
  let cols := (List.range (endCol + 1 - startCol)).map (startCol + ·)
  (visited ++ cols.map fun c => keyFromPosition row c,
   cols.map fun c => ⟨row, c, tokenAtD grid row c⟩)

/-- `collectVerticalVehicle`. -/
def collectVerticalVehicle (grid : List (List (List Char)))
    (visited : List String) (row col : Nat) : List String × List Cell :=
  let startRow := scanUp grid col row
  let endRow := scanDown grid row col
  let rows := (List.range (endRow + 1 - startRow)).map (startRow + ·)
  (visited ++ rows.map fun r => keyFromPosition r col,
   rows.map fun r => ⟨r, col, tokenAtD grid r col⟩)

/-- `collectVehicle`. -/
def collectVehicle (grid : List (List (List Char))) (visited : List String)
    (row col : Nat) : Orientation × List String × List Cell :=
  match determineOrientation grid row col with
  | .horizontal =>
    let vc := collectHorizontalVehicle grid visited row col
    (.horizontal, vc.1, vc.2)
  | .vertical =>
    let vc := collectVerticalVehicle grid visited row col
    (.vertical, vc.1, vc.2)
  | .single =>
    (.single, visited ++ [keyFromPosition row col],
     [⟨row, col, tokenAtD grid row col⟩])

/-- `VEHICLE_COLORS` and `GOAL_COLOR`. -/
def vehicleColors : List String :=
  ["#1E88E5", "#43A047", "#FB8C00", "#8E24AA", "#00ACC1", "#F4511E",
   "#3949AB"]

def goalColor : String := "#D81B60"

/-- `assignVehicleColors` (the running `colorIndex` only advances past
non-goal vehicles). -/
def assignVehicleColorsAux : Nat → List RawVehicle → List ParsedVehicle
  | _, [] => []
  | colorIndex, v :: rest =>
    let isGoal := v.cells.any fun cell => cell.token == ['B']
    let color :=
      if isGoal then goalColor
      else (vehicleColors.get? (colorIndex % vehicleColors.length)).getD ""
    let name :=
      if isGoal then "Carro objetivo"
      else "Vehiculo " ++ toString (colorIndex + 1)
    ⟨v.orientation, v.cells, v.length, isGoal, color, name⟩ ::
      assignVehicleColorsAux (if isGoal then colorIndex else colorIndex + 1)
        rest

def assignVehicleColors (vehicles : List RawVehicle) : List ParsedVehicle :=
  assignVehicleColorsAux 0 vehicles

/-- One step of `buildVehicles`' row-major scan. -/
def buildVehiclesStep (grid : List (List (List Char)))
    (acc : List String × List RawVehicle) (rc : Nat × Nat) :
    List String × List RawVehicle :=
  let token := tokenAtD grid rc.1 rc.2
  if isEmptyToken token || acc.1.contains (keyFromPosition rc.1 rc.2) then
    acc
  else
    let ovc := collectVehicle grid acc.1 rc.1 rc.2
    if ovc.2.2.length > 0 then
      (ovc.2.1, acc.2 ++ [⟨ovc.1, ovc.2.2, ovc.2.2.length⟩])
    else (ovc.2.1, acc.2)

/-- `buildVehicles`: row-major scan of the grid seeding a vehicle at every
unvisited non-empty cell. -/
def buildVehicles (grid : List (List (List Char))) : List ParsedVehicle :=
  let coords := grid.enum.flatMap fun riv =>
    (List.range riv.2.length).map fun c => (riv.1, c)
  assignVehicleColors (coords.foldl (buildVehiclesStep grid) ([], [])).2

/-- The line preprocessing of `parsePuzzle`: split, trim ends, drop blank
lines. -/
def rawLines (text : List Char) : List (List Char) :=
  ((splitLines text).map trimEndChars).filter fun line => line.length > 0

/-- `parsePuzzle`. -/
def parsePuzzle (text : List Char) : Except ParseError ParsedBoard :=
  let lines := rawLines text
  if lines.isEmpty then .error .emptyPuzzle
  else
    match lines.findIdx? isExitLine with
    | none => .error .missingExit
    | some exitIndex =>
      let boardLines := lines.take exitIndex
      let exitLine := (lines.get? exitIndex).getD []
      if boardLines.isEmpty then .error .emptyBoard
      else
        let grid := createGrid boardLines
        match parseExit exitLine with
        | .error e => .error e
        | .ok exit =>
          .ok ⟨grid, grid.length, ((grid.head?).map List.length).getD 0,
            exit, buildVehicles grid⟩

/-- `Math.min` over the cells' rows (`Math.min` of an empty spread is
`Infinity`; `buildVehicles` never produces an empty cell list, so the
default is unreachable). -/
def cellsMinRow : List Cell → Nat
  | [] => 0
  | c :: rest => rest.foldl (fun m cell => min m cell.row) c.row

def cellsMinCol : List Cell → Nat
  | [] => 0
  | c :: rest => rest.foldl (fun m cell => min m cell.col) c.col

/-- The vehicle-labelling pass of `createContext` (the running counter
only advances past non-goal vehicles). -/
def createContextVehicles : Nat → List ParsedVehicle → List Vehicle
  | _, [] => []
  | counter, v :: rest =>
    let label :=
      if v.isGoal then "carro objetivo" else "carro " ++ toString counter
    ⟨v.orientation, v.length, v.isGoal, label,
      ⟨cellsMinRow v.cells, cellsMinCol v.cells⟩⟩ ::
      createContextVehicles (if v.isGoal then counter else counter + 1) rest

/-- `createContext` (shared by the three solver files): label the
vehicles, and fail when no goal vehicle exists. -/
def createContext (boardData : ParsedBoard) : Except String Context :=
  let vehicles := createContextVehicles 1 boardData.vehicles
  match vehicles.findIdx? (fun vehicle => vehicle.isGoal) with
  | none => .error "No se encontro el carro objetivo en el tablero."
  | some goalIndex =>
    .ok ⟨boardData.rows, boardData.columns, boardData.exit, vehicles,
      goalIndex⟩

/-! ## The four solver entry points together (claims C1, C2, C5) -/

/-- The solver entry points of the application (`solveWithBfs`,
`solveWithDfs`, `solveWithAStar`, `solveWithBacktracking`). -/
inductive Solver where
  | bfs
  | dfs
  | astar
  | backtracking
deriving DecidableEq, Repr

/-- Run a solver on a board; `maxDepth?` is only consulted by DFS (the
other entry points take no such option). -/
def runSolver : Solver → Context → (Nat → Bool) → Option Int → Nat →
    Option SolveResult
  | .bfs, ctx, sig, _, fuel => solveWithBfs ctx sig fuel
  | .dfs, ctx, sig, maxDepth?, fuel => solveWithDfs ctx sig maxDepth? fuel
  | .astar, ctx, sig, _, fuel => solveWithAStar ctx sig fuel
  | .backtracking, ctx, sig, _, fuel => solveWithBacktracking ctx sig fuel

/-- A 1×1 board whose single (goal) vehicle already sits on the exit:
the initial state passes the goal test. -/
def alreadySolvedCtx : Context :=
  ⟨1, 1, ⟨0, 0⟩, [⟨.single, 1, true, "carro objetivo", ⟨0, 0⟩⟩], 0⟩

/-- The result BFS returns on `alreadySolvedCtx` (the `none` branch is
unreachable: one fuel unit suffices). -/
def solvedRunResult : SolveResult :=
  match runSolver .bfs alreadySolvedCtx (fun _ => false) none 1 with
  | some r => r
  | none => ⟨.unsolved, [], [], [], ⟨0, 0, 0, 0⟩, []⟩

/--
C1: for every board and every solver (spec-modelled backtracking
included), a `solved` result's `stateHistory` is, position by position,
the replay of its `moves` from the initial state (`stateHistory[j]` is the
state after the first `j` moves), and the final history entry — the state
after all moves — satisfies the goal test.
-/
theorem solved_replay_matches_history (solver : Solver) (ctx : Context)
    (sig : Nat → Bool) (maxDepth? : Option Int) (fuel : Nat)
    (r : SolveResult) (h : runSolver solver ctx sig maxDepth? fuel = some r)
    (hst : r.status = .solved) :
    (∀ j, j ≤ r.moves.length →
      r.stateHistory.get? j =
        some (replayMoves (initialPositions ctx) (r.moves.take j))) ∧
    r.stateHistory.get? r.moves.length =
      some (replayMoves (initialPositions ctx) r.moves) ∧
    isGoalState ctx (replayMoves (initialPositions ctx) r.moves) = true := by
  have hs : isGoalState ctx (replayMoves (initialPositions ctx) r.moves) =
        true ∧
      r.stateHistory = buildStateHistory (initialPositions ctx) r.moves ∧
      r.metrics.depth = r.moves.length ∧
      (isGoalState ctx (initialPositions ctx) = false →
        1 ≤ r.moves.length) := by
    cases solver
    · exact solveWithBfs_solved_spec h hst
    · exact solveWithDfs_solved_spec h hst
    · exact solveWithAStar_solved_spec h hst
    · exact solveWithDfs_solved_spec h hst
  obtain ⟨hgoal, hhist, -, -⟩ := hs
  refine ⟨?_, ?_, hgoal⟩
  · intro j hj
    rw [hhist]
    exact buildStateHistory_get? _ _ j hj
  · rw [hhist]
    exact buildStateHistory_last _ _

/-- Witness for C1: the theorem applied to BFS on a concrete board. -/
theorem solved_replay_matches_history_witness :
    (∀ j, j ≤ solvedRunResult.moves.length →
      solvedRunResult.stateHistory.get? j =
        some (replayMoves (initialPositions alreadySolvedCtx)
          (solvedRunResult.moves.take j))) ∧
    solvedRunResult.stateHistory.get? solvedRunResult.moves.length =
      some (replayMoves (initialPositions alreadySolvedCtx)
        solvedRunResult.moves) ∧
    isGoalState alreadySolvedCtx
      (replayMoves (initialPositions alreadySolvedCtx)
        solvedRunResult.moves) = true :=
  solved_replay_matches_history .bfs alreadySolvedCtx (fun _ => false)
    none 1 solvedRunResult rfl rfl

/--
C2 (amended): for every board and every solver, a `solved` result has
`metrics.depth = moves.length` and `stateHistory.length = moves.length +
1`; but `moves.length ≥ 1` only holds when the initial state does not
already pass the goal test — on an already-solved board the solvers
return `solved` with `moves = []`.
-/
theorem solved_metrics_spec (solver : Solver) (ctx : Context)
    (sig : Nat → Bool) (maxDepth? : Option Int) (fuel : Nat)
    (r : SolveResult) (h : runSolver solver ctx sig maxDepth? fuel = some r)
    (hst : r.status = .solved) :
    r.metrics.depth = r.moves.length ∧
    r.stateHistory.length = r.moves.length + 1 ∧
    (isGoalState ctx (initialPositions ctx) = false →
      1 ≤ r.moves.length) := by
  have hs : isGoalState ctx (replayMoves (initialPositions ctx) r.moves) =
        true ∧
      r.stateHistory = buildStateHistory (initialPositions ctx) r.moves ∧
      r.metrics.depth = r.moves.length ∧
      (isGoalState ctx (initialPositions ctx) = false →
        1 ≤ r.moves.length) := by
    cases solver
    · exact solveWithBfs_solved_spec h hst
    · exact solveWithDfs_solved_spec h hst
    · exact solveWithAStar_solved_spec h hst
    · exact solveWithDfs_solved_spec h hst
  obtain ⟨-, hhist, hdep, hone⟩ := hs
  refine ⟨hdep, ?_, hone⟩
  rw [hhist]
  exact buildStateHistory_length _ _

/-- C2 counterexample: on the already-solved board, BFS returns a
`solved` result whose move list is empty, refuting `moves.length ≥ 1`. -/
theorem solved_with_zero_moves :
    runSolver .bfs alreadySolvedCtx (fun _ => false) none 1 =
      some solvedRunResult ∧
    solvedRunResult.status = .solved ∧ solvedRunResult.moves = [] :=
  ⟨rfl, rfl, rfl⟩

/-- Witness for C2: the amended theorem applied to BFS on the concrete
already-solved board. -/
theorem solved_metrics_spec_witness :
    solvedRunResult.metrics.depth = solvedRunResult.moves.length ∧
    solvedRunResult.stateHistory.length =
      solvedRunResult.moves.length + 1 ∧
    (isGoalState alreadySolvedCtx (initialPositions alreadySolvedCtx) =
        false → 1 ≤ solvedRunResult.moves.length) :=
  solved_metrics_spec .bfs alreadySolvedCtx (fun _ => false) none 1
    solvedRunResult rfl rfl

/--
C5: the cancellation token.  (1) A token already asserted when the solver
is invoked (true at poll 0) makes every solver return `aborted` with no
moves, a one-entry history holding only the initial state, and depth 0.
(2) Every `aborted` result of every solver has that same shape, whatever
partial progress the search had made.  (3)–(5) Each solver's loop polls
the token at the top of every expansion iteration and aborts on the spot
when it is asserted: the pending iteration returns the `aborted` outcome
immediately.
-/
theorem token_abort_spec :
    (∀ (solver : Solver) (ctx : Context) (sig : Nat → Bool)
        (maxDepth? : Option Int) (fuel : Nat), sig 0 = true → 1 ≤ fuel →
      ∃ r, runSolver solver ctx sig maxDepth? fuel = some r ∧
        r.status = .aborted ∧ r.moves = [] ∧
        r.stateHistory = [initialPositions ctx] ∧
        r.stateHistory.length = 1 ∧ r.metrics.depth = 0) ∧
    (∀ (solver : Solver) (ctx : Context) (sig : Nat → Bool)
        (maxDepth? : Option Int) (fuel : Nat) (r : SolveResult),
      runSolver solver ctx sig maxDepth? fuel = some r →
      r.status = .aborted →
      r.moves = [] ∧ r.stateHistory = [initialPositions ctx] ∧
        r.stateHistory.length = 1 ∧ r.metrics.depth = 0) ∧
    (∀ (ctx : Context) (sig : Nat → Bool) (bound : Option Nat) (fuel : Nat)
        (s : DfsState) (node : DfsNode), s.toVisit.getLast? = some node →
      sig s.nodesExplored = true →
      dfsLoop ctx sig bound (fuel + 1) s = some (.aborted s)) ∧
    (∀ (ctx : Context) (sig : Nat → Bool) (fuel : Nat) (s : BfsState),
      s.frontIndex < s.queue.length → sig s.frontIndex = true →
      bfsLoop ctx sig (fuel + 1) s = some (.aborted s)) ∧
    (∀ (ctx : Context) (sig : Nat → Bool) (fuel : Nat) (s : AStarState),
      s.openSet.isEmpty = false → sig s.polls = true →
      aStarLoop ctx sig (fuel + 1) s = some (.aborted s)) := by
  refine ⟨?_, ?_, ?_, ?_, ?_⟩
  · intro solver ctx sig maxDepth? fuel h0 hf
    cases solver
    · obtain ⟨r, hr, hst, hmv, hhist, hdep⟩ := solveWithBfs_sig0 h0 hf
      exact ⟨r, hr, hst, hmv, hhist, by rw [hhist]; rfl, hdep⟩
    · obtain ⟨r, hr, hst, hmv, hhist, hdep⟩ := solveWithDfs_sig0 h0 hf
      exact ⟨r, hr, hst, hmv, hhist, by rw [hhist]; rfl, hdep⟩
    · obtain ⟨r, hr, hst, hmv, hhist, hdep⟩ := solveWithAStar_sig0 h0 hf
      exact ⟨r, hr, hst, hmv, hhist, by rw [hhist]; rfl, hdep⟩
    · obtain ⟨r, hr, hst, hmv, hhist, hdep⟩ := solveWithDfs_sig0 h0 hf
      exact ⟨r, hr, hst, hmv, hhist, by rw [hhist]; rfl, hdep⟩
  · intro solver ctx sig maxDepth? fuel r h hst
    have hs : r.moves = [] ∧ r.stateHistory = [initialPositions ctx] ∧
        r.metrics.depth = 0 := by
      cases solver
      · exact solveWithBfs_aborted_spec h hst
      · exact solveWithDfs_aborted_spec h hst
      · exact solveWithAStar_aborted_spec h hst
      · exact solveWithDfs_aborted_spec h hst
    obtain ⟨hmv, hhist, hdep⟩ := hs
    exact ⟨hmv, hhist, by rw [hhist]; rfl, hdep⟩
  · intro ctx sig bound fuel s node hlast hsig
    rw [dfsLoop, hlast]
    dsimp only
    rw [if_pos hsig]
  · intro ctx sig fuel s hfr hsig
    rw [bfsLoop, dif_pos hfr, if_pos hsig]
  · intro ctx sig fuel s hopen hsig
    rw [aStarLoop]
    rw [if_neg (by rw [hopen]; exact Bool.false_ne_true), if_pos hsig]

/-- Witness for C5: the invocation-time clause applied to BFS with an
always-asserted token on a concrete board. -/
theorem token_abort_spec_witness :
    ∃ r, runSolver .bfs alreadySolvedCtx (fun _ => true) none 1 = some r ∧
      r.status = .aborted ∧ r.moves = [] ∧
      r.stateHistory = [initialPositions alreadySolvedCtx] ∧
      r.stateHistory.length = 1 ∧ r.metrics.depth = 0 :=
  token_abort_spec.1 .bfs alreadySolvedCtx (fun _ => true) none 1 rfl
    (by decide)

/-! ## Parser facts (claims C6 and C7) -/

theorem except_isOk_iff {ε α : Type} (e : Except ε α) :
    e.isOk = true ↔ ∃ a, e = .ok a := by
  cases e <;> simp [Except.isOk, Except.toBool]

theorem findIdx?_eq_none_of_all {α : Type} (p : α → Bool) (l : List α)
    (h : ∀ x ∈ l, p x = false) : l.findIdx? p = none := by
  induction l with
  | nil => simp
  | cons a xs ih =>
    simp [List.findIdx?_cons, h a (List.mem_cons_self a xs),
      ih fun x hx => h x (List.mem_cons_of_mem a hx)]

theorem collectHorizontalVehicle_cells
    (grid : List (List (List Char))) (visited : List String) (row col : Nat) :
    ∀ cell ∈ (collectHorizontalVehicle grid visited row col).2,
      cell.token = tokenAtD grid cell.row cell.col := by
  intro cell hc
  unfold collectHorizontalVehicle at hc
  dsimp only at hc
  simp only [List.mem_map] at hc
  obtain ⟨c, _, rfl⟩ := hc
  rfl

theorem collectVerticalVehicle_cells
    (grid : List (List (List Char))) (visited : List String) (row col : Nat) :
    ∀ cell ∈ (collectVerticalVehicle grid visited row col).2,
      cell.token = tokenAtD grid cell.row cell.col := by
  intro cell hc
  unfold collectVerticalVehicle at hc
  dsimp only at hc
  simp only [List.mem_map] at hc
  obtain ⟨r, _, rfl⟩ := hc
  rfl

theorem collectVehicle_cells
    (grid : List (List (List Char))) (visited : List String) (row col : Nat) :
    ∀ cell ∈ (collectVehicle grid visited row col).2.2,
      cell.token = tokenAtD grid cell.row cell.col := by
  intro cell hc
  unfold collectVehicle at hc
  cases hdet : determineOrientation grid row col with
  | horizontal =>
    rw [hdet] at hc
    dsimp only at hc
    exact collectHorizontalVehicle_cells grid visited row col cell hc
  | vertical =>
    rw [hdet] at hc
    dsimp only at hc
    exact collectVerticalVehicle_cells grid visited row col cell hc
  | single =>
    rw [hdet] at hc
    dsimp only at hc
    rcases List.mem_singleton.mp hc with rfl
    rfl

theorem buildVehiclesFold_cells (grid : List (List (List Char)))
    (coords : List (Nat × Nat)) (acc : List String × List RawVehicle)
    (hacc : ∀ v ∈ acc.2, ∀ cell ∈ v.cells,
      cell.token = tokenAtD grid cell.row cell.col) :
    ∀ v ∈ (coords.foldl (buildVehiclesStep grid) acc).2, ∀ cell ∈ v.cells,
      cell.token = tokenAtD grid cell.row cell.col := by
  induction coords generalizing acc with
  | nil => exact hacc
  | cons rc rest ih =>
    rw [List.foldl_cons]
    apply ih
    intro v hv cell hc
    unfold buildVehiclesStep at hv
    dsimp only at hv
    split at hv
    · exact hacc v hv cell hc
    · split at hv
      · rcases List.mem_append.mp hv with hmem | hmem
        · exact hacc v hmem cell hc
        · rcases List.mem_singleton.mp hmem with rfl
          exact collectVehicle_cells grid acc.1 rc.1 rc.2 cell hc
      · exact hacc v hv cell hc

theorem mem_assignVehicleColorsAux (vs : List RawVehicle) :
    ∀ n w, w ∈ assignVehicleColorsAux n vs →
      ∃ v ∈ vs, w.cells = v.cells ∧
        w.isGoal = v.cells.any fun cell => cell.token == ['B'] := by
  induction vs with
  | nil => intro n w hw; simp [assignVehicleColorsAux] at hw
  | cons v rest ih =>
    intro n w hw
    simp only [assignVehicleColorsAux] at hw
    rcases List.mem_cons.mp hw with rfl | hw'
    · exact ⟨v, List.mem_cons_self v rest, rfl, rfl⟩
    · obtain ⟨v', hv', h1, h2⟩ := ih _ w hw'
      exact ⟨v', List.mem_cons_of_mem v hv', h1, h2⟩

theorem createContextVehicles_no_goal (vs : List ParsedVehicle)
    (h : ∀ v ∈ vs, v.isGoal = false) :
    ∀ n, ∀ w ∈ createContextVehicles n vs, w.isGoal = false := by
  induction vs with
  | nil => intro n w hw; simp [createContextVehicles] at hw
  | cons v rest ih =>
    intro n w hw
    simp only [createContextVehicles] at hw
    rcases List.mem_cons.mp hw with rfl | hw'
    · exact h v (List.mem_cons_self v rest)
    · exact ih (fun v' hv' => h v' (List.mem_cons_of_mem v hv')) _ w hw'

theorem parsePuzzle_ok_vehicles (text : List Char) (b : ParsedBoard)
    (h : parsePuzzle text = .ok b) : b.vehicles = buildVehicles b.grid := by
  unfold parsePuzzle at h
  dsimp only at h
  split at h
  · exact Except.noConfusion h
  · split at h
    · exact Except.noConfusion h
    · split at h
      · exact Except.noConfusion h
      · split at h
        · exact Except.noConfusion h
        · cases h
          rfl

/-- C6 (amended): the parser accepts a board with no `B` token, and the
missing goal vehicle is only detected afterwards, by the solvers'
`createContext`, which then fails. -/
theorem parsePuzzle_no_goal_detected_by_solver (text : List Char)
    (b : ParsedBoard) (hok : parsePuzzle text = .ok b)
    (hnoB : ∀ row ∈ b.grid, ∀ t ∈ row, t ≠ ['B']) :
    createContext b =
      .error "No se encontro el carro objetivo en el tablero." := by
  have hveh : b.vehicles = buildVehicles b.grid :=
    parsePuzzle_ok_vehicles text b hok
  have hnoGoal : ∀ v ∈ b.vehicles, v.isGoal = false := by
    intro v hv
    rw [hveh] at hv
    unfold buildVehicles at hv
    dsimp only at hv
    obtain ⟨rv, hrv, _, hgoal⟩ := mem_assignVehicleColorsAux _ 0 v hv
    rw [hgoal]
    rw [List.any_eq_false]
    intro cell hcell
    have htok : cell.token = tokenAtD b.grid cell.row cell.col :=
      buildVehiclesFold_cells b.grid _ ([], [])
        (fun v' hv' => absurd hv' (List.not_mem_nil v')) rv hrv cell hcell
    rw [htok]
    unfold tokenAtD
    cases hg : gridToken? b.grid cell.row cell.col with
    | none => decide
    | some t =>
      have hne : t ≠ ['B'] := by
        unfold gridToken? at hg
        cases hr : b.grid.get? cell.row with
        | none => rw [hr] at hg; simp at hg
        | some rowl =>
          rw [hr] at hg
          dsimp only [Option.bind] at hg
          exact hnoB rowl (List.get?_mem hr) t (List.get?_mem hg)
      simp only [Option.getD]
      exact fun hbeq => hne (by simpa using hbeq)
  unfold createContext
  dsimp only
  have hnone : (createContextVehicles 1 b.vehicles).findIdx?
      (fun vehicle => vehicle.isGoal) = none := by
    apply findIdx?_eq_none_of_all
    intro w hw
    exact createContextVehicles_no_goal b.vehicles hnoGoal 1 w hw
  rw [hnone]

/-- The board value the parser returns on `". -\nSalida: 0,0"`, whose grid
holds no `B` token. -/
def noGoalBoard : ParsedBoard :=
  ⟨[[['.'], ['-']]], 1, 2, ⟨0, 0⟩,
   [⟨.horizontal, [⟨0, 1, ['-']⟩], 1, false, "#1E88E5", "Vehiculo 1"⟩]⟩

/-- C6 counterexample: a puzzle text with no `B` token anywhere in the
board portion on which `parsePuzzle` nevertheless returns a board value
(no parse error). -/
theorem parsePuzzle_accepts_missing_goal :
    parsePuzzle (". -\nSalida: 0,0").toList = .ok noGoalBoard ∧
    ∀ row ∈ noGoalBoard.grid, ∀ t ∈ row, t ≠ ['B'] :=
  ⟨rfl, by decide⟩

/-- Witness for C6: the amended theorem applied to the concrete goalless
board accepted by the parser. -/
theorem parsePuzzle_no_goal_witness :
    createContext noGoalBoard =
      .error "No se encontro el carro objetivo en el tablero." :=
  parsePuzzle_no_goal_detected_by_solver (". -\nSalida: 0,0").toList
    noGoalBoard rfl (by decide)

/-- C7 (amended): `parsePuzzle` succeeds exactly when the preprocessed
lines contain a `Salida` line that is not the first line and whose
coordinates parse; no condition relates the rows' token counts. -/
theorem parsePuzzle_success_iff (text : List Char) :
    (parsePuzzle text).isOk = true ↔
      ∃ i, (rawLines text).findIdx? isExitLine = some i ∧ 0 < i ∧
        (parseExit (((rawLines text).get? i).getD [])).isOk = true := by
  constructor
  · intro h
    unfold parsePuzzle at h
    dsimp only at h
    by_cases hL : (rawLines text).isEmpty = true
    · rw [if_pos hL] at h; simp [Except.isOk, Except.toBool] at h
    · rw [if_neg hL] at h
      cases hfind : (rawLines text).findIdx? isExitLine with
      | none => rw [hfind] at h; simp [Except.isOk, Except.toBool] at h
      | some i =>
        rw [hfind] at h
        dsimp only at h
        by_cases hb : ((rawLines text).take i).isEmpty = true
        · rw [if_pos hb] at h; simp [Except.isOk, Except.toBool] at h
        · rw [if_neg hb] at h
          cases hpe : parseExit (((rawLines text).get? i).getD []) with
          | error e => rw [hpe] at h; simp [Except.isOk, Except.toBool] at h
          | ok p =>
            refine ⟨i, rfl, ?_, by rw [hpe]; rfl⟩
            by_contra hi
            have hzero : i = 0 := by omega
            subst hzero
            exact hb (by simp)
  · rintro ⟨i, hfind, hi, hpe⟩
    have hne : rawLines text ≠ [] := by
      intro he
      rw [he] at hfind
      simp at hfind
    unfold parsePuzzle
    dsimp only
    rw [if_neg (by simpa [List.isEmpty_iff] using hne)]
    rw [hfind]
    dsimp only
    have hb : ¬ ((rawLines text).take i).isEmpty = true := by
      intro hbe
      rcases List.take_eq_nil_iff.mp (List.isEmpty_iff.mp hbe) with h0 | h0
      · omega
      · exact hne h0
    rw [if_neg hb]
    obtain ⟨p, hp⟩ := (except_isOk_iff _).mp hpe
    rw [hp]
    rfl

/-- The ragged puzzle text `". .\n.\nSalida: 0,0"` (rows of 2 and 1
tokens) and the board value the parser returns on it. -/
def raggedInput : List Char := (". .\n.\nSalida: 0,0").toList

def raggedBoard : ParsedBoard :=
  ⟨[[['.'], ['.']], [['.']]], 2, 2, ⟨0, 0⟩, []⟩

/-- C7 counterexample: a puzzle text whose board rows tokenize to
differing column counts (2 and 1) on which `parsePuzzle` nevertheless
returns a board value. -/
theorem parsePuzzle_accepts_ragged_rows :
    parsePuzzle raggedInput = .ok raggedBoard ∧
    raggedBoard.grid.map List.length = [2, 1] :=
  ⟨rfl, by decide⟩

/-- Witness for C7: the success characterization instantiated on the
ragged input, showing it parses. -/
theorem parsePuzzle_success_iff_witness :
    (parsePuzzle raggedInput).isOk = true :=
  (parsePuzzle_success_iff raggedInput).mpr ⟨2, by decide, by decide, rfl⟩

/-! ## Injectivity of `stateKey` (towards claim C3)

`stateKey` joins per-vehicle tokens `"r,c"` with `"|"`.  The decimal
representations used in the tokens contain neither separator, so the key
determines the position list. -/

/-- The numeric value of a decimal digit character. -/
def digitVal (c : Char) : Nat := c.toNat - '0'.toNat

theorem digitChar_val : ∀ d, d < 10 → digitVal (Nat.digitChar d) = d ∧
    Nat.digitChar d ≠ ',' ∧ Nat.digitChar d ≠ '|' ∧
    Nat.digitChar d ≠ '-' := by decide

/-- Read a digit string back into a number, starting from `a`. -/
def evalDigitsFrom (a : Nat) (l : List Char) : Nat :=
  l.foldl (fun acc c => acc * 10 + digitVal c) a

theorem evalDigitsFrom_append (a : Nat) (l1 l2 : List Char) :
    evalDigitsFrom a (l1 ++ l2) = evalDigitsFrom (evalDigitsFrom a l1) l2 :=
  List.foldl_append _ _ _ _

theorem toDigitsCore_spec : ∀ (fuel n : Nat) (ds : List Char), n < fuel →
    ∃ pre, Nat.toDigitsCore 10 fuel n ds = pre ++ ds ∧ pre ≠ [] ∧
      (∀ c ∈ pre, ∃ d, d < 10 ∧ c = Nat.digitChar d) ∧
      ∀ a, evalDigitsFrom a pre = a * 10 ^ pre.length + n := by
  intro fuel
  induction fuel with
  | zero => intro n ds h; omega
  | succ f ih =>
    intro n ds h
    rw [Nat.toDigitsCore]
    by_cases h0 : n / 10 = 0
    · rw [if_pos h0]
      refine ⟨[Nat.digitChar (n % 10)], rfl, by simp, ?_, ?_⟩
      · intro c hc
        rcases List.mem_singleton.mp hc with rfl
        exact ⟨n % 10, Nat.mod_lt _ (by omega), rfl⟩
      · intro a
        have hd := (digitChar_val (n % 10) (Nat.mod_lt _ (by omega))).1
        simp only [evalDigitsFrom, List.foldl_cons, List.foldl_nil, hd,
          List.length_singleton, pow_one]
        omega
    · rw [if_neg h0]
      have hlt : n / 10 < f := by omega
      obtain ⟨pre, heq, hne, hdig, heval⟩ :=
        ih (n / 10) (Nat.digitChar (n % 10) :: ds) hlt
      refine ⟨pre ++ [Nat.digitChar (n % 10)], ?_, by simp, ?_, ?_⟩
      · rw [heq]; simp
      · intro c hc
        rcases List.mem_append.mp hc with hc | hc
        · exact hdig c hc
        · rcases List.mem_singleton.mp hc with rfl
          exact ⟨n % 10, Nat.mod_lt _ (by omega), rfl⟩
      · intro a
        rw [evalDigitsFrom_append, heval a]
        have hd := (digitChar_val (n % 10) (Nat.mod_lt _ (by omega))).1
        simp only [evalDigitsFrom, List.foldl_cons, List.foldl_nil, hd,
          List.length_append, List.length_singleton]
        have hdm : n / 10 * 10 + n % 10 = n := by omega
        have hpow : 10 ^ (pre.length + 1) = 10 ^ pre.length * 10 :=
          pow_succ 10 pre.length
        rw [hpow]
        nlinarith [hdm]

theorem toDigits_spec (n : Nat) :
    Nat.toDigits 10 n ≠ [] ∧
    (∀ c ∈ Nat.toDigits 10 n, ∃ d, d < 10 ∧ c = Nat.digitChar d) ∧
    evalDigitsFrom 0 (Nat.toDigits 10 n) = n := by
  obtain ⟨pre, heq, hne, hdig, heval⟩ :=
    toDigitsCore_spec (n + 1) n [] (by omega)
  have h : Nat.toDigits 10 n = pre := by
    rw [show Nat.toDigits 10 n = Nat.toDigitsCore 10 (n + 1) n [] from rfl,
      heq, List.append_nil]
  rw [h]
  exact ⟨hne, hdig, by rw [heval 0]; omega⟩

theorem string_data_inj {s t : String} (h : s.data = t.data) : s = t := by
  cases s; cases t; cases h; rfl

theorem natRepr_inj {m n : Nat} (h : Nat.repr m = Nat.repr n) : m = n := by
  have hd : Nat.toDigits 10 m = Nat.toDigits 10 n :=
    congrArg String.data h
  have hm := (toDigits_spec m).2.2
  have hn := (toDigits_spec n).2.2
  rw [← hm, ← hn, hd]

theorem natRepr_data_chars (n : Nat) :
    ∀ c ∈ (Nat.repr n).data, c ≠ ',' ∧ c ≠ '|' ∧ c ≠ '-' := by
  intro c hc
  obtain ⟨d, hd, rfl⟩ := (toDigits_spec n).2.1 c hc
  obtain ⟨-, h1, h2, h3⟩ := digitChar_val d hd
  exact ⟨h1, h2, h3⟩

theorem natRepr_data_ne_nil (n : Nat) : (Nat.repr n).data ≠ [] :=
  (toDigits_spec n).1

theorem intRepr_data_chars (i : Int) :
    ∀ c ∈ (Int.repr i).data, c ≠ ',' ∧ c ≠ '|' := by
  intro c hc
  cases i with
  | ofNat m =>
    obtain ⟨h1, h2, -⟩ := natRepr_data_chars m c hc
    exact ⟨h1, h2⟩
  | negSucc m =>
    rw [show Int.repr (Int.negSucc m) = "-" ++ Nat.repr (m + 1) from rfl,
      String.data_append] at hc
    rcases List.mem_cons.mp hc with rfl | hc
    · exact ⟨by decide, by decide⟩
    · obtain ⟨h1, h2, -⟩ := natRepr_data_chars (m + 1) c hc
      exact ⟨h1, h2⟩

theorem intRepr_inj {i j : Int} (h : Int.repr i = Int.repr j) : i = j := by
  have hd : (Int.repr i).data = (Int.repr j).data := congrArg String.data h
  cases i with
  | ofNat m =>
    cases j with
    | ofNat n => exact congrArg Int.ofNat (natRepr_inj h)
    | negSucc n =>
      exfalso
      rw [show Int.repr (Int.negSucc n) = "-" ++ Nat.repr (n + 1) from rfl,
        String.data_append,
        show ("-" : String).data = ['-'] from by decide] at hd
      have hd' : (Nat.repr m).data = '-' :: (Nat.repr (n + 1)).data := hd
      rcases he : (Nat.repr m).data with _ | ⟨c, cs⟩
      · exact natRepr_data_ne_nil m he
      · rw [he] at hd'
        injection hd' with hc htl
        have hmem : '-' ∈ (Nat.repr m).data := by
          rw [he, hc]
          exact List.mem_cons_self _ _
        exact (natRepr_data_chars m '-' hmem).2.2 rfl
  | negSucc m =>
    cases j with
    | ofNat n =>
      exfalso
      rw [show Int.repr (Int.negSucc m) = "-" ++ Nat.repr (m + 1) from rfl,
        String.data_append,
        show ("-" : String).data = ['-'] from by decide] at hd
      have hd' : '-' :: (Nat.repr (m + 1)).data = (Nat.repr n).data := hd
      rcases he : (Nat.repr n).data with _ | ⟨c, cs⟩
      · exact natRepr_data_ne_nil n he
      · rw [he] at hd'
        injection hd' with hc htl
        have hmem : '-' ∈ (Nat.repr n).data := by
          rw [he, ← hc]
          exact List.mem_cons_self _ _
        exact (natRepr_data_chars n '-' hmem).2.2 rfl
    | negSucc n =>
      rw [show Int.repr (Int.negSucc m) = "-" ++ Nat.repr (m + 1) from rfl,
        show Int.repr (Int.negSucc n) = "-" ++ Nat.repr (n + 1) from rfl]
        at h
      have hrr : Nat.repr (m + 1) = Nat.repr (n + 1) := by
        apply string_data_inj
        have hda := congrArg String.data h
        rw [String.data_append, String.data_append] at hda
        simpa using hda
      have hmn : m = n := by
        have := natRepr_inj hrr
        omega
      rw [hmn]

/-- The `"r,c"` token of one position, at character level. -/
def posToken (p : Position) : List Char :=
  (toString p.row).data ++ ',' :: (toString p.col).data

theorem posToken_no_bar (p : Position) : '|' ∉ posToken p := by
  intro hmem
  rcases List.mem_append.mp hmem with h | h
  · exact (intRepr_data_chars p.row '|' h).2 rfl
  · rcases List.mem_cons.mp h with h | h
    · cases h
    · exact (intRepr_data_chars p.col '|' h).2 rfl

theorem posToken_ne_nil (p : Position) : posToken p ≠ [] := by
  intro h
  exact absurd h (by simp [posToken])

/-- Splitting at the first occurrence of a separator is unambiguous when
neither prefix contains it. -/
theorem sep_split {c : Char} : ∀ (t1 t2 r1 r2 : List Char), c ∉ t1 →
    c ∉ t2 → t1 ++ c :: r1 = t2 ++ c :: r2 → t1 = t2 ∧ r1 = r2 := by
  intro t1
  induction t1 with
  | nil =>
    intro t2 r1 r2 h1 h2 he
    cases t2 with
    | nil => simpa using he
    | cons b bs =>
      exfalso
      simp only [List.nil_append, List.cons_append, List.cons.injEq] at he
      exact h2 (he.1 ▸ List.mem_cons_self b bs)
  | cons a as ih =>
    intro t2 r1 r2 h1 h2 he
    cases t2 with
    | nil =>
      exfalso
      simp only [List.nil_append, List.cons_append, List.cons.injEq] at he
      exact h1 (he.1 ▸ List.mem_cons_self a as)
    | cons b bs =>
      simp only [List.cons_append, List.cons.injEq] at he
      obtain ⟨rfl, he2⟩ := he
      obtain ⟨rfl, hr⟩ := ih bs r1 r2
        (fun hx => h1 (List.mem_cons_of_mem _ hx))
        (fun hx => h2 (List.mem_cons_of_mem _ hx)) he2
      exact ⟨rfl, hr⟩

theorem posToken_inj {p q : Position} (h : posToken p = posToken q) :
    p = q := by
  unfold posToken at h
  have hrow : ',' ∉ (toString p.row).data := fun hm =>
    (intRepr_data_chars p.row ',' hm).1 rfl
  have hrow' : ',' ∉ (toString q.row).data := fun hm =>
    (intRepr_data_chars q.row ',' hm).1 rfl
  obtain ⟨h1, h2⟩ := sep_split _ _ _ _ hrow hrow' h
  have hr : p.row = q.row := intRepr_inj (string_data_inj h1)
  have hc : p.col = q.col := intRepr_inj (string_data_inj h2)
  cases p; cases q
  simp_all

/-- The character-level joiner underlying `String.intercalate "|"`. -/
def joinKey : List (List Char) → List Char
  | [] => []
  | t :: ts => t ++ ts.flatMap fun u => '|' :: u

theorem intercalate_go_data (s : String) : ∀ (as : List String)
    (acc : String), (String.intercalate.go acc s as).data =
      acc.data ++ as.flatMap fun a => s.data ++ a.data := by
  intro as
  induction as with
  | nil => intro acc; rw [String.intercalate.go]; simp
  | cons a as ih =>
    intro acc
    rw [String.intercalate.go, ih]
    simp [String.data_append]

theorem flatMap_bar_data (as : List String) :
    (as.flatMap fun a => ("|" : String).data ++ a.data) =
      (as.map String.data).flatMap fun u => '|' :: u := by
  induction as with
  | nil => rfl
  | cons a as ih =>
    have hbar : ("|" : String).data = ['|'] := by decide
    rw [List.flatMap_cons, List.map_cons, List.flatMap_cons, ih, hbar]
    rfl

theorem intercalate_bar_data (l : List String) :
    (String.intercalate "|" l).data = joinKey (l.map String.data) := by
  cases l with
  | nil => rfl
  | cons a as =>
    rw [show String.intercalate "|" (a :: as) =
      String.intercalate.go a "|" as from rfl]
    rw [intercalate_go_data, flatMap_bar_data]
    rfl

theorem joinKey_eq_intercalate : ∀ ts : List (List Char),
    joinKey ts = List.intercalate ['|'] ts := by
  intro ts
  cases ts with
  | nil => rfl
  | cons t ts =>
    unfold joinKey
    rw [List.intercalate]
    induction ts generalizing t with
    | nil => simp [List.intersperse]
    | cons u us ih =>
      rw [show List.intersperse ['|'] (t :: u :: us) =
        t :: ['|'] :: List.intersperse ['|'] (u :: us) from rfl]
      rw [List.flatten_cons, List.flatten_cons]
      rw [← ih u]
      simp [List.flatMap_cons]

theorem joinKey_inj (l1 l2 : List (List Char))
    (h1 : ∀ t ∈ l1, '|' ∉ t ∧ t ≠ []) (h2 : ∀ t ∈ l2, '|' ∉ t ∧ t ≠ [])
    (he : joinKey l1 = joinKey l2) : l1 = l2 := by
  rcases l1 with _ | ⟨t, ts⟩
  · rcases l2 with _ | ⟨u, us⟩
    · rfl
    · exfalso
      unfold joinKey at he
      rcases hu : u with _ | ⟨c, cs⟩
      · exact (h2 u (List.mem_cons_self u us)).2 hu
      · rw [hu] at he
        simp at he
  · rcases l2 with _ | ⟨u, us⟩
    · exfalso
      unfold joinKey at he
      rcases ht : t with _ | ⟨c, cs⟩
      · exact (h1 t (List.mem_cons_self t ts)).2 ht
      · rw [ht] at he
        simp at he
    · have hkey : List.intercalate ['|'] (t :: ts) =
          List.intercalate ['|'] (u :: us) := by
        rw [← joinKey_eq_intercalate, ← joinKey_eq_intercalate]
        exact he
      have hs1 : (['|'].intercalate (t :: ts)).splitOn '|' = t :: ts :=
        List.splitOn_intercalate (t :: ts) '|' (fun l hl => (h1 l hl).1) (by simp)
      have hs2 : (['|'].intercalate (u :: us)).splitOn '|' = u :: us :=
        List.splitOn_intercalate (u :: us) '|' (fun l hl => (h2 l hl).1) (by simp)
      have hsp : (['|'].intercalate (t :: ts)).splitOn '|' =
          (['|'].intercalate (u :: us)).splitOn '|' := by rw [hkey]
      rw [hs1, hs2] at hsp
      exact hsp

theorem stateKey_data (positions : List Position) :
    (stateKey positions).data = joinKey (positions.map posToken) := by
  unfold stateKey
  rw [intercalate_bar_data]
  congr 1
  rw [List.map_map]
  apply List.map_congr_left
  intro p _
  show (toString p.row ++ "," ++ toString p.col).data = posToken p
  rw [String.data_append, String.data_append, List.append_assoc]
  rfl

theorem stateKey_inj {ps qs : List Position}
    (h : stateKey ps = stateKey qs) : ps = qs := by
  have hd := congrArg String.data h
  rw [stateKey_data, stateKey_data] at hd
  have hmaps : ps.map posToken = qs.map posToken := by
    apply joinKey_inj _ _ ?_ ?_ hd
    · intro t ht
      obtain ⟨p, -, rfl⟩ := List.mem_map.mp ht
      exact ⟨posToken_no_bar p, posToken_ne_nil p⟩
    · intro t ht
      obtain ⟨p, -, rfl⟩ := List.mem_map.mp ht
      exact ⟨posToken_no_bar p, posToken_ne_nil p⟩
  have hlen : ps.length = qs.length := by
    have := congrArg List.length hmaps
    simpa using this
  apply List.ext_get hlen
  intro i h1 h2
  have := congrArg (fun l => l.get? i) hmaps
  simp only [List.get?_map] at this
  rw [List.get?_eq_get h1, List.get?_eq_get h2] at this
  simp only [Option.map_some'] at this
  exact posToken_inj (Option.some.inj this)

/-! ## BFS optimality (claim C3) -/

theorem validMoveSeq_get (ctx : Context) :
    ∀ (ms : List Move) (start : List Position),
      validMoveSeq ctx start ms = true → ∀ j m, ms.get? j = some m →
      m ∈ generateMoves ctx (replayMoves start (ms.take j)) := by
  intro ms
  induction ms with
  | nil => intro start _ j m hm; cases hm
  | cons m0 rest ih =>
    intro start h j m hm
    rw [validMoveSeq] at h
    rw [Bool.and_eq_true] at h
    rcases j with _ | j
    · rcases Option.some.inj hm with rfl
      have hc := h.1
      rw [List.contains, List.elem_eq_mem, decide_eq_true_iff] at hc
      simpa using hc
    · simp only [List.take_succ_cons]
      exact ih (applyMove start m0) h.2 j m hm

theorem replay_take_succ (start : List Position) (ms : List Move) (j : Nat)
    (m : Move) (h : ms.get? j = some m) :
    replayMoves start (ms.take (j + 1)) =
      applyMove (replayMoves start (ms.take j)) m := by
  have hg : ms[j]? = some m := by
    rw [← List.get?_eq_getElem?]
    exact h
  have ht : ms.take (j + 1) = ms.take j ++ [m] := by
    rw [List.take_succ, hg]
    rfl
  rw [ht, replayMoves_append]

theorem get?_ext_length {α : Type} {A B : List α}
    (h : ∀ j x, A.get? j = some x → B.get? j = some x) :
    A.length ≤ B.length := by
  by_contra hlt
  push_neg at hlt
  obtain ⟨x, hx⟩ : ∃ x, A.get? B.length = some x := by
    rw [List.get?_eq_get (by omega)]
    exact ⟨_, rfl⟩
  have := (List.get?_eq_some.mp (h _ _ hx)).1
  omega

theorem bfsPushStep_cases (fi : Nat) (node : BfsNode) (st : BfsState)
    (m : Move) :
    (st.visited.contains (stateKey (applyMove node.positions m)) = true ∧
      bfsPushStep fi node st m = st) ∨
    (st.visited.contains (stateKey (applyMove node.positions m)) = false ∧
      bfsPushStep fi node st m =
        { st with
          visited := stateKey (applyMove node.positions m) :: st.visited,
          queue := st.queue ++ [⟨applyMove node.positions m, Int.ofNat fi,
            some m, node.depth + 1⟩] }) := by
  unfold bfsPushStep
  dsimp only
  by_cases hk :
      st.visited.contains (stateKey (applyMove node.positions m)) = true
  · rw [if_pos hk]
    exact Or.inl ⟨hk, rfl⟩
  · rw [if_neg hk]
    exact Or.inr ⟨by simpa using hk, rfl⟩

/-- The full effect of one BFS expansion's successor loop on a queue
satisfying the search invariants: the queue is conservatively extended,
every enqueued node is a child of the expanded node, and every generated
move ends up represented in the queue (either freshly pushed or already
present, by key lookup and key injectivity, at no greater depth). -/
theorem bfsEnqueue_inv {ctx : Context} {init : List Position}
    (hsu : singlesUnit ctx = true) (fi : Nat) (node : BfsNode) :
    ∀ (moves : List Move) (st : BfsState),
      (∀ m ∈ moves, m ∈ generateMoves ctx node.positions) →
      bfsQueueOk init st.queue →
      st.visited = (st.queue.map fun n => stateKey n.positions).reverse →
      st.visited.Nodup →
      st.queue.get? fi = some node →
      (∀ j nj, st.queue.get? j = some nj → nj.depth ≤ node.depth + 1) →
      (∀ j nj, st.queue.get? j = some nj →
        wfState ctx nj.positions = true) →
      bfsQueueOk init (moves.foldl (bfsPushStep fi node) st).queue ∧
      (moves.foldl (bfsPushStep fi node) st).visited =
        ((moves.foldl (bfsPushStep fi node) st).queue.map fun n =>
          stateKey n.positions).reverse ∧
      (moves.foldl (bfsPushStep fi node) st).visited.Nodup ∧
      (∀ j nj, st.queue.get? j = some nj →
        (moves.foldl (bfsPushStep fi node) st).queue.get? j = some nj) ∧
      (∀ j nj,
        (moves.foldl (bfsPushStep fi node) st).queue.get? j = some nj →
        st.queue.get? j = some nj ∨ (st.queue.length ≤ j ∧ ∃ m, m ∈ moves ∧
          nj = ⟨applyMove node.positions m, Int.ofNat fi, some m,
            node.depth + 1⟩)) ∧
      (∀ m ∈ moves, ∃ j nj,
        (moves.foldl (bfsPushStep fi node) st).queue.get? j = some nj ∧
        nj.positions = applyMove node.positions m ∧
        nj.depth ≤ node.depth + 1) ∧
      (∀ j nj,
        (moves.foldl (bfsPushStep fi node) st).queue.get? j = some nj →
        nj.depth ≤ node.depth + 1) ∧
      (∀ j nj,
        (moves.foldl (bfsPushStep fi node) st).queue.get? j = some nj →
        wfState ctx nj.positions = true) ∧
      (moves.foldl (bfsPushStep fi node) st).frontIndex = st.frontIndex := by
  intro moves
  induction moves with
  | nil =>
    intro st _ hq hvis hnd hpar hcap hwf
    exact ⟨hq, hvis, hnd, fun j nj h => h, fun j nj h => Or.inl h,
      fun m hm => absurd hm (List.not_mem_nil m), hcap, hwf, rfl⟩
  | cons m ms ih =>
    intro st hmoves hq hvis hnd hpar hcap hwf
    rw [List.foldl_cons]
    rcases bfsPushStep_cases fi node st m with ⟨hk, heq⟩ | ⟨hk, heq⟩
    · -- the key is already visited: the state is unchanged
      rw [heq]
      obtain ⟨c1, c2, c3, c4, c5, c6, c7, c8, c9⟩ :=
        ih st (fun x hx => hmoves x (List.mem_cons_of_mem m hx)) hq hvis
          hnd hpar hcap hwf
      refine ⟨c1, c2, c3, c4, ?_, ?_, c7, c8, c9⟩
      · intro j nj h
        rcases c5 j nj h with h' | ⟨hj, mm, hmm, hnj⟩
        · exact Or.inl h'
        · exact Or.inr ⟨hj, mm, List.mem_cons_of_mem m hmm, hnj⟩
      · intro m' hm'
        rcases List.mem_cons.mp hm' with rfl | hm'
        · have hkmem : stateKey (applyMove node.positions m') ∈
              st.visited := by
            rw [List.contains, List.elem_eq_mem, decide_eq_true_iff] at hk
            exact hk
          rw [hvis, List.mem_reverse, List.mem_map] at hkmem
          obtain ⟨nj, hnjmem, hkey⟩ := hkmem
          obtain ⟨j, hj⟩ := List.get?_of_mem hnjmem
          have hpos : nj.positions = applyMove node.positions m' :=
            stateKey_inj hkey
          exact ⟨j, nj, c4 j nj hj, hpos, hcap j nj hj⟩
        · exact c6 m' hm'
    · -- fresh key: the child is appended and the key recorded
      rw [heq]
      have hm0 : m ∈ generateMoves ctx node.positions :=
        hmoves m (List.mem_cons_self m ms)
      have hwfnode : wfState ctx node.positions = true := hwf fi node hpar
      obtain ⟨hq2, hpar2⟩ := bfsPushStep_inv hq hpar m
      rw [heq] at hq2 hpar2
      have hknotmem : stateKey (applyMove node.positions m) ∉
          st.visited := by
        intro hmem
        rw [List.contains, List.elem_eq_mem] at hk
        rw [decide_eq_false_iff_not] at hk
        exact hk hmem
      have hvis' :
          (stateKey (applyMove node.positions m) :: st.visited) =
          (((st.queue ++ [(⟨applyMove node.positions m, Int.ofNat fi,
              some m, node.depth + 1⟩ : BfsNode)]).map fun n =>
            stateKey n.positions)).reverse := by
        rw [List.map_append, List.reverse_append]
        rw [← hvis]
        rfl
      have hnd' :
          (stateKey (applyMove node.positions m) :: st.visited).Nodup :=
        List.nodup_cons.mpr ⟨hknotmem, hnd⟩
      have hcap' : ∀ j nj, (st.queue ++ [(⟨applyMove node.positions m,
            Int.ofNat fi, some m, node.depth + 1⟩ : BfsNode)]).get? j =
            some nj →
          nj.depth ≤ node.depth + 1 := by
        intro j nj h
        by_cases hjlen : j < st.queue.length
        · rw [List.get?_append hjlen] at h
          exact hcap j nj h
        · have hjlt := (List.get?_eq_some.mp h).1
          simp only [List.length_append, List.length_singleton] at hjlt
          have hjeq : j = st.queue.length := by omega
          subst hjeq
          rw [List.get?_concat_length] at h
          rcases Option.some.inj h with rfl
          exact le_refl _
      have hwf' : ∀ j nj, (st.queue ++ [(⟨applyMove node.positions m,
            Int.ofNat fi, some m, node.depth + 1⟩ : BfsNode)]).get? j =
            some nj →
          wfState ctx nj.positions = true := by
        intro j nj h
        by_cases hjlen : j < st.queue.length
        · rw [List.get?_append hjlen] at h
          exact hwf j nj h
        · have hjlt := (List.get?_eq_some.mp h).1
          simp only [List.length_append, List.length_singleton] at hjlt
          have hjeq : j = st.queue.length := by omega
          subst hjeq
          rw [List.get?_concat_length] at h
          rcases Option.some.inj h with rfl
          exact wfState_applyMove hsu hwfnode hm0
      obtain ⟨c1, c2, c3, c4, c5, c6, c7, c8, c9⟩ :=
        ih _ (fun x hx => hmoves x (List.mem_cons_of_mem m hx)) hq2 hvis'
          hnd' hpar2 hcap' hwf'
      refine ⟨c1, c2, c3, ?_, ?_, ?_, c7, c8, c9⟩
      · intro j nj h
        apply c4
        show (st.queue ++ [(⟨applyMove node.positions m, Int.ofNat fi,
          some m, node.depth + 1⟩ : BfsNode)]).get? j = some nj
        rw [List.get?_append (List.get?_eq_some.mp h).1]
        exact h
      · intro j nj h
        rcases c5 j nj h with h' | ⟨hj, mm, hmm, hnj⟩
        · by_cases hjlen : j < st.queue.length
          · left
            rw [List.get?_append hjlen] at h'
            exact h'
          · right
            have hjlt := (List.get?_eq_some.mp h').1
            simp only [List.length_append, List.length_singleton] at hjlt
            have hjeq : j = st.queue.length := by omega
            subst hjeq
            rw [List.get?_concat_length] at h'
            rcases Option.some.inj h' with rfl
            exact ⟨le_refl _, m, List.mem_cons_self m ms, rfl⟩
        · refine Or.inr ⟨?_, mm, List.mem_cons_of_mem m hmm, hnj⟩
          simp only [List.length_append, List.length_singleton] at hj
          omega
      · intro m' hm'
        rcases List.mem_cons.mp hm' with rfl | hm'
        · refine ⟨st.queue.length,
            ⟨applyMove node.positions m', Int.ofNat fi, some m',
              node.depth + 1⟩, ?_, rfl, le_refl _⟩
          apply c4
          show (st.queue ++ [(⟨applyMove node.positions m', Int.ofNat fi,
            some m', node.depth + 1⟩ : BfsNode)]).get? st.queue.length = _
          rw [List.get?_concat_length]
        · exact c6 m' hm'

/-- The BFS search invariant: the queue is an append-only log of all
enqueued nodes; `visited` holds exactly their keys (newest first) without
duplicates; depths are nondecreasing along the queue and never exceed any
unpopped node's depth by more than one; every popped node is a non-goal
whose successors are all represented in the queue at depth at most one
more; and all enqueued states are well-formed. -/
structure BfsInv (ctx : Context) (init : List Position) (s : BfsState) :
    Prop where
  queueOk : bfsQueueOk init s.queue
  visEq : s.visited = (s.queue.map fun n => stateKey n.positions).reverse
  visNodup : s.visited.Nodup
  nonnil : 0 < s.queue.length
  frontLe : s.frontIndex ≤ s.queue.length
  mono : ∀ i j ni nj, i ≤ j → s.queue.get? i = some ni →
    s.queue.get? j = some nj → ni.depth ≤ nj.depth
  window : ∀ i j ni nj, s.frontIndex ≤ i → s.queue.get? i = some ni →
    s.queue.get? j = some nj → nj.depth ≤ ni.depth + 1
  closed : ∀ i ni, i < s.frontIndex → s.queue.get? i = some ni →
    isGoalState ctx ni.positions = false ∧
    ∀ m ∈ generateMoves ctx ni.positions, ∃ j nj,
      s.queue.get? j = some nj ∧
      nj.positions = applyMove ni.positions m ∧ nj.depth ≤ ni.depth + 1
  wfAll : ∀ i ni, s.queue.get? i = some ni →
    wfState ctx ni.positions = true

theorem bfsInv_initial (ctx : Context)
    (hwf : wfState ctx (initialPositions ctx) = true) :
    BfsInv ctx (initialPositions ctx)
      ⟨[⟨clonePositions (initialPositions ctx), -1, none, 0⟩], 0,
       [stateKey (initialPositions ctx)], 0, 0⟩ := by
  have hone : ∀ (i : Nat) (ni : BfsNode),
      ([⟨clonePositions (initialPositions ctx), -1, none, 0⟩] :
        List BfsNode).get? i = some ni →
      i = 0 ∧ ni = ⟨clonePositions (initialPositions ctx), -1, none, 0⟩ := by
    intro i ni h
    rcases i with _ | i
    · exact ⟨rfl, (Option.some.inj h).symm⟩
    · cases h
  refine ⟨bfs_initial_queueOk ctx, ?_, ?_, ?_, ?_, ?_, ?_, ?_, ?_⟩
  · simp [clonePositions_eq_self]
  · simp
  · simp
  · simp
  · intro i j ni nj _ hi hj
    rcases hone i ni hi with ⟨rfl, rfl⟩
    rcases hone j nj hj with ⟨rfl, rfl⟩
    exact le_refl _
  · intro i j ni nj _ hi hj
    rcases hone i ni hi with ⟨rfl, rfl⟩
    rcases hone j nj hj with ⟨rfl, rfl⟩
    omega
  · intro i ni hi hcon
    simp at hi
  · intro i ni hi
    rcases hone i ni hi with ⟨rfl, rfl⟩
    show wfState ctx (clonePositions (initialPositions ctx)) = true
    rw [clonePositions_eq_self]
    exact hwf

theorem bfsPushStep_frontIndex (fi : Nat) (p : BfsNode) (st : BfsState)
    (m : Move) : (bfsPushStep fi p st m).frontIndex = st.frontIndex := by
  unfold bfsPushStep
  dsimp only
  split <;> rfl

theorem bfsEnqueue_frontIndex (fi : Nat) (p : BfsNode) :
    ∀ (moves : List Move) (st : BfsState),
      (moves.foldl (bfsPushStep fi p) st).frontIndex = st.frontIndex := by
  intro moves
  induction moves with
  | nil => intro st; rfl
  | cons m ms ih =>
    intro st
    rw [List.foldl_cons, ih, bfsPushStep_frontIndex]

/-- One non-goal BFS expansion preserves the search invariant. -/
theorem bfsStep_inv {ctx : Context} {init : List Position} {s : BfsState}
    (hsu : singlesUnit ctx = true) (inv : BfsInv ctx init s)
    {node : BfsNode} (hnode : s.queue.get? s.frontIndex = some node)
    (hgoal : isGoalState ctx node.positions = false) :
    BfsInv ctx init
      (bfsEnqueueSuccessors ctx s.frontIndex node (bfsPopState s node)) := by
  have hfi : s.frontIndex < s.queue.length := (List.get?_eq_some.mp hnode).1
  have hcap : ∀ j nj, (bfsPopState s node).queue.get? j = some nj →
      nj.depth ≤ node.depth + 1 := fun j nj h =>
    inv.window s.frontIndex j node nj (le_refl _) hnode h
  obtain ⟨c1, c2, c3, c4, c5, c6, c7, c8, c9⟩ :=
    bfsEnqueue_inv hsu s.frontIndex node
      (generateMoves ctx node.positions) (bfsPopState s node)
      (fun m hm => hm) inv.queueOk inv.visEq inv.visNodup hnode hcap
      inv.wfAll
  have hfiT : (bfsEnqueueSuccessors ctx s.frontIndex node
      (bfsPopState s node)).frontIndex = s.frontIndex + 1 := by
    unfold bfsEnqueueSuccessors
    rw [bfsEnqueue_frontIndex]
    rfl
  have hlenT : s.queue.length ≤ (bfsEnqueueSuccessors ctx s.frontIndex node
      (bfsPopState s node)).queue.length := get?_ext_length c4
  refine ⟨c1, c2, c3, by omega, ?_, ?_, ?_, ?_, c8⟩
  · rw [hfiT]
    omega
  · -- depths nondecreasing
    intro i j ni nj hij hi hj
    rcases c5 i ni hi with hio | ⟨hilen, mi, hmi, hni⟩
    · rcases c5 j nj hj with hjo | ⟨hjlen, mj, hmj, hnj⟩
      · exact inv.mono i j ni nj hij hio hjo
      · rw [hnj]
        exact inv.window s.frontIndex i node ni (le_refl _) hnode hio
    · rcases c5 j nj hj with hjo | ⟨hjlen, mj, hmj, hnj⟩
      · have := (List.get?_eq_some.mp hjo).1
        omega
      · rw [hni, hnj]
  · -- the one-layer window
    intro i j ni nj hfi' hi hj
    rw [hfiT] at hfi'
    rcases c5 i ni hi with hio | ⟨hilen, mi, hmi, hni⟩
    · rcases c5 j nj hj with hjo | ⟨hjlen, mj, hmj, hnj⟩
      · exact inv.window i j ni nj (by omega) hio hjo
      · rw [hnj]
        have := inv.mono s.frontIndex i node ni (by omega) hnode hio
        simp only
        omega
    · rcases c5 j nj hj with hjo | ⟨hjlen, mj, hmj, hnj⟩
      · rw [hni]
        have := inv.window s.frontIndex j node nj (le_refl _) hnode hjo
        simp only
        omega
      · rw [hni, hnj]
        simp only
        omega
  · -- popped closure
    intro i ni hilt hi
    rw [hfiT] at hilt
    rcases c5 i ni hi with hio | ⟨hilen, mi, hmi, hni⟩
    · by_cases hifi : i < s.frontIndex
      · obtain ⟨hng, hwit⟩ := inv.closed i ni hifi hio
        refine ⟨hng, ?_⟩
        intro m hm
        obtain ⟨j, nj, hj, hpos, hdep⟩ := hwit m hm
        exact ⟨j, nj, c4 j nj hj, hpos, hdep⟩
      · have hieq : i = s.frontIndex := by omega
        subst hieq
        have hio' : s.queue.get? s.frontIndex = some ni := hio
        rw [hnode] at hio'
        rcases Option.some.inj hio' with rfl
        exact ⟨hgoal, fun m hm => c6 m hm⟩
    · have : (bfsPopState s node).queue.length ≤ i := hilen
      have : s.queue.length ≤ i := this
      omega

/-- The layering argument: under the invariant, if every enqueued node of
depth `< D` has already been popped, then every state reachable by a
valid move sequence within `min D (length)` moves is represented in the
queue at no greater depth. -/
theorem bfs_chain {ctx : Context} {init : List Position} {s : BfsState}
    (inv : BfsInv ctx init s) (D : Nat)
    (hpop : ∀ idx nidx, s.queue.get? idx = some nidx →
      nidx.depth < D → idx < s.frontIndex) :
    ∀ (ms : List Move), validMoveSeq ctx init ms = true →
      ∀ j, j ≤ ms.length → j ≤ D →
        ∃ idx nj, s.queue.get? idx = some nj ∧
          nj.positions = replayMoves init (ms.take j) ∧ nj.depth ≤ j := by
  intro ms hvalid j
  induction j with
  | zero =>
    intro _ _
    obtain ⟨n0, h0⟩ : ∃ n, s.queue.get? 0 = some n := by
      rw [List.get?_eq_get inv.nonnil]
      exact ⟨_, rfl⟩
    rcases inv.queueOk 0 n0 h0 with ⟨-, -, hpos, hdep⟩ |
        ⟨p, m, pn, -, hplt, -⟩
    · refine ⟨0, n0, h0, ?_, by omega⟩
      simpa using hpos
    · omega
  | succ j ihj =>
    intro hj hD
    obtain ⟨idx, nj, hidx, hpos, hdep⟩ := ihj (by omega) (by omega)
    have hpopped : idx < s.frontIndex := hpop idx nj hidx (by omega)
    obtain ⟨-, hwit⟩ := inv.closed idx nj hpopped hidx
    obtain ⟨m, hm⟩ : ∃ m, ms.get? j = some m := by
      rw [List.get?_eq_get (by omega)]
      exact ⟨_, rfl⟩
    have hmgen : m ∈ generateMoves ctx (replayMoves init (ms.take j)) :=
      validMoveSeq_get ctx ms init hvalid j m hm
    rw [← hpos] at hmgen
    obtain ⟨j2, nj2, hj2, hpos2, hdep2⟩ := hwit m hmgen
    refine ⟨j2, nj2, hj2, ?_, by omega⟩
    rw [hpos2, hpos]
    exact (replay_take_succ init ms j m hm).symm

/-- A `found` outcome carries a goal node of minimal depth: no valid move
sequence reaching a goal state can be shorter. -/
theorem bfsLoop_found_min {ctx : Context} {init : List Position}
    {sig : Nat → Bool} (hsu : singlesUnit ctx = true) :
    ∀ (fuel : Nat) (s : BfsState) (s' : BfsState) (i : Nat),
      BfsInv ctx init s →
      bfsLoop ctx sig fuel s = some (.found s' i) →
      ∃ node, s'.queue.get? i = some node ∧
        isGoalState ctx node.positions = true ∧
        ∀ ms, validMoveSeq ctx init ms = true →
          isGoalState ctx (replayMoves init ms) = true →
          node.depth ≤ ms.length := by
  intro fuel
  induction fuel with
  | zero => intro s s' i _ h; cases h
  | succ fuel ih =>
    intro s s' i inv h
    rw [bfsLoop] at h
    by_cases hfront : s.frontIndex < s.queue.length
    · rw [dif_pos hfront] at h
      by_cases hsig : sig s.frontIndex = true
      · rw [if_pos hsig] at h
        cases h
      · rw [if_neg hsig] at h
        dsimp only at h
        have hnode : s.queue.get? s.frontIndex =
            some (s.queue.get ⟨s.frontIndex, hfront⟩) :=
          List.get?_eq_get hfront
        by_cases hgoal :
            isGoalState ctx (s.queue.get ⟨s.frontIndex, hfront⟩).positions
              = true
        · rw [if_pos hgoal] at h
          cases h
          refine ⟨s.queue.get ⟨s.frontIndex, hfront⟩, hnode, hgoal, ?_⟩
          intro ms hvalid hgl
          by_contra hlt
          push_neg at hlt
          have hpop : ∀ idx nidx, s.queue.get? idx = some nidx →
              nidx.depth < (s.queue.get ⟨s.frontIndex, hfront⟩).depth →
              idx < s.frontIndex := by
            intro idx nidx hidx hdlt
            by_contra hge
            push_neg at hge
            have := inv.mono s.frontIndex idx _ nidx hge hnode hidx
            omega
          obtain ⟨idx, nj, hidx, hpos, hdep⟩ :=
            bfs_chain inv (s.queue.get ⟨s.frontIndex, hfront⟩).depth hpop
              ms hvalid ms.length (le_refl _) (by omega)
          have hidxlt : idx < s.frontIndex := hpop idx nj hidx (by omega)
          obtain ⟨hng, -⟩ := inv.closed idx nj hidxlt hidx
          rw [hpos, List.take_length] at hng
          rw [hgl] at hng
          cases hng
        · rw [if_neg hgoal] at h
          exact ih _ s' i
            (bfsStep_inv hsu inv hnode (by simpa using hgoal)) h
    · rw [dif_neg hfront] at h
      cases h

/-- An `exhausted` outcome certifies unsolvability: no valid move
sequence from the initial state reaches a goal state. -/
theorem bfsLoop_exhausted_complete {ctx : Context} {init : List Position}
    {sig : Nat → Bool} (hsu : singlesUnit ctx = true) :
    ∀ (fuel : Nat) (s : BfsState) (s' : BfsState),
      BfsInv ctx init s →
      bfsLoop ctx sig fuel s = some (.exhausted s') →
      ∀ ms, validMoveSeq ctx init ms = true →
        isGoalState ctx (replayMoves init ms) = false := by
  intro fuel
  induction fuel with
  | zero => intro s s' _ h; cases h
  | succ fuel ih =>
    intro s s' inv h
    rw [bfsLoop] at h
    by_cases hfront : s.frontIndex < s.queue.length
    · rw [dif_pos hfront] at h
      by_cases hsig : sig s.frontIndex = true
      · rw [if_pos hsig] at h
        cases h
      · rw [if_neg hsig] at h
        dsimp only at h
        have hnode : s.queue.get? s.frontIndex =
            some (s.queue.get ⟨s.frontIndex, hfront⟩) :=
          List.get?_eq_get hfront
        by_cases hgoal :
            isGoalState ctx (s.queue.get ⟨s.frontIndex, hfront⟩).positions
              = true
        · rw [if_pos hgoal] at h
          cases h
        · rw [if_neg hgoal] at h
          exact ih _ s'
            (bfsStep_inv hsu inv hnode (by simpa using hgoal)) h
    · rw [dif_neg hfront] at h
      cases h
      intro ms hvalid
      have hpop : ∀ idx nidx, s.queue.get? idx = some nidx →
          nidx.depth < ms.length + 1 → idx < s.frontIndex := by
        intro idx nidx hidx _
        have := (List.get?_eq_some.mp hidx).1
        omega
      obtain ⟨idx, nj, hidx, hpos, -⟩ :=
        bfs_chain inv (ms.length + 1) hpop ms hvalid ms.length (le_refl _)
          (by omega)
      have hidxlt : idx < s.frontIndex := by
        have := (List.get?_eq_some.mp hidx).1
        omega
      obtain ⟨hng, -⟩ := inv.closed idx nj hidxlt hidx
      rw [hpos, List.take_length] at hng
      exact hng

/-- With a never-asserted token, the BFS loop cannot abort. -/
theorem bfsLoop_no_abort {ctx : Context} :
    ∀ (fuel : Nat) (s : BfsState) (s' : BfsState),
      bfsLoop ctx (fun _ => false) fuel s = some (.aborted s') → False := by
  intro fuel
  induction fuel with
  | zero => intro s s' h; cases h
  | succ fuel ih =>
    intro s s' h
    rw [bfsLoop] at h
    by_cases hfront : s.frontIndex < s.queue.length
    · rw [dif_pos hfront] at h
      rw [if_neg (by simp)] at h
      dsimp only at h
      by_cases hgoal :
          isGoalState ctx (s.queue.get ⟨s.frontIndex, hfront⟩).positions
            = true
      · rw [if_pos hgoal] at h
        cases h
      · rw [if_neg hgoal] at h
        exact ih _ s' h
    · rw [dif_neg hfront] at h
      cases h

/-- All grid cells of an `R × C` board, as anchor candidates. -/
def allCells (R C : Nat) : List Position :=
  (List.range R).flatMap fun (r : Nat) =>
    (List.range C).map fun (c : Nat) => ⟨(r : Int), (c : Int)⟩

/-- All length-`n` anchor vectors over the grid cells. -/
def allStates (R C : Nat) : Nat → List (List Position)
  | 0 => [[]]
  | n + 1 =>
    (allCells R C).flatMap fun p => (allStates R C n).map fun qs => p :: qs

theorem mem_allCells {R C : Nat} {p : Position} (hr : 0 ≤ p.row)
    (hr2 : p.row < (R : Int)) (hc : 0 ≤ p.col) (hc2 : p.col < (C : Int)) :
    p ∈ allCells R C := by
  unfold allCells
  rw [List.mem_flatMap]
  refine ⟨p.row.toNat, by rw [List.mem_range]; omega, ?_⟩
  rw [List.mem_map]
  refine ⟨p.col.toNat, by rw [List.mem_range]; omega, ?_⟩
  cases p with
  | mk r c =>
    dsimp only at hr hr2 hc hc2
    simp only [Position.mk.injEq]
    constructor <;> omega

theorem mem_allStates {R C : Nat} : ∀ (n : Nat) (ps : List Position),
    ps.length = n →
    (∀ p ∈ ps, 0 ≤ p.row ∧ p.row < (R : Int) ∧ 0 ≤ p.col ∧
      p.col < (C : Int)) →
    ps ∈ allStates R C n := by
  intro n
  induction n with
  | zero =>
    intro ps hlen _
    rw [List.length_eq_zero] at hlen
    subst hlen
    exact List.mem_singleton.mpr rfl
  | succ n ih =>
    intro ps hlen hb
    rcases ps with _ | ⟨p, qs⟩
    · cases hlen
    · rw [allStates, List.mem_flatMap]
      obtain ⟨h1, h2, h3, h4⟩ := hb p (List.mem_cons_self p qs)
      refine ⟨p, mem_allCells h1 h2 h3 h4, List.mem_map.mpr
        ⟨qs, ih qs (by simpa using hlen)
          (fun q hq => hb q (List.mem_cons_of_mem p hq)), rfl⟩⟩

/-- In a well-formed state of a board whose vehicles all have positive
length, every anchor lies inside the grid. -/
theorem wf_anchor_bounds {ctx : Context} {ps : List Position}
    (hveh : ∀ v ∈ ctx.vehicles, 1 ≤ v.length)
    (hwf : wfState ctx ps = true) :
    ∀ p ∈ ps, 0 ≤ p.row ∧ p.row < ctx.rows ∧ 0 ≤ p.col ∧
      p.col < ctx.columns := by
  obtain ⟨hlen, hbounds, -⟩ := wfState_iff.mp hwf
  intro p hp
  obtain ⟨i, hi⟩ := List.get?_of_mem hp
  have hilt : i < ps.length := (List.get?_eq_some.mp hi).1
  obtain ⟨v, hv⟩ : ∃ v, ctx.vehicles.get? i = some v := by
    rw [List.get?_eq_get (by omega)]
    exact ⟨_, rfl⟩
  have hcell := hbounds i v p hv hi 0 (hveh v (List.get?_mem hv))
  have hcz : vehicleCell v p 0 = p := by
    unfold vehicleCell
    cases p
    simp
  rw [hcz] at hcell
  unfold cellInBounds at hcell
  simp only [Bool.and_eq_true, decide_eq_true_eq] at hcell
  obtain ⟨⟨⟨h1, h2⟩, h3⟩, h4⟩ := hcell
  exact ⟨h1, h2, h3, h4⟩

/-- The queue never outgrows the (finite) set of well-formed states:
distinct keys mean distinct states, and all states are anchor vectors
over the grid. -/
theorem bfsInv_queue_bound {ctx : Context} {init : List Position}
    {s : BfsState} (hveh : ∀ v ∈ ctx.vehicles, 1 ≤ v.length)
    (inv : BfsInv ctx init s) :
    s.queue.length ≤ (allStates ctx.rows.toNat ctx.columns.toNat
      ctx.vehicles.length).length := by
  have hnd : (s.queue.map fun n => n.positions).Nodup := by
    have h1 : ((s.queue.map fun n => n.positions).map stateKey).Nodup := by
      rw [List.map_map]
      have h2 := inv.visNodup
      rw [inv.visEq, List.nodup_reverse] at h2
      exact h2
    exact h1.of_map
  have hsub : ∀ x ∈ s.queue.map (fun n => n.positions),
      x ∈ allStates ctx.rows.toNat ctx.columns.toNat
        ctx.vehicles.length := by
    intro x hx
    obtain ⟨n, hn, rfl⟩ := List.mem_map.mp hx
    obtain ⟨i, hi⟩ := List.get?_of_mem hn
    have hwfx := inv.wfAll i n hi
    apply mem_allStates
    · exact (wfState_iff.mp hwfx).1
    · intro p hp
      obtain ⟨h1, h2, h3, h4⟩ := wf_anchor_bounds hveh hwfx p hp
      refine ⟨h1, by omega, h3, by omega⟩
  have hq1 : (s.queue.map fun n => n.positions).toFinset.card =
      (s.queue.map fun n => n.positions).length :=
    List.toFinset_card_of_nodup hnd
  have hq2 : (s.queue.map fun n => n.positions).toFinset ⊆
      (allStates ctx.rows.toNat ctx.columns.toNat
        ctx.vehicles.length).toFinset := by
    intro a ha
    exact List.mem_toFinset.mpr (hsub a (List.mem_toFinset.mp ha))
  have hq3 := Finset.card_le_card hq2
  have hq4 := (allStates ctx.rows.toNat ctx.columns.toNat
    ctx.vehicles.length).toFinset_card_le
  have hq5 : (s.queue.map fun n => n.positions).length =
      s.queue.length := List.length_map _ _
  omega

/-- With enough fuel — one unit per possible queue entry plus one — the
BFS loop reaches an outcome. -/
theorem bfsLoop_terminates {ctx : Context} {init : List Position}
    (hsu : singlesUnit ctx = true)
    (hveh : ∀ v ∈ ctx.vehicles, 1 ≤ v.length) :
    ∀ (fuel : Nat) (s : BfsState), BfsInv ctx init s →
      (allStates ctx.rows.toNat ctx.columns.toNat
        ctx.vehicles.length).length + 1 - s.frontIndex ≤ fuel →
      ∃ outcome, bfsLoop ctx (fun _ => false) fuel s = some outcome := by
  intro fuel
  induction fuel with
  | zero =>
    intro s inv hf
    exfalso
    have h1 := inv.frontLe
    have h2 := bfsInv_queue_bound hveh inv
    omega
  | succ fuel ih =>
    intro s inv hf
    rw [bfsLoop]
    by_cases hfront : s.frontIndex < s.queue.length
    · rw [dif_pos hfront]
      rw [if_neg (by simp)]
      dsimp only
      by_cases hgoal :
          isGoalState ctx (s.queue.get ⟨s.frontIndex, hfront⟩).positions
            = true
      · rw [if_pos hgoal]
        exact ⟨_, rfl⟩
      · rw [if_neg hgoal]
        have hnode : s.queue.get? s.frontIndex =
            some (s.queue.get ⟨s.frontIndex, hfront⟩) :=
          List.get?_eq_get hfront
        have inv' := bfsStep_inv hsu inv hnode (by simpa using hgoal)
        apply ih _ inv'
        have hfiT : (bfsEnqueueSuccessors ctx s.frontIndex
            (s.queue.get ⟨s.frontIndex, hfront⟩)
            (bfsPopState s (s.queue.get ⟨s.frontIndex, hfront⟩))).frontIndex
            = s.frontIndex + 1 := by
          unfold bfsEnqueueSuccessors
          rw [bfsEnqueue_frontIndex]
          rfl
        rw [hfiT]
        omega
    · rw [dif_neg hfront]
      exact ⟨_, rfl⟩

/--
C3: BFS optimality.  On every well-formed solvable board (each `single`
vehicle of unit length, each vehicle of positive length, the initial
state well-formed, and some valid move sequence reaching a goal state),
the BFS solver — run with a never-asserted token and sufficient fuel —
returns a `solved` result whose moves replay to a goal state and whose
move count is minimal: no valid move sequence reaching a goal state is
shorter, each generated move counting as one unit regardless of its
`steps` value.
-/
theorem bfs_moves_minimal (ctx : Context)
    (hsu : singlesUnit ctx = true)
    (hveh : ∀ v ∈ ctx.vehicles, 1 ≤ v.length)
    (hwf : wfState ctx (initialPositions ctx) = true)
    (sol : List Move)
    (hvalid : validMoveSeq ctx (initialPositions ctx) sol = true)
    (hgoal : isGoalState ctx
      (replayMoves (initialPositions ctx) sol) = true) :
    ∃ fuel r, solveWithBfs ctx (fun _ => false) fuel = some r ∧
      r.status = .solved ∧
      isGoalState ctx (replayMoves (initialPositions ctx) r.moves) =
        true ∧
      r.stateHistory = buildStateHistory (initialPositions ctx) r.moves ∧
      ∀ ms, validMoveSeq ctx (initialPositions ctx) ms = true →
        isGoalState ctx (replayMoves (initialPositions ctx) ms) = true →
        r.moves.length ≤ ms.length := by
  have inv0 := bfsInv_initial ctx hwf
  obtain ⟨outcome, hout⟩ :=
    bfsLoop_terminates hsu hveh
      ((allStates ctx.rows.toNat ctx.columns.toNat
        ctx.vehicles.length).length + 1)
      ⟨[⟨clonePositions (initialPositions ctx), -1, none, 0⟩], 0,
       [stateKey (initialPositions ctx)], 0, 0⟩ inv0 (by omega)
  have hrun : solveWithBfs ctx (fun _ => false)
      ((allStates ctx.rows.toNat ctx.columns.toNat
        ctx.vehicles.length).length + 1) =
      (bfsLoop ctx (fun _ => false)
        ((allStates ctx.rows.toNat ctx.columns.toNat
          ctx.vehicles.length).length + 1)
        ⟨[⟨clonePositions (initialPositions ctx), -1, none, 0⟩], 0,
         [stateKey (initialPositions ctx)], 0, 0⟩).map
        (bfsResult ctx (initialPositions ctx)) := rfl
  rcases outcome with s' | ⟨s', i⟩ | s'
  · exact absurd hout (fun h => bfsLoop_no_abort _ _ _ h)
  · -- found: assemble the solved result
    refine ⟨(allStates ctx.rows.toNat ctx.columns.toNat
        ctx.vehicles.length).length + 1,
      bfsResult ctx (initialPositions ctx) (.found s' i), ?_, rfl, ?_, ?_,
      ?_⟩
    · rw [hrun, hout]
      rfl
    · have hspec := solveWithBfs_solved_spec
        (show solveWithBfs ctx (fun _ => false) _ =
          some (bfsResult ctx (initialPositions ctx) (.found s' i)) from
          by rw [hrun, hout]; rfl) rfl
      exact hspec.1
    · have hspec := solveWithBfs_solved_spec
        (show solveWithBfs ctx (fun _ => false) _ =
          some (bfsResult ctx (initialPositions ctx) (.found s' i)) from
          by rw [hrun, hout]; rfl) rfl
      exact hspec.2.1
    · obtain ⟨node, hnode, -, hmin⟩ :=
        bfsLoop_found_min hsu _ _ s' i inv0 hout
      have hq' : bfsQueueOk (initialPositions ctx) s'.queue :=
        (bfsLoop_found_inv _ _ s' i (bfs_initial_queueOk ctx) hout).1
      have hlenm : (reconstructPath s'.queue (Int.ofNat i)).length =
          node.depth := (reconstructPath_spec hq' hnode).2
      intro ms hv hg
      have hmv : (bfsResult ctx (initialPositions ctx)
          (.found s' i)).moves = reconstructPath s'.queue (Int.ofNat i) :=
        rfl
      rw [hmv, hlenm]
      exact hmin ms hv hg
  · -- exhausted is impossible on a solvable board
    exfalso
    have := bfsLoop_exhausted_complete hsu _ _ s' inv0 hout sol hvalid
    rw [hgoal] at this
    cases this

/-- A 1×2 board: the goal single sits at `(0,0)`, the exit at `(0,1)`;
one move right solves it. -/
def minimalCtx : Context :=
  ⟨1, 2, ⟨0, 1⟩, [⟨.single, 1, true, "carro objetivo", ⟨0, 0⟩⟩], 0⟩

/-- Witness for C3: the optimality theorem applied to a concrete solvable
board and its one-move solution. -/
theorem bfs_moves_minimal_witness :
    ∃ fuel r, solveWithBfs minimalCtx (fun _ => false) fuel = some r ∧
      r.status = .solved ∧
      isGoalState minimalCtx
        (replayMoves (initialPositions minimalCtx) r.moves) = true ∧
      r.stateHistory =
        buildStateHistory (initialPositions minimalCtx) r.moves ∧
      ∀ ms, validMoveSeq minimalCtx (initialPositions minimalCtx) ms =
          true →
        isGoalState minimalCtx
          (replayMoves (initialPositions minimalCtx) ms) = true →
        r.moves.length ≤ ms.length :=
  bfs_moves_minimal minimalCtx (by decide) (by decide) (by decide)
    [⟨0, .right, 1⟩] (by decide) (by decide)

end TrafficJam
